import Mathlib

/-! # tvlearn: the bridge between the application and the media engine

A shallow embedding of `src/core/mpvcore.cpp`: the value marshaler
(`variantToMpvNode`, `mpvPropertyToVariant`, `freeMpvNode`), the event drain
(`handleEvents`), and the calls of the engine handle (commands, observation,
property access, start-up, teardown, rendering); of the channel storage of
`src/core/jsonparser.cpp` and `src/data/channeldata.cpp`; of the channel list
of `src/core/channelmanager.cpp`; and of the volume, mute and property slots of
`src/core/playbackcontroller.cpp`.

Modelling conventions.

* A `QString` is a Lean `String`.  Its UTF-8 form is kept at the level of code
  points: a buffer is a `List Char`, one entry per encoded code point.  UTF-8
  encodes U+0000 as the single byte `00` and no other code point contains that
  byte, so the first zero byte of the buffer is the first `NUL` entry.
* A `double` is carried as its 64-bit pattern; the marshaler only copies it.
  Two doubles are equal when their patterns are.
* An integer payload is an `Int`; the marshaler copies it between `qlonglong`
  and `int64_t` without arithmetic.
* Native storage is a tree that names the heap block behind every pointer, so
  that allocation and release can be counted.  `malloc` and `new` always
  succeed in the model.  Storage that was allocated and not yet written is
  marked as such, and a read of it is recorded as a fault.
* The engine is its event queue, its registered observations, the command
  strings and asynchronous sets it was given, the property values it holds, its
  start-up calls, and the codes it answers with.
* The lines written with `qDebug` and `qWarning` are recorded for `getProperty`,
  `setProperty`, `initialize`, `renderFrame`, `loadFromFile`, `setVolume` and
  `setMute`; for the other functions they, and the result codes that only
  decide them, are left out.
* A JSON document is a tree of values; its text form, written and read by the
  Qt library, is not part of the model: the parser of the library is a
  parameter `fromJson`, and a file is the text it holds when it opens.
* An index into a `QList` outside its bounds is not defined; the functions of
  the channel list return `Option.none` if they make such an access, and are
  shown never to do so from a state in which the current index is valid.
* Qt's conversions of a double or a text to a number are parameters
  (`QtConversions`); the conversions between integers and Bool are computed.
-/

namespace TvLearn

/-! ## Texts -/

/-- The terminating zero of a C string. -/
def NUL : Char := Char.ofNat 0

/-- The UTF-16 code units of one code point, as `QString` stores them. -/
def utf16Units (c : Char) : List Nat :=
  if c.toNat < 0x10000 then [c.toNat]
  else [0xD800 + (c.toNat - 0x10000) / 0x400, 0xDC00 + (c.toNat - 0x10000) % 0x400]

/-- The code units of a `QString`. -/
def toUtf16 (s : String) : List Nat :=
  (s.data.map utf16Units).flatten

/-- `QString::operator<`: lexicographic on code units. -/
def qstringLess (a b : String) : Bool :=
  decide (toUtf16 a < toUtf16 b)

/-- `s.toUtf8()` copied with its terminator: `malloc(ba.size() + 1)` followed by
`memcpy(dst, ba.constData(), ba.size() + 1)`. -/
def utf8Buffer (s : String) : List Char :=
  s.data ++ [NUL]

/-- `QString::fromUtf8(const char *)`: the length is taken with `strlen`, so the
text ends before the first zero. -/
def fromUtf8 (buf : List Char) : String :=
  ⟨buf.takeWhile (fun c => c != NUL)⟩

/-! ## The dynamic value (`QVariant`) -/

/-- A `QVariant`, by meta type.  `map` is a `QVariantMap`: a `QMap` keeps its
entries in strictly ascending key order (see `QVariant.wellFormed`). -/
inductive QVariant where
  | invalid
  | bool (b : Bool)
  | int (i : Int)
  | longLong (i : Int)
  | double (bits : Nat)
  | string (s : String)
  | list (xs : List QVariant)
  | map (m : List (String × QVariant))
  | other (typeId : Nat)

/-- `QMap::insert`: the entry goes to its place in key order; an entry with an
equivalent key has its value replaced. -/
def qmapInsert (k : String) (v : QVariant) :
    List (String × QVariant) → List (String × QVariant)
  | [] => [(k, v)]
  | (k', v') :: rest =>
    if qstringLess k' k then (k', v') :: qmapInsert k v rest
    else if qstringLess k k' then (k, v) :: (k', v') :: rest
    else (k, v) :: rest

/-- `QMap::value(key)`: the value stored under an equivalent key. -/
def qmapValue (k : String) : List (String × QVariant) → Option QVariant
  | [] => none
  | (k', v') :: rest =>
    if qstringLess k' k then qmapValue k rest
    else if qstringLess k k' then none
    else some v'

/-- Two keys that `QMap` does not take for the same key: one is less than the
other. -/
def keysDiffer (a b : String) : Bool :=
  qstringLess a b || qstringLess b a

/-! ## Native storage -/

/-- A `char *` that was written: the block it points to and the block content. -/
structure CStr where
  ptr : Nat
  buf : List Char
  deriving DecidableEq, Repr

/-- An `mpv_node`.  `uninit` is storage that nothing has written yet (a slot of
`new mpv_node[n]`); it is not a format.  A key slot of `new char *[n]` is
`Option.none` until a pointer is stored in it.  `other` collects the formats the
bridge has no case for (OSD string, byte array, ...). -/
inductive MpvNode where
  | uninit
  | none
  | string (s : CStr)
  | flag (v : Int)
  | int64 (v : Int)
  | double (bits : Nat)
  | nodeArray (list values : Nat) (vs : List MpvNode)
  | nodeMap (list values keys : Nat) (es : List (Option CStr × MpvNode))
  | other (format : Nat)

/-- What a release can do wrong. -/
inductive Fault where
  | badFree (p : Nat)
  | uninitNode
  | uninitKey
  deriving DecidableEq, Repr

/-- The allocator: the next unused block, the blocks outstanding, and the
faults seen so far.  `badFree p` is a release of a block that is not
outstanding (a second release, or a pointer never handed out); `uninitNode` is a
read of the format of unwritten storage; `uninitKey` is a release through an
unwritten key slot. -/
structure Heap where
  next : Nat
  live : List Nat
  faults : List Fault
  deriving DecidableEq, Repr

/-- `malloc` / `new`: a fresh block. -/
def Heap.alloc (h : Heap) : Nat × Heap :=
  (h.next, { h with next := h.next + 1, live := h.next :: h.live })

/-- `free` / `delete`: the block stops being outstanding. -/
def Heap.release (h : Heap) (p : Nat) : Heap :=
  if p ∈ h.live then { h with live := h.live.erase p }
  else { h with faults := Fault.badFree p :: h.faults }

/-- A fault that is not a release of a block. -/
def Heap.fault (h : Heap) (f : Fault) : Heap :=
  { h with faults := f :: h.faults }

/-- The empty heap. -/
def Heap.empty : Heap := ⟨0, [], []⟩

/-! ## `MPVCore::freeMpvNode` -/

mutual
/-- `freeMpvNode(node)`: releases what the node owns and sets its format to
`MPV_FORMAT_NONE`.  Returns the heap and the new content of `*node`. -/
def freeMpvNode (h : Heap) : MpvNode → Heap × MpvNode
  | .uninit => (h.fault .uninitNode, .none)
  | .string s => (h.release s.ptr, .none)
  | .nodeArray l v vs => (((freeValues h vs).release v).release l, .none)
  | .nodeMap l v k es => ((((freeEntries h es).release v).release k).release l, .none)
  | _ => (h, .none)
/-- The loop `for (i = 0; i < list->num; i++)` of an array node. -/
def freeValues (h : Heap) : List MpvNode → Heap
  | [] => h
  | n :: ns => freeValues (freeMpvNode h n).1 ns
/-- The loop `for (i = 0; i < list->num; i++)` of a map node: the key first,
then the value. -/
def freeEntries (h : Heap) : List (Option CStr × MpvNode) → Heap
  | [] => h
  | (key, n) :: es =>
    freeEntries
      (freeMpvNode (match key with
                    | some c => h.release c.ptr
                    | Option.none => h.fault .uninitKey) n).1 es
end

/-! ## `MPVCore::variantToMpvNode` -/

mutual
/-- `variantToMpvNode(value, node)`: `node` is the content of `*node` on entry.
Returns the heap, the content of `*node` on exit, and the result. -/
def variantToMpvNode (h : Heap) (value : QVariant) (node : MpvNode) :
    Heap × MpvNode × Bool :=
  match value with
  | .bool b => (h, .flag (if b then 1 else 0), true)
  | .int i => (h, .int64 i, true)
  | .longLong i => (h, .int64 i, true)
  | .double d => (h, .double d, true)
  | .string s => (h.alloc.2, .string ⟨h.alloc.1, utf8Buffer s⟩, true)
  | .list xs =>
    let l := h.alloc
    let v := l.2.alloc
    let r := encodeValues v.2 xs
    if r.2.2 then (r.1, .nodeArray l.1 v.1 r.2.1, true)
    else
      let f := freeMpvNode r.1 (.nodeArray l.1 v.1 r.2.1)
      (f.1, f.2, false)
  | .map m =>
    let l := h.alloc
    let v := l.2.alloc
    let k := v.2.alloc
    let r := encodeEntries k.2 m
    if r.2.2 then (r.1, .nodeMap l.1 v.1 k.1 r.2.1, true)
    else
      let f := freeMpvNode r.1 (.nodeMap l.1 v.1 k.1 r.2.1)
      (f.1, f.2, false)
  | .invalid => (h, node, false)
  | .other _ => (h, node, false)
/-- The loop over the elements of a list.  Returns the content of the `values`
array when the loop is left: converted slots, then, after a failure, the slot
the failed call was given and the slots not reached. -/
def encodeValues (h : Heap) : List QVariant → Heap × List MpvNode × Bool
  | [] => (h, [], true)
  | x :: xs =>
    let r := variantToMpvNode h x .uninit
    if r.2.2 then
      let rs := encodeValues r.1 xs
      (rs.1, r.2.1 :: rs.2.1, rs.2.2)
    else (r.1, r.2.1 :: xs.map (fun _ => MpvNode.uninit), false)
/-- The loop over the entries of a map, in key order.  Returns the content of
the `keys` and `values` arrays when the loop is left. -/
def encodeEntries (h : Heap) : List (String × QVariant) → Heap × List (Option CStr × MpvNode) × Bool
  | [] => (h, [], true)
  | (key, x) :: rest =>
    let a := h.alloc
    let r := variantToMpvNode a.2 x .uninit
    if r.2.2 then
      let rs := encodeEntries r.1 rest
      (rs.1, (some ⟨a.1, utf8Buffer key⟩, r.2.1) :: rs.2.1, rs.2.2)
    else
      (r.1, (some ⟨a.1, utf8Buffer key⟩, r.2.1)
              :: rest.map (fun _ => (Option.none, MpvNode.uninit)), false)
end

/-! ## `MPVCore::mpvPropertyToVariant` -/

/-- The text behind a key slot. -/
def keyText : Option CStr → String
  | some c => fromUtf8 c.buf
  | Option.none => ""

mutual
/-- `mpvPropertyToVariant(prop)`. -/
def mpvPropertyToVariant : MpvNode → QVariant
  | .string s => .string (fromUtf8 s.buf)
  | .flag v => .bool (v != 0)
  | .int64 v => .longLong v
  | .double d => .double d
  | .nodeArray _ _ vs => .list (decodeValues vs)
  | .nodeMap _ _ _ es => .map (decodeEntries [] es)
  | _ => .invalid
/-- The loop `variantList.append(mpvPropertyToVariant(list->values[i]))`. -/
def decodeValues : List MpvNode → List QVariant
  | [] => []
  | n :: ns => mpvPropertyToVariant n :: decodeValues ns
/-- The loop `variantMap.insert(fromUtf8(list->keys[i]), ...)`, from the map
built so far. -/
def decodeEntries (acc : List (String × QVariant)) :
    List (Option CStr × MpvNode) → List (String × QVariant)
  | [] => acc
  | (key, n) :: es => decodeEntries (qmapInsert (keyText key) (mpvPropertyToVariant n) acc) es
end

/-! ## Predicates on values -/

/-- No U+0000 in the text. -/
def noNul (s : String) : Bool :=
  s.data.all (fun c => c != NUL)

mutual
/-- The invariant of `QMap`: in every map, at every depth, each key is less
than all keys after it. -/
def QVariant.wellFormed : QVariant → Bool
  | .list xs => wellFormedList xs
  | .map m => wellFormedEntries m
  | _ => true
/-- `QVariant.wellFormed` for the elements of a list. -/
def wellFormedList : List QVariant → Bool
  | [] => true
  | x :: xs => x.wellFormed && wellFormedList xs
/-- `QVariant.wellFormed` for the entries of a map. -/
def wellFormedEntries : List (String × QVariant) → Bool
  | [] => true
  | (k, x) :: rest =>
    rest.all (fun e => qstringLess k e.1) && (x.wellFormed && wellFormedEntries rest)
end

mutual
/-- The value and everything nested in it has one of the tags the encoder has
a branch for: Bool, Int or LongLong, Double, QString, QVariantList,
QVariantMap. -/
def QVariant.supported : QVariant → Bool
  | .bool _ => true
  | .int _ => true
  | .longLong _ => true
  | .double _ => true
  | .string _ => true
  | .list xs => supportedList xs
  | .map m => supportedEntries m
  | .invalid => false
  | .other _ => false
/-- `QVariant.supported` for the elements of a list. -/
def supportedList : List QVariant → Bool
  | [] => true
  | x :: xs => x.supported && supportedList xs
/-- `QVariant.supported` for the values of a map. -/
def supportedEntries : List (String × QVariant) → Bool
  | [] => true
  | (_, x) :: rest => x.supported && supportedEntries rest
end

mutual
/-- The value is built only from Bool, 64-bit Integer (`LongLong`), Double,
Text, Sequence and Mapping, and no text and no key in it contains U+0000. -/
def QVariant.plain : QVariant → Bool
  | .bool _ => true
  | .longLong _ => true
  | .double _ => true
  | .string s => noNul s
  | .list xs => plainList xs
  | .map m => plainEntries m
  | .int _ => false
  | .invalid => false
  | .other _ => false
/-- `QVariant.plain` for the elements of a list. -/
def plainList : List QVariant → Bool
  | [] => true
  | x :: xs => x.plain && plainList xs
/-- `QVariant.plain` for the entries of a map. -/
def plainEntries : List (String × QVariant) → Bool
  | [] => true
  | (k, x) :: rest => noNul k && (x.plain && plainEntries rest)
end

mutual
/-- The value is built only from Bool, 64-bit Integer (`LongLong`), Double,
Text, Sequence and Mapping. -/
def QVariant.valueTags : QVariant → Bool
  | .bool _ => true
  | .longLong _ => true
  | .double _ => true
  | .string _ => true
  | .list xs => valueTagsList xs
  | .map m => valueTagsEntries m
  | .int _ => false
  | .invalid => false
  | .other _ => false
/-- `QVariant.valueTags` for the elements of a list. -/
def valueTagsList : List QVariant → Bool
  | [] => true
  | x :: xs => x.valueTags && valueTagsList xs
/-- `QVariant.valueTags` for the values of a map. -/
def valueTagsEntries : List (String × QVariant) → Bool
  | [] => true
  | (_, x) :: rest => x.valueTags && valueTagsEntries rest
end

mutual
/-- No text and no key of the value, at any depth, contains U+0000. -/
def QVariant.nulFree : QVariant → Bool
  | .string s => noNul s
  | .list xs => nulFreeList xs
  | .map m => nulFreeEntries m
  | _ => true
/-- `QVariant.nulFree` for the elements of a list. -/
def nulFreeList : List QVariant → Bool
  | [] => true
  | x :: xs => x.nulFree && nulFreeList xs
/-- `QVariant.nulFree` for the entries of a map. -/
def nulFreeEntries : List (String × QVariant) → Bool
  | [] => true
  | (k, x) :: rest => noNul k && (x.nulFree && nulFreeEntries rest)
end

/-! ## `QVariant::toBool` -/

/-- `QVariant::toBool()`: the value of a Bool; for a number, whether it is not
zero (a double is zero when all bits below the sign are); for a text, whether
its lower-case form is none of the empty text, `0` and `false` (no character
outside ASCII has a lower-case form inside these words, so ASCII lower-casing
decides it); `false` for every other type. -/
def QVariant.toBool : QVariant → Bool
  | .bool b => b
  | .int i => i != 0
  | .longLong i => i != 0
  | .double bits => bits % 2 ^ 63 != 0
  | .string s => !(s.toLower == "" || s.toLower == "0" || s.toLower == "false")
  | _ => false

/-! ## The engine, as seen through its client API -/

/-- The format tags of the client API. -/
inductive MpvFormat where
  | none | string | osdString | flag | int64 | double | node | nodeArray | nodeMap | byteArray
  deriving DecidableEq, Repr

/-- The `format` and `data` of an `mpv_event_property`: a node when the format
is `MPV_FORMAT_NODE`, otherwise only the format is kept. -/
inductive PropertyData where
  | node (n : MpvNode)
  | other (format : MpvFormat)

/-- An `mpv_event_property`. -/
structure MpvEventProperty where
  name : List Char
  data : PropertyData

/-- An `mpv_event_log_message`; `pfx` is its field `prefix`. -/
structure MpvEventLogMessage where
  pfx : List Char
  level : List Char
  text : List Char

/-- An `mpv_event` other than `MPV_EVENT_NONE`; `data` may be null for the
kinds that carry data. -/
inductive MpvEvent where
  | propertyChange (prop : Option MpvEventProperty)
  | fileLoaded
  | logMessage (msg : Option MpvEventLogMessage)
  | commandReply (error : Int)
  | other (eventId : Nat)

/-- One `mpv_observe_property` call as the engine received it. -/
structure Observation where
  replyUserdata : Nat
  name : String
  format : MpvFormat
  deriving DecidableEq, Repr

/-- Modelled from the spec: the code with which the engine reports a property
as unavailable.  The client API header gives it the value -10; the bridge only
tests results for being negative and for being this code. -/
def MPV_ERROR_PROPERTY_UNAVAILABLE : Int := -10

/-- The calls of the start-up phase, as the engine receives them. -/
inductive EngineCall where
  | setOptionString (name value : String)
  | requestLogMessages (minLevel : String)
  | init
  | setWakeupCallback
  deriving DecidableEq, Repr

/-- The engine instance behind `mpv_handle *`: its event queue (oldest first),
the observations registered with it, and the command strings it was given;
the property values it holds (latest first), the asynchronous sets submitted to
it and its start-up calls, each in the order received; and what it answers:
`getError name` when asked for a property it holds no value of, `setReply` to an
asynchronous set, `logRequestReply` to a request for log messages and
`initializeReply` to `mpv_initialize`. -/
structure MpvHandle where
  events : List MpvEvent
  observed : List Observation
  commands : List String
  properties : List (String × MpvNode) := []
  asyncSets : List (String × MpvNode) := []
  calls : List EngineCall := []
  getError : String → Int := fun _ => MPV_ERROR_PROPERTY_UNAVAILABLE
  setReply : Int := 0
  logRequestReply : Int := 0
  initializeReply : Int := 0

/-- `mpv_wait_event(h, 0)`: the oldest queued event, or `Option.none` for
`MPV_EVENT_NONE` when the queue is empty. -/
def mpv_wait_event (h : MpvHandle) : Option MpvEvent × MpvHandle :=
  match h.events with
  | [] => (Option.none, h)
  | e :: rest => (some e, { h with events := rest })

/-- `mpv_observe_property(h, reply_userdata, name, format)`: the engine reads
the name as a C string and keeps the registration. -/
def mpv_observe_property (h : MpvHandle) (replyUserdata : Nat) (name : List Char)
    (format : MpvFormat) : MpvHandle :=
  { h with observed := h.observed ++ [⟨replyUserdata, fromUtf8 name, format⟩] }

/-- `mpv_command_string(h, args)`: the engine reads the command as a C string. -/
def mpv_command_string (h : MpvHandle) (args : List Char) : MpvHandle :=
  { h with commands := h.commands ++ [fromUtf8 args] }

/-- The value the engine holds for a property: the latest stored under the
name. -/
def lookupProperty (name : String) : List (String × MpvNode) → Option MpvNode
  | [] => Option.none
  | (k, n) :: rest => if k == name then some n else lookupProperty name rest

/-- `mpv_get_property(h, name, MPV_FORMAT_NODE, &node)`: the result code and the
content of `node` afterwards.  The engine reads the name as a C string; it
writes the node only when it holds a value, and `node` is an unwritten local
before the call. -/
def mpv_get_property (h : MpvHandle) (name : List Char) : Int × MpvNode :=
  match lookupProperty (fromUtf8 name) h.properties with
  | some n => (0, n)
  | Option.none => (h.getError (fromUtf8 name), MpvNode.uninit)

/-- Modelled from the spec: the engine double of the volume round-trip
scenario, which echoes state synchronously.
`mpv_set_property_async(h, reply_userdata, name, MPV_FORMAT_NODE, &node)`
records the submission and answers `setReply`; when that is not an error the
engine keeps a copy of the node as the value of the property. -/
def mpv_set_property_async (h : MpvHandle) (_replyUserdata : Nat) (name : List Char)
    (node : MpvNode) : Int × MpvHandle :=
  (h.setReply,
    if h.setReply < 0 then { h with asyncSets := h.asyncSets ++ [(fromUtf8 name, node)] }
    else { h with asyncSets := h.asyncSets ++ [(fromUtf8 name, node)],
                  properties := (fromUtf8 name, node) :: h.properties })

/-- `mpv_set_option_string(h, name, value)`; the bridge ignores the result. -/
def mpv_set_option_string (h : MpvHandle) (name value : String) : MpvHandle :=
  { h with calls := h.calls ++ [EngineCall.setOptionString name value] }

/-- `mpv_request_log_messages(h, min_level)`. -/
def mpv_request_log_messages (h : MpvHandle) (minLevel : String) : Int × MpvHandle :=
  (h.logRequestReply, { h with calls := h.calls ++ [EngineCall.requestLogMessages minLevel] })

/-- `mpv_initialize(h)`. -/
def mpv_initialize (h : MpvHandle) : Int × MpvHandle :=
  (h.initializeReply, { h with calls := h.calls ++ [EngineCall.init] })

/-- `mpv_set_wakeup_callback(h, cb, d)`. -/
def mpv_set_wakeup_callback (h : MpvHandle) : MpvHandle :=
  { h with calls := h.calls ++ [EngineCall.setWakeupCallback] }

/-- Modelled from the spec: a PropertyObservation is a subscribed property
name, and the engine delivers a change notification for it whenever the
underlying value changes.  A change of property `name` to `value` queues one
property-change event for every registration of that name. -/
def MpvHandle.changeProperty (h : MpvHandle) (name : String) (value : MpvNode) : MpvHandle :=
  { h with events := h.events ++
      (h.observed.filter (fun o => o.name == name)).map (fun o =>
        MpvEvent.propertyChange (some ⟨utf8Buffer o.name,
          if o.format = MpvFormat.node then PropertyData.node value
          else PropertyData.other o.format⟩)) }

/-! ## The engine handle (`MPVCore`) -/

/-- The signals of `MPVCore`. -/
inductive Signal where
  | propertyChanged (name : String) (value : QVariant)
  | fileLoaded
  | playbackFinished
  | frameSwapped
  | error (message : String)

/-- The members of `MPVCore`: the engine instance and the render context, each
absent while the pointer is null. -/
structure MPVCore where
  m_mpv : Option MpvHandle
  m_mpvGL : Option Nat

/-- An engine with an empty queue, no registration and no command received. -/
def MpvHandle.idle : MpvHandle :=
  { events := [], observed := [], commands := [] }

/-- A handle that holds the engine instance `h` and no render context. -/
def MPVCore.withEngine (h : MpvHandle) : MPVCore :=
  { m_mpv := some h, m_mpvGL := Option.none }

/-- `MPVCore::MPVCore()`: both members null. -/
def MPVCore.new : MPVCore :=
  { m_mpv := Option.none, m_mpvGL := Option.none }

/-- The body of the `switch` in `handleEvents`: what one event publishes.
`errorString` is the engine's `mpv_error_string`. -/
def dispatchEvent (errorString : Int → String) : MpvEvent → List Signal
  | .propertyChange (some ⟨name, .node n⟩) =>
    Signal.propertyChanged (fromUtf8 name) (mpvPropertyToVariant n) ::
      (if fromUtf8 name == "eof-reached" && (mpvPropertyToVariant n).toBool
       then [Signal.playbackFinished] else [])
  | .propertyChange _ => []
  | .fileLoaded => [Signal.fileLoaded]
  | .logMessage (some msg) =>
    if fromUtf8 msg.level == "error" then [Signal.error (fromUtf8 msg.text)] else []
  | .logMessage Option.none => []
  | .commandReply err => if err < 0 then [Signal.error (errorString err)] else []
  | .other _ => []

/-- The loop `while (m_mpv)` of `handleEvents`.  Each round takes one event
from the queue, so the loop is given one round per queued event and one for the
report that the queue is empty. -/
def drainEvents (errorString : Int → String) : Nat → MpvHandle → MpvHandle × List Signal
  | 0, h => (h, [])
  | rounds + 1, h =>
    match mpv_wait_event h with
    | (Option.none, h') => (h', [])
    | (some e, h') =>
      let r := drainEvents errorString rounds h'
      (r.1, dispatchEvent errorString e ++ r.2)

/-- `MPVCore::handleEvents()`: the new state and the signals emitted, in
order. -/
def MPVCore.handleEvents (errorString : Int → String) (core : MPVCore) :
    MPVCore × List Signal :=
  match core.m_mpv with
  | Option.none => (core, [])
  | some h =>
    let r := drainEvents errorString (h.events.length + 1) h
    ({ core with m_mpv := some r.1 }, r.2)

/-- `MPVCore::observeProperty(name)`. -/
def MPVCore.observeProperty (core : MPVCore) (name : String) : MPVCore :=
  match core.m_mpv with
  | Option.none => core
  | some h =>
    { core with m_mpv := some (mpv_observe_property h 0 (utf8Buffer name) MpvFormat.node) }

/-- The engine changes a property while the handle is alive (see
`MpvHandle.changeProperty`). -/
def MPVCore.engineChange (core : MPVCore) (name : String) (value : MpvNode) : MPVCore :=
  { core with m_mpv := core.m_mpv.map (fun h => h.changeProperty name value) }

/-- The signals that all the events of a queue publish, in queue order. -/
def published (errorString : Int → String) (queue : List MpvEvent) : List Signal :=
  (queue.map (dispatchEvent errorString)).flatten

/-- How the loop of `command` writes one argument. -/
def writtenArg (arg : String) : String :=
  if arg.data.contains ' ' then "\"" ++ arg ++ "\"" else arg

/-- The loop `for (int i = 0; i < byteArrays.size(); i++)` of `command`, from
index `i` with `cmdStr` built so far. -/
def buildCmdStr : Nat → List String → String → String
  | _, [], cmdStr => cmdStr
  | i, arg :: rest, cmdStr =>
    buildCmdStr (i + 1) rest ((if i > 0 then cmdStr ++ " " else cmdStr) ++ writtenArg arg)

/-- The command string `cmdStr` that `command` builds.  The arguments are
taken after `arg.toString()`; the passage through `toUtf8` and `fromUtf8` of a
whole byte array gives the text back. -/
def commandString (args : List String) : String :=
  buildCmdStr 0 args ""

/-- `MPVCore::command(args)`. -/
def MPVCore.command (core : MPVCore) (args : List String) : MPVCore :=
  match core.m_mpv with
  | Option.none => core
  | some h =>
    if args.isEmpty then core
    else { core with m_mpv := some (mpv_command_string h (utf8Buffer (commandString args))) }

/-! ## Property access (`setProperty`, `getProperty`) -/

/-- The level of a log line: `qDebug` or `qWarning`. -/
inductive LogLevel where
  | debug
  | warning
  deriving DecidableEq, Repr

/-- One line written to the log: its level and the items streamed into it. -/
structure LogLine where
  level : LogLevel
  items : List String
  deriving DecidableEq, Repr

/-- `MPVCore::getProperty(name)`: the value returned and the lines logged.
`errorString` is the engine's `mpv_error_string`. -/
def MPVCore.getProperty (errorString : Int → String) (core : MPVCore) (name : String) :
    QVariant × List LogLine :=
  match core.m_mpv with
  | Option.none =>
    (QVariant.invalid, [⟨LogLevel.debug, ["MPV not initialized when getting property:", name]⟩])
  | some h =>
    let r := mpv_get_property h (utf8Buffer name)
    if r.1 < 0 then
      if r.1 = MPV_ERROR_PROPERTY_UNAVAILABLE ∧ (name = "duration" ∨ name = "time-pos") then
        (QVariant.invalid, [⟨LogLevel.debug, ["Property not yet available:", name]⟩])
      else
        (QVariant.invalid,
          [⟨LogLevel.warning, ["Failed to get property:", name, "error:", errorString r.1]⟩])
    else (mpvPropertyToVariant r.2, [])

/-- `MPVCore::setProperty(name, value)`: the handle and the heap afterwards and
the lines logged.  The local `node` is unwritten before the conversion. -/
def MPVCore.setProperty (errorString : Int → String) (core : MPVCore) (heap : Heap)
    (name : String) (value : QVariant) : MPVCore × Heap × List LogLine :=
  match core.m_mpv with
  | Option.none => (core, heap, [])
  | some h =>
    let e := variantToMpvNode heap value MpvNode.uninit
    if e.2.2 then
      let r := mpv_set_property_async h 0 (utf8Buffer name) e.2.1
      let f := freeMpvNode e.1 e.2.1
      ({ core with m_mpv := some r.2 }, f.1,
        if r.1 < 0 then
          [⟨LogLevel.warning, ["Failed to set property:", name, "error:", errorString r.1]⟩]
        else [])
    else
      (core, e.1, [⟨LogLevel.warning, ["Failed to convert value for property:", name]⟩])

/-- The lines of a log at warning level. -/
def warnings (log : List LogLine) : List LogLine :=
  log.filter (fun l => l.level = LogLevel.warning)

/-! ## Start-up, teardown and rendering -/

/-- `MPVCore::initialize()`: the handle afterwards, the result and the lines
logged.  `created` is what `mpv_create()` returns: an engine instance, or
nothing when it returns null. -/
def MPVCore.initialize (errorString : Int → String) (created : Option MpvHandle)
    (core : MPVCore) : MPVCore × Bool × List LogLine :=
  match created with
  | Option.none =>
    ({ core with m_mpv := Option.none }, false,
      [⟨LogLevel.warning, ["Failed to create MPV instance"]⟩])
  | some h0 =>
    let h1 := mpv_set_option_string h0 "video-sync" "display-resample"
    let h2 := mpv_set_option_string h1 "hwdec" "auto"
    let h3 := mpv_set_option_string h2 "vo" "gpu"
    let h4 := mpv_set_option_string h3 "gpu-api" "auto"
    let h5 := mpv_set_option_string h4 "keep-open" "yes"
    let r := mpv_request_log_messages h5 "warn"
    let log : List LogLine :=
      if r.1 < 0 then [⟨LogLevel.warning, ["Failed to set log messages:", errorString r.1]⟩]
      else []
    let i := mpv_initialize r.2
    if i.1 < 0 then
      ({ core with m_mpv := some i.2 }, false,
        log ++ [⟨LogLevel.warning, ["Failed to initialize MPV:", errorString i.1]⟩])
    else
      let c : MPVCore := { core with m_mpv := some (mpv_set_wakeup_callback i.2) }
      (((((c.observeProperty "time-pos").observeProperty "duration").observeProperty
          "pause").observeProperty "volume").observeProperty "eof-reached", true, log)

/-- The calls `initialize` makes before `mpv_initialize`: the five baseline
options and the request for log messages. -/
def baselineCalls : List EngineCall :=
  [EngineCall.setOptionString "video-sync" "display-resample",
   EngineCall.setOptionString "hwdec" "auto",
   EngineCall.setOptionString "vo" "gpu",
   EngineCall.setOptionString "gpu-api" "auto",
   EngineCall.setOptionString "keep-open" "yes",
   EngineCall.requestLogMessages "warn"]

/-- The registrations `initialize` makes once the engine is initialised. -/
def startupObservations : List Observation :=
  [⟨0, "time-pos", MpvFormat.node⟩, ⟨0, "duration", MpvFormat.node⟩,
   ⟨0, "pause", MpvFormat.node⟩, ⟨0, "volume", MpvFormat.node⟩,
   ⟨0, "eof-reached", MpvFormat.node⟩]

/-- The line `initialize` logs when the request for log messages is refused. -/
def logRequestLines (errorString : Int → String) (h : MpvHandle) : List LogLine :=
  if h.logRequestReply < 0 then
    [⟨LogLevel.warning, ["Failed to set log messages:", errorString h.logRequestReply]⟩]
  else []

/-- The names registered for observation with the engine of a handle. -/
def MPVCore.observedNames (core : MPVCore) : List String :=
  match core.m_mpv with
  | Option.none => []
  | some h => h.observed.map (fun o => o.name)

/-- The start-up calls the engine of a handle has received. -/
def MPVCore.engineCalls (core : MPVCore) : List EngineCall :=
  match core.m_mpv with
  | Option.none => []
  | some h => h.calls

/-- What the destructor hands back to the engine. -/
inductive Release where
  | renderContextFree (ctx : Nat)
  | terminateDestroy
  deriving DecidableEq, Repr

/-- `MPVCore::~MPVCore()`: the members afterwards and the releases made, in
order. -/
def MPVCore.destructor (core : MPVCore) : MPVCore × List Release :=
  let s1 : MPVCore × List Release :=
    match core.m_mpvGL with
    | some ctx => ({ core with m_mpvGL := Option.none }, [Release.renderContextFree ctx])
    | Option.none => (core, [])
  match s1.1.m_mpv with
  | some _ => ({ s1.1 with m_mpv := Option.none }, s1.2 ++ [Release.terminateDestroy])
  | Option.none => s1

/-- `static_cast<int>` of an `unsigned int`: the same 32 bits read as signed. -/
def toInt32 (n : Nat) : Int :=
  if n % 2 ^ 32 < 2 ^ 31 then ((n % 2 ^ 32 : Nat) : Int)
  else ((n % 2 ^ 32 : Nat) : Int) - 2 ^ 32

/-- One `mpv_render_context_render` call: the context and the parameters given,
the fields of the `mpv_opengl_fbo` and the flip flag. -/
structure RenderCall where
  ctx : Nat
  fbo : Int
  w : Int
  h : Int
  internalFormat : Int
  flipY : Int
  deriving DecidableEq, Repr

/-- `MPVCore::renderFrame(fbo, width, height)`: the handle afterwards, the
render calls made, the signals emitted and the lines logged.  `renderReply` is
what the engine answers to a render call. -/
def MPVCore.renderFrame (errorString : Int → String) (renderReply : Int) (core : MPVCore)
    (fbo : Nat) (width height : Int) :
    MPVCore × List RenderCall × List Signal × List LogLine :=
  match core.m_mpvGL with
  | Option.none => (core, [], [], [])
  | some ctx =>
    (core, [⟨ctx, toInt32 fbo, width, height, 0, 1⟩], [],
      if renderReply < 0 then
        [⟨LogLevel.warning, ["Error rendering frame:", errorString renderReply]⟩]
      else [])

/-! ## Channel storage (`JSONParser`, `ChannelData`) -/

/-- A `QJsonValue`, by type; a number is carried as the bit pattern of its
double.  The members of an object are its key and value pairs. -/
inductive QJsonValue where
  | null
  | bool (b : Bool)
  | double (bits : Nat)
  | string (s : String)
  | array (xs : List QJsonValue)
  | object (members : List (String × QJsonValue))
  | undefined

/-- A `QJsonDocument`: empty, an array or an object. -/
inductive QJsonDocument where
  | null
  | array (xs : List QJsonValue)
  | object (members : List (String × QJsonValue))

/-- `QJsonValue::isString()`. -/
def QJsonValue.isString : QJsonValue → Bool
  | .string _ => true
  | _ => false

/-- `QJsonValue::isObject()`. -/
def QJsonValue.isObject : QJsonValue → Bool
  | .object _ => true
  | _ => false

/-- `QJsonValue::toString()`: the text of a string value, the null text of any
other. -/
def QJsonValue.toString : QJsonValue → String
  | .string s => s
  | _ => ""

/-- `QJsonValue::toObject()`: the members of an object value, none for any
other. -/
def QJsonValue.toObject : QJsonValue → List (String × QJsonValue)
  | .object members => members
  | _ => []

/-- `QJsonObject::contains(key)`. -/
def jsonContains (key : String) (obj : List (String × QJsonValue)) : Bool :=
  (obj.find? (fun m => m.1 == key)).isSome

/-- `QJsonObject::operator[](key) const`: the value under the key, or the
undefined value. -/
def jsonValue (key : String) (obj : List (String × QJsonValue)) : QJsonValue :=
  match obj.find? (fun m => m.1 == key) with
  | some m => m.2
  | Option.none => QJsonValue.undefined

/-- The assignment `obj[key] = value`: the member goes to its place in key
order, and replaces a member with the same key. -/
def jsonInsert (key : String) (value : QJsonValue) :
    List (String × QJsonValue) → List (String × QJsonValue)
  | [] => [(key, value)]
  | (k, v) :: rest =>
    if qstringLess k key then (k, v) :: jsonInsert key value rest
    else if qstringLess key k then (key, value) :: (k, v) :: rest
    else (key, value) :: rest

/-- A `ChannelData`. -/
structure ChannelData where
  m_name : String
  m_url : String
  deriving DecidableEq, Repr

/-- `ChannelData::toJson()`. -/
def ChannelData.toJson (c : ChannelData) : List (String × QJsonValue) :=
  jsonInsert "url" (QJsonValue.string c.m_url)
    (jsonInsert "name" (QJsonValue.string c.m_name) [])

/-- `ChannelData::fromJson(json)`. -/
def ChannelData.fromJson (json : List (String × QJsonValue)) : ChannelData :=
  ⟨(jsonValue "name" json).toString, (jsonValue "url" json).toString⟩

/-- `JSONParser::isValidChannel(obj)`. -/
def JSONParser.isValidChannel (obj : List (String × QJsonValue)) : Bool :=
  jsonContains "name" obj && jsonContains "url" obj &&
    (jsonValue "name" obj).isString && (jsonValue "url" obj).isString

/-- The loop `for (int i = 0; i < array.size(); ++i)` of `parseDocument`, from
the list `channels` built so far. -/
def JSONParser.parseLoop (channels : List ChannelData) : List QJsonValue → List ChannelData
  | [] => channels
  | v :: rest =>
    if !v.isObject then JSONParser.parseLoop channels rest
    else if JSONParser.isValidChannel v.toObject then
      JSONParser.parseLoop (channels ++ [ChannelData.fromJson v.toObject]) rest
    else JSONParser.parseLoop channels rest

/-- `JSONParser::parseDocument(doc)`: the list of channels, or the text it
throws. -/
def JSONParser.parseDocument (doc : QJsonDocument) : Except String (List ChannelData) :=
  match doc with
  | .array xs => Except.ok (JSONParser.parseLoop [] xs)
  | _ => Except.error "JSON document is not an array"

/-- `JSONParser::saveToFile(channels, filePath)`: the result and the document
written to the file, if any.  `canOpen` is whether the file opens for writing;
the text form of the document is not part of the model. -/
def JSONParser.saveToFile (canOpen : Bool) (channels : List ChannelData) :
    Bool × Option QJsonDocument :=
  let array := channels.foldl (fun arr c => arr ++ [QJsonValue.object c.toJson]) []
  if canOpen then (true, some (QJsonDocument.array array)) else (false, Option.none)

/-- The text stored under a key of an object, when there is a member with that
key and its value is a text. -/
def textField (key : String) (members : List (String × QJsonValue)) : Option String :=
  match members.find? (fun m => m.1 == key) with
  | some (_, QJsonValue.string s) => some s
  | _ => Option.none

/-- The record of a stored element in the words of the specification: an
object that has both a `name` and a `url` field of text type gives the record
with that name and url; any other element gives nothing. -/
def storedRecord : QJsonValue → Option ChannelData
  | .object members =>
    match textField "name" members, textField "url" members with
    | some n, some u => some ⟨n, u⟩
    | _, _ => Option.none
  | _ => Option.none

/-! ## The error an event surfaces -/

/-- The message of an `error` signal; nothing for any other signal. -/
def Signal.errorText : Signal → Option String
  | .error message => some message
  | _ => Option.none

/-- The error an engine event surfaces, in the words of the specification: the
text of a log message whose level is `error`, the engine's error string of a
command reply whose code is negative, and nothing for any other event. -/
def surfacedError (errorString : Int → String) : MpvEvent → Option String
  | .logMessage (some msg) =>
    if fromUtf8 msg.level = "error" then some (fromUtf8 msg.text) else Option.none
  | .commandReply code => if code < 0 then some (errorString code) else Option.none
  | _ => Option.none

/-! ## The channel list (`ChannelManager`) -/

/-- `ChannelData::ChannelData()`: both texts empty. -/
def ChannelData.new : ChannelData :=
  ⟨"", ""⟩

/-- The signals of `ChannelManager`. -/
inductive ChannelSignal where
  | channelsLoaded
  | currentChannelChanged (channel : ChannelData)
  | channelListChanged
  deriving DecidableEq, Repr

/-- The members of `ChannelManager` that hold state: the list and the current
index (an `int`; the lists considered are shorter than 2^31). -/
structure ChannelManager where
  m_channels : List ChannelData
  m_currentIndex : Int
  deriving DecidableEq, Repr

/-- `ChannelManager::ChannelManager()`: an empty list, current index -1. -/
def ChannelManager.new : ChannelManager :=
  { m_channels := [], m_currentIndex := -1 }

/-- `m_channels[i]` of a `QList`: the element at position `i`; outside the list
the access is not defined, which is `Option.none` here. -/
def channelAt (channels : List ChannelData) (i : Int) : Option ChannelData :=
  if i < 0 then Option.none else channels[i.toNat]?

/-- `JSONParser::parseString(jsonString)`: the list of channels, or the text it
throws.  `fromJson` is `QJsonDocument::fromJson` together with its error
report: the document, or the error string of the parse error. -/
def JSONParser.parseString (fromJson : String → Except String QJsonDocument)
    (jsonString : String) : Except String (List ChannelData) :=
  match fromJson jsonString with
  | Except.error e => Except.error ("JSON parse error: " ++ e)
  | Except.ok doc => JSONParser.parseDocument doc

/-- `JSONParser::parseFile(filePath)`: the list of channels, or the text it
throws.  `file` is the text of the file at `filePath`, `Option.none` when the
file does not open for reading. -/
def JSONParser.parseFile (fromJson : String → Except String QJsonDocument)
    (file : Option String) (filePath : String) : Except String (List ChannelData) :=
  match file with
  | Option.none => Except.error ("Could not open file: " ++ filePath)
  | some jsonString => JSONParser.parseString fromJson jsonString

/-- `ChannelManager::loadFromFile(filePath)`: the state afterwards, the result,
the signals emitted in order and the lines logged. -/
def ChannelManager.loadFromFile (fromJson : String → Except String QJsonDocument)
    (file : Option String) (mgr : ChannelManager) (filePath : String) :
    Option (ChannelManager × Bool × List ChannelSignal × List LogLine) :=
  match JSONParser.parseFile fromJson file filePath with
  | Except.ok channels =>
    let index : Int := if channels.isEmpty then -1 else 0
    if index ≥ 0 then
      (channelAt channels index).map fun c =>
        ({ m_channels := channels, m_currentIndex := index }, true,
          [ChannelSignal.channelsLoaded, ChannelSignal.channelListChanged,
            ChannelSignal.currentChannelChanged c], [])
    else
      some ({ m_channels := channels, m_currentIndex := index }, true,
        [ChannelSignal.channelsLoaded, ChannelSignal.channelListChanged], [])
  | Except.error error =>
    some (mgr, false, [], [⟨LogLevel.warning, ["Error loading channels:", error]⟩])

/-- `ChannelManager::currentChannel()`. -/
def ChannelManager.currentChannel (mgr : ChannelManager) : Option ChannelData :=
  if mgr.m_currentIndex ≥ 0 ∧ mgr.m_currentIndex < mgr.m_channels.length then
    channelAt mgr.m_channels mgr.m_currentIndex
  else some ChannelData.new

/-- `ChannelManager::setCurrentIndex(index)`: the state afterwards, the result
and the signals emitted. -/
def ChannelManager.setCurrentIndex (mgr : ChannelManager) (index : Int) :
    Option (ChannelManager × Bool × List ChannelSignal) :=
  if index < 0 ∨ index ≥ mgr.m_channels.length then some (mgr, false, [])
  else if mgr.m_currentIndex ≠ index then
    (channelAt mgr.m_channels index).map fun c =>
      ({ mgr with m_currentIndex := index }, true, [ChannelSignal.currentChannelChanged c])
  else some (mgr, true, [])

/-- `ChannelManager::addChannel(channel)`: the state afterwards and the signals
emitted. -/
def ChannelManager.addChannel (mgr : ChannelManager) (channel : ChannelData) :
    Option (ChannelManager × List ChannelSignal) :=
  let channels := mgr.m_channels ++ [channel]
  if mgr.m_currentIndex < 0 then
    (channelAt channels 0).map fun c =>
      ({ m_channels := channels, m_currentIndex := 0 },
        [ChannelSignal.currentChannelChanged c, ChannelSignal.channelListChanged])
  else
    some ({ m_channels := channels, m_currentIndex := mgr.m_currentIndex },
      [ChannelSignal.channelListChanged])

/-- `ChannelManager::removeChannel(index)`: the state afterwards, the result and
the signals emitted; `removeAt` is `List.eraseIdx`. -/
def ChannelManager.removeChannel (mgr : ChannelManager) (index : Int) :
    Option (ChannelManager × Bool × List ChannelSignal) :=
  if index < 0 ∨ index ≥ mgr.m_channels.length then some (mgr, false, [])
  else
    let channels := mgr.m_channels.eraseIdx index.toNat
    if channels.isEmpty then
      some ({ m_channels := channels, m_currentIndex := -1 }, true,
        [ChannelSignal.channelListChanged])
    else if mgr.m_currentIndex ≥ channels.length then
      (channelAt channels ((channels.length : Int) - 1)).map fun c =>
        ({ m_channels := channels, m_currentIndex := (channels.length : Int) - 1 }, true,
          [ChannelSignal.currentChannelChanged c, ChannelSignal.channelListChanged])
    else if mgr.m_currentIndex = index then
      (channelAt channels mgr.m_currentIndex).map fun c =>
        ({ m_channels := channels, m_currentIndex := mgr.m_currentIndex }, true,
          [ChannelSignal.currentChannelChanged c, ChannelSignal.channelListChanged])
    else
      some ({ m_channels := channels, m_currentIndex := mgr.m_currentIndex }, true,
        [ChannelSignal.channelListChanged])

/-- `ChannelManager::updateChannel(index, channel)`: the state afterwards, the
result and the signals emitted; the assignment `m_channels[index] = channel` is
`List.set`. -/
def ChannelManager.updateChannel (mgr : ChannelManager) (index : Int)
    (channel : ChannelData) : Option (ChannelManager × Bool × List ChannelSignal) :=
  if index < 0 ∨ index ≥ mgr.m_channels.length then some (mgr, false, [])
  else
    let channels := mgr.m_channels.set index.toNat channel
    if mgr.m_currentIndex = index then
      (channelAt channels mgr.m_currentIndex).map fun c =>
        ({ m_channels := channels, m_currentIndex := mgr.m_currentIndex }, true,
          [ChannelSignal.currentChannelChanged c, ChannelSignal.channelListChanged])
    else
      some ({ m_channels := channels, m_currentIndex := mgr.m_currentIndex }, true,
        [ChannelSignal.channelListChanged])

/-- One call of a method of `ChannelManager` that can change its state; a load
carries the text of the file at the time of the call (`Option.none` when the
file does not open). -/
inductive ChannelCall where
  | loadFromFile (filePath : String) (file : Option String)
  | setCurrentIndex (index : Int)
  | addChannel (channel : ChannelData)
  | removeChannel (index : Int)
  | updateChannel (index : Int) (channel : ChannelData)

/-- The state after one call. -/
def ChannelManager.call (fromJson : String → Except String QJsonDocument)
    (mgr : ChannelManager) : ChannelCall → Option ChannelManager
  | .loadFromFile filePath file =>
    (mgr.loadFromFile fromJson file filePath).map fun r => r.1
  | .setCurrentIndex index => (mgr.setCurrentIndex index).map fun r => r.1
  | .addChannel channel => (mgr.addChannel channel).map fun r => r.1
  | .removeChannel index => (mgr.removeChannel index).map fun r => r.1
  | .updateChannel index channel => (mgr.updateChannel index channel).map fun r => r.1

/-- The state after a sequence of calls, first call first. -/
def ChannelManager.run (fromJson : String → Except String QJsonDocument) :
    ChannelManager → List ChannelCall → Option ChannelManager
  | mgr, [] => some mgr
  | mgr, c :: rest =>
    match mgr.call fromJson c with
    | some mgr' => ChannelManager.run fromJson mgr' rest
    | Option.none => Option.none

/-! ## The playback projection (`PlaybackController`) -/

/-- The conversions of Qt between numbers and texts that the model takes as
given: a double (bit pattern) to `int`, a text to `int`, an integer to a double
and a text to a double. -/
structure QtConversions where
  doubleToInt : Nat → Int
  stringToInt : String → Int
  intToDouble : Int → Nat
  stringToDouble : String → Nat

/-- The narrowing of a `qlonglong` to `int`: the low 32 bits read as signed. -/
def narrowToInt (i : Int) : Int :=
  toInt32 (i % 2 ^ 32).toNat

/-- `QVariant::isValid()`. -/
def QVariant.isValid : QVariant → Bool
  | .invalid => false
  | _ => true

/-- `QVariant::toInt()`: the number of an Int, 1 or 0 for a Bool, the narrowed
number of a LongLong, Qt's conversion of a double or a text, and 0 for every
other type. -/
def QVariant.toInt (qt : QtConversions) : QVariant → Int
  | .bool b => if b then 1 else 0
  | .int i => i
  | .longLong i => narrowToInt i
  | .double bits => qt.doubleToInt bits
  | .string s => qt.stringToInt s
  | _ => 0

/-- `QVariant::toDouble()`, as a bit pattern: the double itself, Qt's
conversion of a number or a text, and 0.0 for every other type. -/
def QVariant.toDouble (qt : QtConversions) : QVariant → Nat
  | .bool b => qt.intToDouble (if b then 1 else 0)
  | .int i => qt.intToDouble i
  | .longLong i => qt.intToDouble i
  | .double bits => bits
  | .string s => qt.stringToDouble s
  | _ => 0

/-- The signals of `PlaybackController`; a double is its bit pattern. -/
inductive PlaybackSignal where
  | playbackStateChanged (playing : Bool)
  | durationChanged (duration : Nat)
  | positionChanged (position : Nat)
  | volumeChanged (volume : Int)
  | muteChanged (muted : Bool)
  | playbackFinished
  deriving DecidableEq, Repr

/-- The members of `PlaybackController`; `m_mpvCore` is the state of the handle
it points to. -/
structure PlaybackController where
  m_mpvCore : MPVCore
  m_isPlaying : Bool
  m_duration : Nat
  m_position : Nat
  m_volume : Int
  m_isMuted : Bool
  m_lastVolume : Int

/-- `PlaybackController::PlaybackController(mpvCore)`: the members after the
five reads of the constructor. -/
def PlaybackController.new (qt : QtConversions) (errorString : Int → String)
    (mpvCore : MPVCore) : PlaybackController :=
  let pauseVar := (MPVCore.getProperty errorString mpvCore "pause").1
  let durationVar := (MPVCore.getProperty errorString mpvCore "duration").1
  let positionVar := (MPVCore.getProperty errorString mpvCore "time-pos").1
  let volumeVar := (MPVCore.getProperty errorString mpvCore "volume").1
  let muteVar := (MPVCore.getProperty errorString mpvCore "mute").1
  { m_mpvCore := mpvCore,
    m_isPlaying := if pauseVar.isValid then !pauseVar.toBool else false,
    m_duration := if durationVar.isValid then durationVar.toDouble qt else 0,
    m_position := if positionVar.isValid then positionVar.toDouble qt else 0,
    m_volume := if volumeVar.isValid then volumeVar.toInt qt else 100,
    m_isMuted := if muteVar.isValid then muteVar.toBool else false,
    m_lastVolume := 100 }

/-- `PlaybackController::volume()`. -/
def PlaybackController.volume (ctl : PlaybackController) : Int :=
  ctl.m_volume

/-- `qBound(min, val, max)`, which is `qMax(min, qMin(max, val))`. -/
def qBound (lo val hi : Int) : Int :=
  max lo (min hi val)

/-- `MPVCore::setVolume(volume)`. -/
def MPVCore.setVolume (errorString : Int → String) (core : MPVCore) (heap : Heap)
    (volume : Int) : MPVCore × Heap × List LogLine :=
  MPVCore.setProperty errorString core heap "volume" (QVariant.int volume)

/-- `PlaybackController::setMute(mute)`: the state and the heap afterwards, the
signals emitted and the lines logged. -/
def PlaybackController.setMute (errorString : Int → String) (ctl : PlaybackController)
    (heap : Heap) (mute : Bool) :
    PlaybackController × Heap × List PlaybackSignal × List LogLine :=
  if mute != ctl.m_isMuted then
    let r := MPVCore.setProperty errorString ctl.m_mpvCore heap "mute" (QVariant.bool mute)
    ({ ctl with m_isMuted := mute, m_mpvCore := r.1 }, r.2.1,
      [PlaybackSignal.muteChanged mute], r.2.2)
  else (ctl, heap, [], [])

/-- `PlaybackController::setVolume(volume)`: the state and the heap afterwards,
the signals emitted and the lines logged. -/
def PlaybackController.setVolume (errorString : Int → String) (ctl : PlaybackController)
    (heap : Heap) (volume : Int) :
    PlaybackController × Heap × List PlaybackSignal × List LogLine :=
  if volume ≠ ctl.m_volume then
    let v := qBound 0 volume 100
    let r := MPVCore.setVolume errorString ctl.m_mpvCore heap v
    let ctl1 := { ctl with m_volume := v, m_mpvCore := r.1 }
    if v > 0 ∧ ctl1.m_isMuted = true then
      let m := PlaybackController.setMute errorString ctl1 r.2.1 false
      (m.1, m.2.1, PlaybackSignal.volumeChanged v :: m.2.2.1, r.2.2 ++ m.2.2.2)
    else (ctl1, r.2.1, [PlaybackSignal.volumeChanged v], r.2.2)
  else (ctl, heap, [], [])

/-- `PlaybackController::onPropertyChanged(name, value)`: the state afterwards
and the signals emitted. -/
def PlaybackController.onPropertyChanged (qt : QtConversions) (ctl : PlaybackController)
    (name : String) (value : QVariant) : PlaybackController × List PlaybackSignal :=
  if name = "time-pos" then
    ({ ctl with m_position := value.toDouble qt },
      [PlaybackSignal.positionChanged (value.toDouble qt)])
  else if name = "duration" then
    ({ ctl with m_duration := value.toDouble qt },
      [PlaybackSignal.durationChanged (value.toDouble qt)])
  else if name = "pause" then
    ({ ctl with m_isPlaying := !value.toBool },
      [PlaybackSignal.playbackStateChanged (!value.toBool)])
  else if name = "volume" then
    ({ ctl with m_volume := value.toInt qt }, [PlaybackSignal.volumeChanged (value.toInt qt)])
  else if name = "mute" then
    ({ ctl with m_isMuted := value.toBool }, [PlaybackSignal.muteChanged value.toBool])
  else (ctl, [])

/-- `PlaybackController::onPlaybackFinished()`. -/
def PlaybackController.onPlaybackFinished (ctl : PlaybackController) :
    PlaybackController × List PlaybackSignal :=
  ({ ctl with m_isPlaying := false },
    [PlaybackSignal.playbackStateChanged false, PlaybackSignal.playbackFinished])

/-- The slot `onPropertyChanged` run for each `propertyChanged` signal of a
sequence, first signal first: the state afterwards and the signals emitted. -/
def PlaybackController.applyEvents (qt : QtConversions) :
    PlaybackController → List (String × QVariant) → PlaybackController × List PlaybackSignal
  | ctl, [] => (ctl, [])
  | ctl, (name, value) :: rest =>
    let r := PlaybackController.onPropertyChanged qt ctl name value
    let s := PlaybackController.applyEvents qt r.1 rest
    (s.1, r.2 ++ s.2)

/-- The current-index invariant: the list is empty and the index is -1, or the
index is a position of the list. -/
def ChannelManager.indexValid (mgr : ChannelManager) : Prop :=
  (mgr.m_channels = [] ∧ mgr.m_currentIndex = -1) ∨
    (0 ≤ mgr.m_currentIndex ∧ mgr.m_currentIndex < mgr.m_channels.length)

instance (mgr : ChannelManager) : Decidable mgr.indexValid := by
  unfold ChannelManager.indexValid
  infer_instance

/-! ## The engine's splitting rule and the specified serialisation -/

/-- Modelled from the spec: the engine's rule for splitting a command string --
separate on spaces outside double quotes, a double-quoted run is one argument.
`cur` is the argument being read, if one was begun. -/
def splitArgs : List Char → Bool → Option (List Char) → List String
  | [], _, Option.none => []
  | [], _, some w => [String.mk w]
  | c :: cs, false, cur =>
    if c = ' ' then
      match cur with
      | Option.none => splitArgs cs false Option.none
      | some w => String.mk w :: splitArgs cs false Option.none
    else if c = '"' then splitArgs cs true (some (cur.getD []))
    else splitArgs cs false (some (cur.getD [] ++ [c]))
  | c :: cs, true, cur =>
    if c = '"' then splitArgs cs false cur
    else splitArgs cs true (some (cur.getD [] ++ [c]))

/-- Modelled from the spec: the arguments the engine receives from a command
string. -/
def engineSplit (s : String) : List String :=
  splitArgs s.data false Option.none

/-- The whitespace characters the specification names: space, tab, newline. -/
def isWhitespace (c : Char) : Bool :=
  c = ' ' || c = '\t' || c = '\n'

/-- The serialisation in the words of the specification: an argument that
contains whitespace is enclosed in double quotes, any other is written as it
is, and the arguments are separated by one space. -/
def specSerialise (args : List String) : String :=
  " ".intercalate (args.map (fun a => if a.data.any isWhitespace then "\"" ++ a ++ "\"" else a))

/-- No double quote in the text. -/
def noQuote (s : String) : Bool :=
  s.data.all (fun c => c != '"')

/-- The value is a list or a map. -/
def QVariant.isContainer : QVariant → Bool
  | .list _ => true
  | .map _ => true
  | _ => false

/-- One encode followed by one free of its result, as `setProperty` does around
its engine call: the heap and the content of the node afterwards. -/
def encodeThenFree (h : Heap) (value : QVariant) (node : MpvNode) : Heap × MpvNode :=
  freeMpvNode (variantToMpvNode h value node).1 (variantToMpvNode h value node).2.1

/-! ## Bookkeeping for the allocator -/

/-- Every outstanding block was handed out once: the blocks are distinct and
below the next unused one. -/
def Heap.wellFormed (h : Heap) : Prop :=
  h.live.Nodup ∧ ∀ p ∈ h.live, p < h.next

/-- Releases the blocks in turn. -/
def releaseAll (h : Heap) (bs : List Nat) : Heap :=
  bs.foldl Heap.release h

mutual
/-- The blocks a node tree points to, in the order `freeMpvNode` releases
them. -/
def MpvNode.blocks : MpvNode → List Nat
  | .string s => [s.ptr]
  | .nodeArray l v vs => blocksValues vs ++ [v, l]
  | .nodeMap l v k es => blocksEntries es ++ [v, k, l]
  | _ => []
/-- `MpvNode.blocks` for a `values` array. -/
def blocksValues : List MpvNode → List Nat
  | [] => []
  | n :: ns => n.blocks ++ blocksValues ns
/-- `MpvNode.blocks` for the `keys` and `values` arrays of a map. -/
def blocksEntries : List (Option CStr × MpvNode) → List Nat
  | [] => []
  | (key, n) :: es =>
    (match key with
     | some c => [c.ptr]
     | Option.none => []) ++ (n.blocks ++ blocksEntries es)
end

mutual
/-- Every slot of the tree was written. -/
def MpvNode.initialised : MpvNode → Bool
  | .uninit => false
  | .nodeArray _ _ vs => initialisedValues vs
  | .nodeMap _ _ _ es => initialisedEntries es
  | _ => true
/-- `MpvNode.initialised` for a `values` array. -/
def initialisedValues : List MpvNode → Bool
  | [] => true
  | n :: ns => n.initialised && initialisedValues ns
/-- `MpvNode.initialised` for the `keys` and `values` arrays of a map. -/
def initialisedEntries : List (Option CStr × MpvNode) → Bool
  | [] => true
  | (key, n) :: es => key.isSome && (n.initialised && initialisedEntries es)
end

/-- From `h` to `h'` exactly the blocks `bs` were allocated and nothing was
released: they are the blocks numbered from `h.next`, all outstanding in `h'`. -/
def Allocated (h h' : Heap) (bs : List Nat) : Prop :=
  h'.faults = h.faults ∧ h'.next = h.next + bs.length ∧
    h'.live = (List.range' h.next bs.length).reverse ++ h.live ∧
    bs.Perm (List.range' h.next bs.length)

/-! # Lemmas and theorems -/

/-! ## Round trip -/

theorem fromUtf8_utf8Buffer (s : String) (hs : noNul s = true) :
    fromUtf8 (utf8Buffer s) = s := by
  have key : ∀ l : List Char, l.all (fun c => c != NUL) = true →
      (l ++ [NUL]).takeWhile (fun c => c != NUL) = l := by
    intro l
    induction l with
    | nil => intro _; simp [List.takeWhile]
    | cons a t ih =>
      intro h
      simp only [List.all_cons, Bool.and_eq_true] at h
      simp [List.takeWhile, h.1, ih h.2]
  unfold fromUtf8 utf8Buffer
  rw [key s.data hs]

theorem qmapInsert_last (k : String) (v : QVariant) (acc : List (String × QVariant))
    (hacc : ∀ e ∈ acc, qstringLess e.1 k = true) :
    qmapInsert k v acc = acc ++ [(k, v)] := by
  induction acc with
  | nil => rfl
  | cons e t ih =>
    obtain ⟨k', v'⟩ := e
    have h1 : qstringLess k' k = true := hacc (k', v') (List.mem_cons_self _ _)
    simp only [qmapInsert, h1, if_true, List.cons_append]
    rw [ih (fun e he => hacc e (List.mem_cons_of_mem _ he))]

mutual
theorem roundtrip_node (h : Heap) (v : QVariant) (slot : MpvNode)
    (hw : v.wellFormed = true) (hp : v.plain = true) :
    (variantToMpvNode h v slot).2.2 = true ∧
      mpvPropertyToVariant (variantToMpvNode h v slot).2.1 = v := by
  match v with
  | .bool b => cases b <;> simp [variantToMpvNode, mpvPropertyToVariant]
  | .int i => simp [QVariant.plain] at hp
  | .longLong i => simp [variantToMpvNode, mpvPropertyToVariant]
  | .double d => simp [variantToMpvNode, mpvPropertyToVariant]
  | .string s =>
    simp only [QVariant.plain] at hp
    simp [variantToMpvNode, mpvPropertyToVariant, fromUtf8_utf8Buffer s hp]
  | .list xs =>
    simp only [QVariant.plain] at hp
    simp only [QVariant.wellFormed] at hw
    have ih := roundtrip_values (h.alloc.2.alloc.2) xs hw hp
    simp [variantToMpvNode, ih.1, mpvPropertyToVariant, ih.2]
  | .map m =>
    simp only [QVariant.plain] at hp
    simp only [QVariant.wellFormed] at hw
    have ih := roundtrip_entries (h.alloc.2.alloc.2.alloc.2) m [] hw hp (by simp)
    simp [variantToMpvNode, ih.1, mpvPropertyToVariant, ih.2]
  | .invalid => simp [QVariant.plain] at hp
  | .other t => simp [QVariant.plain] at hp
theorem roundtrip_values (h : Heap) (xs : List QVariant)
    (hw : wellFormedList xs = true) (hp : plainList xs = true) :
    (encodeValues h xs).2.2 = true ∧ decodeValues (encodeValues h xs).2.1 = xs := by
  match xs with
  | [] => simp [encodeValues, decodeValues]
  | x :: rest =>
    simp only [plainList, Bool.and_eq_true] at hp
    simp only [wellFormedList, Bool.and_eq_true] at hw
    have ih1 := roundtrip_node h x .uninit hw.1 hp.1
    have ih2 := roundtrip_values (variantToMpvNode h x .uninit).1 rest hw.2 hp.2
    simp [encodeValues, ih1.1, ih1.2, ih2.1, ih2.2, decodeValues]
theorem roundtrip_entries (h : Heap) (m acc : List (String × QVariant))
    (hw : wellFormedEntries m = true) (hp : plainEntries m = true)
    (hacc : ∀ e ∈ acc, ∀ e' ∈ m, qstringLess e.1 e'.1 = true) :
    (encodeEntries h m).2.2 = true ∧
      decodeEntries acc (encodeEntries h m).2.1 = acc ++ m := by
  match m with
  | [] => simp [encodeEntries, decodeEntries]
  | (k, x) :: rest =>
    simp only [plainEntries, Bool.and_eq_true] at hp
    simp only [wellFormedEntries, Bool.and_eq_true, List.all_eq_true] at hw
    have ih1 := roundtrip_node h.alloc.2 x .uninit hw.2.1 hp.2.1
    have hk : ∀ e ∈ acc, qstringLess e.1 k = true :=
      fun e he => hacc e he (k, x) (List.mem_cons_self _ _)
    have ih2 := roundtrip_entries (variantToMpvNode h.alloc.2 x .uninit).1 rest
      (acc ++ [(k, x)]) hw.2.2 hp.2.2 (by
        intro e he e' he'
        rcases List.mem_append.1 he with h1 | h1
        · exact hacc e h1 e' (List.mem_cons_of_mem _ he')
        · simp only [List.mem_singleton] at h1
          subst h1
          exact hw.1 e' he')
    simp [encodeEntries, ih1.1, ih1.2, ih2.1, decodeEntries, keyText,
      fromUtf8_utf8Buffer k hp.1, qmapInsert_last k x acc hk, ih2.2]
end


/-! ## Allocation and release -/

theorem Allocated.refl (h : Heap) : Allocated h h [] := by
  simp [Allocated]

theorem Allocated.alloc (h : Heap) : Allocated h h.alloc.2 [h.alloc.1] := by
  simp [Allocated, Heap.alloc]

theorem Allocated.trans {h h1 h2 : Heap} {bs1 bs2 : List Nat}
    (a1 : Allocated h h1 bs1) (a2 : Allocated h1 h2 bs2) :
    Allocated h h2 (bs1 ++ bs2) := by
  obtain ⟨f1, n1, l1, p1⟩ := a1
  obtain ⟨f2, n2, l2, p2⟩ := a2
  have hr : List.range' h.next (bs1.length + bs2.length)
      = List.range' h.next bs1.length ++ List.range' (h.next + bs1.length) bs2.length := by
    have := List.range'_append h.next bs1.length bs2.length 1
    simp only [one_mul] at this
    rw [this, Nat.add_comm]
  refine ⟨f2.trans f1, ?_, ?_, ?_⟩
  · rw [n2, n1, List.length_append, Nat.add_assoc]
  · rw [l2, l1, n1, List.length_append, hr, List.reverse_append, List.append_assoc]
  · rw [List.length_append, hr]
    rw [n1] at p2
    exact p1.append p2

theorem Allocated.perm {h h' : Heap} {bs bs' : List Nat}
    (a : Allocated h h' bs) (hp : bs.Perm bs') : Allocated h h' bs' := by
  obtain ⟨f1, n1, l1, p1⟩ := a
  refine ⟨f1, ?_, ?_, ?_⟩
  · rw [n1, hp.length_eq]
  · rw [l1, hp.length_eq]
  · rw [← hp.length_eq]
    exact hp.symm.trans p1

theorem perm_header2 (a b : Nat) (l : List Nat) :
    ([a] ++ [b] ++ l).Perm (l ++ [b, a]) := by
  have h1 : ([a] ++ [b] ++ l).Perm (l ++ ([a] ++ [b])) := List.perm_append_comm
  exact h1.trans (List.Perm.append_left l (List.Perm.swap b a []))

theorem perm_header3 (a b c : Nat) (l : List Nat) :
    ([a] ++ [b] ++ [c] ++ l).Perm (l ++ [b, c, a]) := by
  have h1 : ([a] ++ [b] ++ [c] ++ l).Perm (l ++ ([a] ++ [b] ++ [c])) := List.perm_append_comm
  have h2 : ([a] ++ ([b] ++ [c])).Perm (([b] ++ [c]) ++ [a]) := List.perm_append_comm
  exact h1.trans (List.Perm.append_left l h2)

theorem releaseAll_append (h : Heap) (bs cs : List Nat) :
    releaseAll h (bs ++ cs) = releaseAll (releaseAll h bs) cs := by
  simp [releaseAll, List.foldl_append]

mutual
theorem free_eq_releaseAll (h : Heap) (n : MpvNode) (hn : n.initialised = true) :
    freeMpvNode h n = (releaseAll h n.blocks, MpvNode.none) := by
  match n with
  | .uninit => simp [MpvNode.initialised] at hn
  | .none => simp [freeMpvNode, MpvNode.blocks, releaseAll]
  | .string s => simp [freeMpvNode, MpvNode.blocks, releaseAll]
  | .flag v => simp [freeMpvNode, MpvNode.blocks, releaseAll]
  | .int64 v => simp [freeMpvNode, MpvNode.blocks, releaseAll]
  | .double d => simp [freeMpvNode, MpvNode.blocks, releaseAll]
  | .other f => simp [freeMpvNode, MpvNode.blocks, releaseAll]
  | .nodeArray l v vs =>
    simp only [MpvNode.initialised] at hn
    simp only [freeMpvNode, MpvNode.blocks, freeValues_eq_releaseAll h vs hn, releaseAll_append]
    simp [releaseAll]
  | .nodeMap l v k es =>
    simp only [MpvNode.initialised] at hn
    simp only [freeMpvNode, MpvNode.blocks, freeEntries_eq_releaseAll h es hn, releaseAll_append]
    simp [releaseAll]
theorem freeValues_eq_releaseAll (h : Heap) (vs : List MpvNode)
    (hn : initialisedValues vs = true) :
    freeValues h vs = releaseAll h (blocksValues vs) := by
  match vs with
  | [] => simp [freeValues, blocksValues, releaseAll]
  | n :: ns =>
    simp only [initialisedValues, Bool.and_eq_true] at hn
    simp only [freeValues, blocksValues, releaseAll_append, free_eq_releaseAll h n hn.1]
    exact freeValues_eq_releaseAll _ ns hn.2
theorem freeEntries_eq_releaseAll (h : Heap) (es : List (Option CStr × MpvNode))
    (hn : initialisedEntries es = true) :
    freeEntries h es = releaseAll h (blocksEntries es) := by
  match es with
  | [] => simp [freeEntries, blocksEntries, releaseAll]
  | (key, n) :: rest =>
    simp only [initialisedEntries, Bool.and_eq_true] at hn
    match key, hn with
    | some c, hn =>
      simp only [freeEntries, blocksEntries, releaseAll_append, free_eq_releaseAll _ n hn.2.1]
      rw [freeEntries_eq_releaseAll _ rest hn.2.2]
      simp [releaseAll]
    | Option.none, hn => simp at hn
end

mutual
theorem encode_allocated (h : Heap) (v : QVariant) (slot : MpvNode)
    (hok : (variantToMpvNode h v slot).2.2 = true) :
    Allocated h (variantToMpvNode h v slot).1 (variantToMpvNode h v slot).2.1.blocks ∧
      (variantToMpvNode h v slot).2.1.initialised = true := by
  match v with
  | .bool b => simp [variantToMpvNode, MpvNode.blocks, MpvNode.initialised, Allocated.refl]
  | .int i => simp [variantToMpvNode, MpvNode.blocks, MpvNode.initialised, Allocated.refl]
  | .longLong i => simp [variantToMpvNode, MpvNode.blocks, MpvNode.initialised, Allocated.refl]
  | .double d => simp [variantToMpvNode, MpvNode.blocks, MpvNode.initialised, Allocated.refl]
  | .string s =>
    simp only [variantToMpvNode, MpvNode.blocks, MpvNode.initialised, and_true]
    exact Allocated.alloc h
  | .invalid => simp [variantToMpvNode] at hok
  | .other t => simp [variantToMpvNode] at hok
  | .list xs =>
    by_cases hr : (encodeValues h.alloc.2.alloc.2 xs).2.2 = true
    · have ih := encodeValues_allocated h.alloc.2.alloc.2 xs hr
      simp only [variantToMpvNode, hr, if_true, MpvNode.blocks, MpvNode.initialised]
      refine ⟨?_, ih.2⟩
      have a := ((Allocated.alloc h).trans (Allocated.alloc h.alloc.2)).trans ih.1
      refine a.perm ?_
      exact perm_header2 _ _ _
    · simp [variantToMpvNode, hr] at hok
  | .map m =>
    by_cases hr : (encodeEntries h.alloc.2.alloc.2.alloc.2 m).2.2 = true
    · have ih := encodeEntries_allocated h.alloc.2.alloc.2.alloc.2 m hr
      simp only [variantToMpvNode, hr, if_true, MpvNode.blocks, MpvNode.initialised]
      refine ⟨?_, ih.2⟩
      have a := (((Allocated.alloc h).trans (Allocated.alloc h.alloc.2)).trans
        (Allocated.alloc h.alloc.2.alloc.2)).trans ih.1
      refine a.perm ?_
      exact perm_header3 _ _ _ _
    · simp [variantToMpvNode, hr] at hok
theorem encodeValues_allocated (h : Heap) (xs : List QVariant)
    (hok : (encodeValues h xs).2.2 = true) :
    Allocated h (encodeValues h xs).1 (blocksValues (encodeValues h xs).2.1) ∧
      initialisedValues (encodeValues h xs).2.1 = true := by
  match xs with
  | [] => simp [encodeValues, blocksValues, initialisedValues, Allocated.refl]
  | x :: rest =>
    by_cases hx : (variantToMpvNode h x .uninit).2.2 = true
    · have ih1 := encode_allocated h x .uninit hx
      simp only [encodeValues, hx, if_true] at hok
      have ih2 := encodeValues_allocated (variantToMpvNode h x .uninit).1 rest hok
      simp only [encodeValues, hx, if_true, blocksValues, initialisedValues, ih1.2, ih2.2,
        Bool.and_self, and_true]
      exact ih1.1.trans ih2.1
    · simp [encodeValues, hx] at hok
theorem encodeEntries_allocated (h : Heap) (m : List (String × QVariant))
    (hok : (encodeEntries h m).2.2 = true) :
    Allocated h (encodeEntries h m).1 (blocksEntries (encodeEntries h m).2.1) ∧
      initialisedEntries (encodeEntries h m).2.1 = true := by
  match m with
  | [] => simp [encodeEntries, blocksEntries, initialisedEntries, Allocated.refl]
  | (k, x) :: rest =>
    by_cases hx : (variantToMpvNode h.alloc.2 x .uninit).2.2 = true
    · have ih1 := encode_allocated h.alloc.2 x .uninit hx
      simp only [encodeEntries, hx, if_true] at hok
      have ih2 := encodeEntries_allocated (variantToMpvNode h.alloc.2 x .uninit).1 rest hok
      simp only [encodeEntries, hx, if_true, blocksEntries, initialisedEntries, ih1.2, ih2.2,
        Bool.and_self, and_true, Option.isSome_some]
      exact (Allocated.alloc h).trans (ih1.1.trans ih2.1)
    · simp [encodeEntries, hx] at hok
end

theorem releaseAll_of_live (n : Nat) (f : List Fault) (bs : List Nat) :
    ∀ live : List Nat, live.Nodup → bs.Nodup → (∀ b ∈ bs, b ∈ live) →
      releaseAll ⟨n, live, f⟩ bs = ⟨n, live.filter (fun x => decide (x ∉ bs)), f⟩ := by
  induction bs with
  | nil => intro live _ _ _; simp [releaseAll]
  | cons b t ih =>
    intro live hl hb hsub
    have hbl : b ∈ live := hsub b (List.mem_cons_self _ _)
    have hbt : b ∉ t := (List.nodup_cons.1 hb).1
    have step : releaseAll ⟨n, live, f⟩ (b :: t) = releaseAll ⟨n, live.erase b, f⟩ t := by
      simp [releaseAll, Heap.release, hbl]
    rw [step, ih (live.erase b) (hl.erase b) (List.nodup_cons.1 hb).2 (by
      intro c hc
      have hcl : c ∈ live := hsub c (List.mem_cons_of_mem _ hc)
      have hne : c ≠ b := fun e => hbt (e ▸ hc)
      exact (List.mem_erase_of_ne hne).2 hcl)]
    rw [hl.erase_eq_filter b, List.filter_filter]
    congr 1
    apply List.filter_congr
    intro x _
    by_cases hx : x = b <;> simp [hx, hbt]

theorem releaseAll_allocated {h h' : Heap} {bs : List Nat}
    (hw : h.wellFormed) (a : Allocated h h' bs) :
    releaseAll h' bs = { h' with live := h.live } ∧ (releaseAll h' bs).faults = h.faults := by
  obtain ⟨f1, n1, l1, p1⟩ := a
  have hnd : bs.Nodup := (List.Perm.nodup_iff p1).2 (List.nodup_range' _ _)
  have hmem : ∀ b, b ∈ bs ↔ h.next ≤ b ∧ b < h.next + bs.length := by
    intro b
    rw [p1.mem_iff, List.mem_range'_1]
  have hlive : h'.live.Nodup := by
    rw [l1]
    refine List.Nodup.append ((List.nodup_reverse).2 (List.nodup_range' _ _)) hw.1 ?_
    intro x hx1 hx2
    rw [List.mem_reverse, List.mem_range'_1] at hx1
    exact absurd (hw.2 x hx2) (by omega)
  have hsub : ∀ b ∈ bs, b ∈ h'.live := by
    intro b hb
    rw [l1, List.mem_append, List.mem_reverse, ← p1.mem_iff]
    exact Or.inl hb
  have key := releaseAll_of_live h'.next h'.faults bs h'.live hlive hnd hsub
  have hfil : h'.live.filter (fun x => decide (x ∉ bs)) = h.live := by
    rw [l1, List.filter_append]
    have e1 : (List.range' h.next bs.length).reverse.filter (fun x => decide (x ∉ bs)) = [] := by
      rw [List.filter_eq_nil_iff]
      intro x hx
      rw [List.mem_reverse, ← p1.mem_iff] at hx
      simp [hx]
    have e2 : h.live.filter (fun x => decide (x ∉ bs)) = h.live := by
      rw [List.filter_eq_self]
      intro x hx
      have := hw.2 x hx
      have hnot : x ∉ bs := fun hb => by have := (hmem x).1 hb; omega
      simp [hnot]
    rw [e1, e2, List.nil_append]
  have hEq : releaseAll h' bs = { h' with live := h.live } := by
    have : (⟨h'.next, h'.live, h'.faults⟩ : Heap) = h' := rfl
    rw [← this, key, hfil]
  exact ⟨hEq, by rw [hEq]; exact f1⟩

mutual
theorem encode_result_eq_supported (h : Heap) (v : QVariant) (slot : MpvNode) :
    (variantToMpvNode h v slot).2.2 = v.supported := by
  match v with
  | .bool b => simp [variantToMpvNode, QVariant.supported]
  | .int i => simp [variantToMpvNode, QVariant.supported]
  | .longLong i => simp [variantToMpvNode, QVariant.supported]
  | .double d => simp [variantToMpvNode, QVariant.supported]
  | .string s => simp [variantToMpvNode, QVariant.supported]
  | .invalid => simp [variantToMpvNode, QVariant.supported]
  | .other t => simp [variantToMpvNode, QVariant.supported]
  | .list xs =>
    have ih := encodeValues_result_eq_supported h.alloc.2.alloc.2 xs
    by_cases hr : (encodeValues h.alloc.2.alloc.2 xs).2.2 = true
    · simp [variantToMpvNode, QVariant.supported, hr, ← ih]
    · simp [variantToMpvNode, QVariant.supported, hr, ← ih]
  | .map m =>
    have ih := encodeEntries_result_eq_supported h.alloc.2.alloc.2.alloc.2 m
    by_cases hr : (encodeEntries h.alloc.2.alloc.2.alloc.2 m).2.2 = true
    · simp [variantToMpvNode, QVariant.supported, hr, ← ih]
    · simp [variantToMpvNode, QVariant.supported, hr, ← ih]
theorem encodeValues_result_eq_supported (h : Heap) (xs : List QVariant) :
    (encodeValues h xs).2.2 = supportedList xs := by
  match xs with
  | [] => simp [encodeValues, supportedList]
  | x :: rest =>
    have ih1 := encode_result_eq_supported h x .uninit
    have ih2 := encodeValues_result_eq_supported (variantToMpvNode h x .uninit).1 rest
    by_cases hx : (variantToMpvNode h x .uninit).2.2 = true
    · simp [encodeValues, supportedList, hx, ← ih1, ih2]
    · simp [encodeValues, supportedList, hx, ← ih1]
theorem encodeEntries_result_eq_supported (h : Heap) (m : List (String × QVariant)) :
    (encodeEntries h m).2.2 = supportedEntries m := by
  match m with
  | [] => simp [encodeEntries, supportedEntries]
  | (k, x) :: rest =>
    have ih1 := encode_result_eq_supported h.alloc.2 x .uninit
    have ih2 := encodeEntries_result_eq_supported (variantToMpvNode h.alloc.2 x .uninit).1 rest
    by_cases hx : (variantToMpvNode h.alloc.2 x .uninit).2.2 = true
    · simp [encodeEntries, supportedEntries, hx, ← ih1, ih2]
    · simp [encodeEntries, supportedEntries, hx, ← ih1]
end

theorem Heap.wellFormed_empty : Heap.empty.wellFormed := by
  simp [Heap.wellFormed, Heap.empty]

theorem Heap.wellFormed_alloc (h : Heap) (hw : h.wellFormed) : h.alloc.2.wellFormed := by
  obtain ⟨h1, h2⟩ := hw
  refine ⟨?_, ?_⟩
  · simp only [Heap.alloc, List.nodup_cons]
    exact ⟨fun hm => absurd (h2 _ hm) (Nat.lt_irrefl _), h1⟩
  · intro p hp
    simp only [Heap.alloc, List.mem_cons] at hp
    simp only [Heap.alloc]
    rcases hp with hp | hp
    · omega
    · have := h2 p hp
      omega

theorem Heap.wellFormed_release (h : Heap) (p : Nat) (hw : h.wellFormed) :
    (h.release p).wellFormed := by
  obtain ⟨h1, h2⟩ := hw
  unfold Heap.release
  split
  · exact ⟨h1.erase p, fun q hq => h2 q (List.mem_of_mem_erase hq)⟩
  · exact ⟨h1, h2⟩

/-! ## Faults of a failed encode -/

theorem release_faults_le (h : Heap) (p : Nat) :
    h.faults.length ≤ (h.release p).faults.length := by
  unfold Heap.release
  split <;> simp

mutual
theorem free_faults_le (h : Heap) (n : MpvNode) :
    h.faults.length ≤ (freeMpvNode h n).1.faults.length := by
  match n with
  | .uninit => simp [freeMpvNode, Heap.fault]
  | .none => simp [freeMpvNode]
  | .string s => exact release_faults_le h s.ptr
  | .flag v => simp [freeMpvNode]
  | .int64 v => simp [freeMpvNode]
  | .double d => simp [freeMpvNode]
  | .other f => simp [freeMpvNode]
  | .nodeArray l v vs =>
    simp only [freeMpvNode]
    exact (freeValues_faults_le h vs).trans
      ((release_faults_le _ v).trans (release_faults_le _ l))
  | .nodeMap l v k es =>
    simp only [freeMpvNode]
    exact (freeEntries_faults_le h es).trans
      ((release_faults_le _ v).trans ((release_faults_le _ k).trans (release_faults_le _ l)))
theorem freeValues_faults_le (h : Heap) (vs : List MpvNode) :
    h.faults.length ≤ (freeValues h vs).faults.length := by
  match vs with
  | [] => simp [freeValues]
  | n :: ns =>
    simp only [freeValues]
    exact (free_faults_le h n).trans (freeValues_faults_le _ ns)
theorem freeEntries_faults_le (h : Heap) (es : List (Option CStr × MpvNode)) :
    h.faults.length ≤ (freeEntries h es).faults.length := by
  match es with
  | [] => simp [freeEntries]
  | (key, n) :: rest =>
    simp only [freeEntries]
    refine Nat.le_trans ?_ (freeEntries_faults_le _ rest)
    refine Nat.le_trans ?_ (free_faults_le _ n)
    cases key with
    | none => simp [Heap.fault]
    | some c => exact release_faults_le h c.ptr
end

theorem freeValues_uninit (vs : List MpvNode) :
    ∀ h : Heap, MpvNode.uninit ∈ vs → h.faults.length < (freeValues h vs).faults.length := by
  induction vs with
  | nil => intro h hm; simp at hm
  | cons n ns ih =>
    intro h hm
    simp only [freeValues]
    rcases List.mem_cons.1 hm with hm | hm
    · subst hm
      refine Nat.lt_of_lt_of_le ?_ (freeValues_faults_le _ ns)
      simp [freeMpvNode, Heap.fault]
    · exact Nat.lt_of_le_of_lt (free_faults_le h n) (ih _ hm)

theorem freeEntries_uninit (es : List (Option CStr × MpvNode)) :
    ∀ h : Heap, (∃ key, (key, MpvNode.uninit) ∈ es) →
      h.faults.length < (freeEntries h es).faults.length := by
  induction es with
  | nil => intro h hm; simp at hm
  | cons e rest ih =>
    intro h hm
    obtain ⟨key, n⟩ := e
    obtain ⟨key', hk⟩ := hm
    simp only [freeEntries]
    have hkey : h.faults.length ≤ (match key with
        | some c => h.release c.ptr
        | Option.none => h.fault Fault.uninitKey).faults.length := by
      cases key with
      | none => simp [Heap.fault]
      | some c => exact release_faults_le h c.ptr
    rcases List.mem_cons.1 hk with hk | hk
    · have hn : n = MpvNode.uninit := (Prod.mk.inj hk).2.symm
      subst hn
      refine Nat.lt_of_lt_of_le ?_ (freeEntries_faults_le _ rest)
      refine Nat.lt_of_le_of_lt hkey ?_
      simp [freeMpvNode, Heap.fault]
    · exact Nat.lt_of_le_of_lt (hkey.trans (free_faults_le _ n)) (ih _ ⟨key', hk⟩)

mutual
theorem encode_faults_le (h : Heap) (v : QVariant) (slot : MpvNode) :
    h.faults.length ≤ (variantToMpvNode h v slot).1.faults.length := by
  match v with
  | .bool b => simp [variantToMpvNode]
  | .int i => simp [variantToMpvNode]
  | .longLong i => simp [variantToMpvNode]
  | .double d => simp [variantToMpvNode]
  | .string s => simp [variantToMpvNode, Heap.alloc]
  | .invalid => simp [variantToMpvNode]
  | .other t => simp [variantToMpvNode]
  | .list xs =>
    have ih := encodeValues_faults_le h.alloc.2.alloc.2 xs
    have h0 : h.alloc.2.alloc.2.faults = h.faults := rfl
    rw [h0] at ih
    by_cases hr : (encodeValues h.alloc.2.alloc.2 xs).2.2 = true
    · simpa [variantToMpvNode, hr] using ih
    · simp only [variantToMpvNode, hr]
      exact ih.trans (free_faults_le _ _)
  | .map m =>
    have ih := encodeEntries_faults_le h.alloc.2.alloc.2.alloc.2 m
    have h0 : h.alloc.2.alloc.2.alloc.2.faults = h.faults := rfl
    rw [h0] at ih
    by_cases hr : (encodeEntries h.alloc.2.alloc.2.alloc.2 m).2.2 = true
    · simpa [variantToMpvNode, hr] using ih
    · simp only [variantToMpvNode, hr]
      exact ih.trans (free_faults_le _ _)
theorem encodeValues_faults_le (h : Heap) (xs : List QVariant) :
    h.faults.length ≤ (encodeValues h xs).1.faults.length := by
  match xs with
  | [] => simp [encodeValues]
  | x :: rest =>
    have ih1 := encode_faults_le h x .uninit
    by_cases hx : (variantToMpvNode h x .uninit).2.2 = true
    · simp only [encodeValues, hx, if_true]
      exact ih1.trans (encodeValues_faults_le _ rest)
    · simpa [encodeValues, hx] using ih1
theorem encodeEntries_faults_le (h : Heap) (m : List (String × QVariant)) :
    h.faults.length ≤ (encodeEntries h m).1.faults.length := by
  match m with
  | [] => simp [encodeEntries]
  | (k, x) :: rest =>
    have ih1 := encode_faults_le h.alloc.2 x .uninit
    have h0 : h.alloc.2.faults = h.faults := rfl
    rw [h0] at ih1
    by_cases hx : (variantToMpvNode h.alloc.2 x .uninit).2.2 = true
    · simp only [encodeEntries, hx, if_true]
      exact ih1.trans (encodeEntries_faults_le _ rest)
    · simpa [encodeEntries, hx] using ih1
end

theorem encode_scalar_fails (h : Heap) (v : QVariant) (slot : MpvNode)
    (hc : v.isContainer = false) (hf : (variantToMpvNode h v slot).2.2 = false) :
    (variantToMpvNode h v slot).2.1 = slot := by
  match v with
  | .bool b => simp [variantToMpvNode] at hf
  | .int i => simp [variantToMpvNode] at hf
  | .longLong i => simp [variantToMpvNode] at hf
  | .double d => simp [variantToMpvNode] at hf
  | .string s => simp [variantToMpvNode] at hf
  | .invalid => simp [variantToMpvNode]
  | .other t => simp [variantToMpvNode]
  | .list xs => simp [QVariant.isContainer] at hc
  | .map m => simp [QVariant.isContainer] at hc

mutual
theorem failed_container_faults (h : Heap) (v : QVariant) (slot : MpvNode)
    (hc : v.isContainer = true) (hf : (variantToMpvNode h v slot).2.2 = false) :
    h.faults.length < (variantToMpvNode h v slot).1.faults.length := by
  match v with
  | .bool b => simp [QVariant.isContainer] at hc
  | .int i => simp [QVariant.isContainer] at hc
  | .longLong i => simp [QVariant.isContainer] at hc
  | .double d => simp [QVariant.isContainer] at hc
  | .string s => simp [QVariant.isContainer] at hc
  | .invalid => simp [QVariant.isContainer] at hc
  | .other t => simp [QVariant.isContainer] at hc
  | .list xs =>
    by_cases hr : (encodeValues h.alloc.2.alloc.2 xs).2.2 = true
    · simp [variantToMpvNode, hr] at hf
    · have hr' : (encodeValues h.alloc.2.alloc.2 xs).2.2 = false := by simpa using hr
      have ih := failed_values_faults h.alloc.2.alloc.2 xs hr'
      have h0 : h.alloc.2.alloc.2.faults = h.faults := rfl
      rw [h0] at ih
      simp only [variantToMpvNode, hr]
      rcases ih with ih | ih
      · exact Nat.lt_of_lt_of_le ih (free_faults_le _ _)
      · simp only [freeMpvNode]
        refine Nat.lt_of_lt_of_le ?_ ((release_faults_le _ _).trans (release_faults_le _ _))
        refine Nat.lt_of_le_of_lt ?_ (freeValues_uninit _ _ ih)
        have := encodeValues_faults_le h.alloc.2.alloc.2 xs
        rwa [h0] at this
  | .map m =>
    by_cases hr : (encodeEntries h.alloc.2.alloc.2.alloc.2 m).2.2 = true
    · simp [variantToMpvNode, hr] at hf
    · have hr' : (encodeEntries h.alloc.2.alloc.2.alloc.2 m).2.2 = false := by simpa using hr
      have ih := failed_entries_faults h.alloc.2.alloc.2.alloc.2 m hr'
      have h0 : h.alloc.2.alloc.2.alloc.2.faults = h.faults := rfl
      rw [h0] at ih
      simp only [variantToMpvNode, hr]
      rcases ih with ih | ih
      · exact Nat.lt_of_lt_of_le ih (free_faults_le _ _)
      · simp only [freeMpvNode]
        refine Nat.lt_of_lt_of_le ?_ ((release_faults_le _ _).trans
          ((release_faults_le _ _).trans (release_faults_le _ _)))
        refine Nat.lt_of_le_of_lt ?_ (freeEntries_uninit _ _ ih)
        have := encodeEntries_faults_le h.alloc.2.alloc.2.alloc.2 m
        rwa [h0] at this
theorem failed_values_faults (h : Heap) (xs : List QVariant)
    (hf : (encodeValues h xs).2.2 = false) :
    h.faults.length < (encodeValues h xs).1.faults.length ∨
      MpvNode.uninit ∈ (encodeValues h xs).2.1 := by
  match xs with
  | [] => simp [encodeValues] at hf
  | x :: rest =>
    by_cases hx : (variantToMpvNode h x .uninit).2.2 = true
    · simp only [encodeValues, hx, if_true] at hf ⊢
      rcases failed_values_faults (variantToMpvNode h x .uninit).1 rest hf with ih | ih
      · exact Or.inl (Nat.lt_of_le_of_lt (encode_faults_le h x .uninit) ih)
      · exact Or.inr (List.mem_cons_of_mem _ ih)
    · have hx' : (variantToMpvNode h x .uninit).2.2 = false := by simpa using hx
      simp only [encodeValues, hx]
      by_cases hc : x.isContainer = true
      · exact Or.inl (failed_container_faults h x .uninit hc hx')
      · have hc' : x.isContainer = false := by simpa using hc
        rw [encode_scalar_fails h x .uninit hc' hx']
        exact Or.inr (List.mem_cons_self _ _)
theorem failed_entries_faults (h : Heap) (m : List (String × QVariant))
    (hf : (encodeEntries h m).2.2 = false) :
    h.faults.length < (encodeEntries h m).1.faults.length ∨
      ∃ key, (key, MpvNode.uninit) ∈ (encodeEntries h m).2.1 := by
  match m with
  | [] => simp [encodeEntries] at hf
  | (k, x) :: rest =>
    have h0 : h.alloc.2.faults = h.faults := rfl
    by_cases hx : (variantToMpvNode h.alloc.2 x .uninit).2.2 = true
    · simp only [encodeEntries, hx, if_true] at hf ⊢
      rcases failed_entries_faults (variantToMpvNode h.alloc.2 x .uninit).1 rest hf with ih | ih
      · have := encode_faults_le h.alloc.2 x .uninit
        rw [h0] at this
        exact Or.inl (Nat.lt_of_le_of_lt this ih)
      · obtain ⟨key, hk⟩ := ih
        exact Or.inr ⟨key, List.mem_cons_of_mem _ hk⟩
    · have hx' : (variantToMpvNode h.alloc.2 x .uninit).2.2 = false := by simpa using hx
      simp only [encodeEntries, hx]
      by_cases hc : x.isContainer = true
      · have := failed_container_faults h.alloc.2 x .uninit hc hx'
        rw [h0] at this
        exact Or.inl this
      · have hc' : x.isContainer = false := by simpa using hc
        rw [encode_scalar_fails h.alloc.2 x .uninit hc' hx']
        exact Or.inr ⟨_, List.mem_cons_self _ _⟩
end

/-! ## What a decoded value looks like -/

mutual
theorem plain_eq (v : QVariant) : v.plain = (v.valueTags && v.nulFree) := by
  match v with
  | .bool b => rfl
  | .int i => rfl
  | .longLong i => rfl
  | .double d => rfl
  | .string s => simp [QVariant.plain, QVariant.valueTags, QVariant.nulFree]
  | .invalid => rfl
  | .other t => rfl
  | .list xs => simp [QVariant.plain, QVariant.valueTags, QVariant.nulFree, plainList_eq xs]
  | .map m => simp [QVariant.plain, QVariant.valueTags, QVariant.nulFree, plainEntries_eq m]
theorem plainList_eq (xs : List QVariant) :
    plainList xs = (valueTagsList xs && nulFreeList xs) := by
  match xs with
  | [] => rfl
  | x :: rest =>
    simp only [plainList, valueTagsList, nulFreeList, plain_eq x, plainList_eq rest]
    cases x.valueTags <;> cases x.nulFree <;> simp
theorem plainEntries_eq (m : List (String × QVariant)) :
    plainEntries m = (valueTagsEntries m && nulFreeEntries m) := by
  match m with
  | [] => rfl
  | (k, x) :: rest =>
    simp only [plainEntries, valueTagsEntries, nulFreeEntries, plain_eq x, plainEntries_eq rest]
    cases noNul k <;> cases x.valueTags <;> cases x.nulFree <;> simp
end

mutual
theorem supported_of_valueTags (v : QVariant) (hv : v.valueTags = true) :
    v.supported = true := by
  match v with
  | .bool b => rfl
  | .int i => simp [QVariant.valueTags] at hv
  | .longLong i => rfl
  | .double d => rfl
  | .string s => rfl
  | .invalid => simp [QVariant.valueTags] at hv
  | .other t => simp [QVariant.valueTags] at hv
  | .list xs =>
    simp only [QVariant.valueTags] at hv
    simpa [QVariant.supported] using supportedList_of_valueTags xs hv
  | .map m =>
    simp only [QVariant.valueTags] at hv
    simpa [QVariant.supported] using supportedEntries_of_valueTags m hv
theorem supportedList_of_valueTags (xs : List QVariant) (hv : valueTagsList xs = true) :
    supportedList xs = true := by
  match xs with
  | [] => rfl
  | x :: rest =>
    simp only [valueTagsList, Bool.and_eq_true] at hv
    simp [supportedList, supported_of_valueTags x hv.1, supportedList_of_valueTags rest hv.2]
theorem supportedEntries_of_valueTags (m : List (String × QVariant))
    (hv : valueTagsEntries m = true) : supportedEntries m = true := by
  match m with
  | [] => rfl
  | (k, x) :: rest =>
    simp only [valueTagsEntries, Bool.and_eq_true] at hv
    simp [supportedEntries, supported_of_valueTags x hv.1,
      supportedEntries_of_valueTags rest hv.2]
end

theorem noNul_fromUtf8 (buf : List Char) : noNul (fromUtf8 buf) = true := by
  unfold noNul fromUtf8
  rw [List.all_eq_true]
  intro c hc
  have hc' : c ∈ List.takeWhile (fun c => c != NUL) buf := hc
  exact @List.mem_takeWhile_imp Char (fun c => c != NUL) buf c hc'

theorem noNul_keyText (key : Option CStr) : noNul (keyText key) = true := by
  cases key with
  | none => rfl
  | some c => exact noNul_fromUtf8 c.buf

theorem nulFreeEntries_iff (m : List (String × QVariant)) :
    nulFreeEntries m = true ↔ ∀ e ∈ m, noNul e.1 = true ∧ e.2.nulFree = true := by
  induction m with
  | nil => simp [nulFreeEntries]
  | cons e t ih =>
    obtain ⟨k, x⟩ := e
    simp only [nulFreeEntries, Bool.and_eq_true, ih, List.mem_cons, forall_eq_or_imp]
    tauto

theorem mem_qmapInsert (k : String) (v : QVariant) (m : List (String × QVariant))
    (e : String × QVariant) (he : e ∈ qmapInsert k v m) : e = (k, v) ∨ e ∈ m := by
  induction m with
  | nil => simpa [qmapInsert] using he
  | cons a t ih =>
    obtain ⟨k', v'⟩ := a
    unfold qmapInsert at he
    split at he
    · rcases List.mem_cons.1 he with h1 | h1
      · exact Or.inr (h1 ▸ List.mem_cons_self _ _)
      · rcases ih h1 with h2 | h2
        · exact Or.inl h2
        · exact Or.inr (List.mem_cons_of_mem _ h2)
    · split at he
      · rcases List.mem_cons.1 he with h1 | h1
        · exact Or.inl h1
        · exact Or.inr h1
      · rcases List.mem_cons.1 he with h1 | h1
        · exact Or.inl h1
        · exact Or.inr (List.mem_cons_of_mem _ h1)

mutual
theorem decode_nulFree (n : MpvNode) : (mpvPropertyToVariant n).nulFree = true := by
  match n with
  | .uninit => rfl
  | .none => rfl
  | .string s => simpa [mpvPropertyToVariant, QVariant.nulFree] using noNul_fromUtf8 s.buf
  | .flag v => rfl
  | .int64 v => rfl
  | .double d => rfl
  | .other f => rfl
  | .nodeArray l v vs =>
    simpa [mpvPropertyToVariant, QVariant.nulFree] using decodeValues_nulFree vs
  | .nodeMap l v k es =>
    simpa [mpvPropertyToVariant, QVariant.nulFree] using
      decodeEntries_nulFree es [] (by simp [nulFreeEntries])
theorem decodeValues_nulFree (vs : List MpvNode) : nulFreeList (decodeValues vs) = true := by
  match vs with
  | [] => rfl
  | n :: ns =>
    simp [decodeValues, nulFreeList, decode_nulFree n, decodeValues_nulFree ns]
theorem decodeEntries_nulFree (es : List (Option CStr × MpvNode))
    (acc : List (String × QVariant)) (hacc : nulFreeEntries acc = true) :
    nulFreeEntries (decodeEntries acc es) = true := by
  match es with
  | [] => simpa [decodeEntries] using hacc
  | (key, n) :: rest =>
    simp only [decodeEntries]
    apply decodeEntries_nulFree rest
    rw [nulFreeEntries_iff] at hacc ⊢
    intro e he
    rcases mem_qmapInsert _ _ _ e he with h1 | h1
    · rw [h1]
      exact ⟨noNul_keyText key, decode_nulFree n⟩
    · exact hacc e h1
end

/-- An `Int` value encodes as int64 and comes back tagged `LongLong`, with the
same number. -/
theorem int_decodes_as_longLong (h : Heap) (i : Int) (node : MpvNode) :
    (variantToMpvNode h (QVariant.int i) node).2.2 = true ∧
      mpvPropertyToVariant (variantToMpvNode h (QVariant.int i) node).2.1
        = QVariant.longLong i :=
  ⟨rfl, rfl⟩

/-! ## The marshaler -/

/-- C1 (amended): a value built only from Bool, 64-bit Integer, Double, Text,
Sequence and Mapping, each mapping holding its keys in ascending order (the
`QMap` invariant), encodes with success from any heap into any node; decoding
the node written gives the value back if and only if no text and no key in the
value contains U+0000. -/
theorem marshaler_round_trip (h : Heap) (v : QVariant) (node : MpvNode)
    (hw : v.wellFormed = true) (ht : v.valueTags = true) :
    (variantToMpvNode h v node).2.2 = true ∧
      (mpvPropertyToVariant (variantToMpvNode h v node).2.1 = v ↔ v.nulFree = true) := by
  have hs : ∀ u : QVariant, u.valueTags = true → u.nulFree = true → u.plain = true := by
    intro u h1 h2
    rw [plain_eq, h1, h2]
    rfl
  refine ⟨?_, ?_, ?_⟩
  · rw [encode_result_eq_supported]
    exact supported_of_valueTags v ht
  · intro heq
    rw [← heq]
    exact decode_nulFree _
  · intro hn
    exact (roundtrip_node h v node hw (hs v ht hn)).2

/-- Witness for C1: a mapping that holds a sequence and a text. -/
theorem marshaler_round_trip_witness :
    (QVariant.map [("a", .list [.bool true, .longLong (-5), .double 7]),
        ("b", .string "x y")]).wellFormed = true ∧
    (QVariant.map [("a", .list [.bool true, .longLong (-5), .double 7]),
        ("b", .string "x y")]).valueTags = true ∧
    (QVariant.map [("a", .list [.bool true, .longLong (-5), .double 7]),
        ("b", .string "x y")]).nulFree = true ∧
    (variantToMpvNode Heap.empty (QVariant.map [("a", .list [.bool true, .longLong (-5), .double 7]),
        ("b", .string "x y")]) MpvNode.uninit).2.2 = true ∧
    mpvPropertyToVariant (variantToMpvNode Heap.empty
        (QVariant.map [("a", .list [.bool true, .longLong (-5), .double 7]),
          ("b", .string "x y")]) MpvNode.uninit).2.1
      = QVariant.map [("a", .list [.bool true, .longLong (-5), .double 7]),
          ("b", .string "x y")] :=
  have t := marshaler_round_trip Heap.empty
    (QVariant.map [("a", .list [.bool true, .longLong (-5), .double 7]), ("b", .string "x y")])
    MpvNode.uninit rfl rfl
  ⟨rfl, rfl, rfl, t.1, t.2.2 rfl⟩

/-- C1 (counterexample): the text `a`, U+0000, `b` is a Text value; it encodes
with success, and the node decodes to the text `a`, which is not the
original. -/
theorem marshaler_round_trip_counterexample :
    (QVariant.string "a\x00b").supported = true ∧
    (variantToMpvNode Heap.empty (QVariant.string "a\x00b") MpvNode.uninit).2.2 = true ∧
    mpvPropertyToVariant
      (variantToMpvNode Heap.empty (QVariant.string "a\x00b") MpvNode.uninit).2.1
        = QVariant.string "a" ∧
    mpvPropertyToVariant
      (variantToMpvNode Heap.empty (QVariant.string "a\x00b") MpvNode.uninit).2.1
        ≠ QVariant.string "a\x00b" := by
  refine ⟨rfl, rfl, rfl, ?_⟩
  have e : mpvPropertyToVariant
      (variantToMpvNode Heap.empty (QVariant.string "a\x00b") MpvNode.uninit).2.1
        = QVariant.string "a" := rfl
  rw [e]
  intro hc
  exact absurd (QVariant.string.inj hc) (by decide)

/-- C2: on a heap whose outstanding blocks are distinct and below the next
unused block, an encode that succeeds allocates the blocks numbered from
`h.next` on, all outstanding afterwards, and records no fault; one
`freeMpvNode` on the node written then brings the list of outstanding blocks
back to what it was before the encode and records no fault (a release of a
block that is not outstanding, such as a second release, is a fault), and the
node is left with format none.  The value may be nested to any depth. -/
theorem encode_then_free_releases_all (h : Heap) (v : QVariant) (node : MpvNode)
    (hw : h.wellFormed) (hok : (variantToMpvNode h v node).2.2 = true) :
    (variantToMpvNode h v node).1.live
        = (List.range' h.next ((variantToMpvNode h v node).1.next - h.next)).reverse ++ h.live ∧
    (variantToMpvNode h v node).1.faults = h.faults ∧
    (encodeThenFree h v node).1.live = h.live ∧
    (encodeThenFree h v node).1.live.length = h.live.length ∧
    (encodeThenFree h v node).1.faults = h.faults ∧
    (encodeThenFree h v node).2 = MpvNode.none := by
  obtain ⟨ha, hi⟩ := encode_allocated h v node hok
  have hfree := free_eq_releaseAll (variantToMpvNode h v node).1 _ hi
  obtain ⟨hrel, hf⟩ := releaseAll_allocated hw ha
  have hlive : (encodeThenFree h v node).1.live = h.live := by
    unfold encodeThenFree
    rw [hfree]
    simp only
    rw [hrel]
  refine ⟨?_, ha.1, hlive, by rw [hlive], ?_, ?_⟩
  · rw [ha.2.2.1, ha.2.1, Nat.add_sub_cancel_left]
  · unfold encodeThenFree
    rw [hfree]
    exact hf
  · unfold encodeThenFree
    rw [hfree]

/-- Witness for C2: a sequence holding a mapping holding a sequence (depth 3)
and a text, encoded on a heap with two blocks outstanding. -/
theorem encode_then_free_releases_all_witness :
    (Heap.mk 5 [4, 1] []).wellFormed ∧
    (variantToMpvNode (Heap.mk 5 [4, 1] [])
      (QVariant.list [.map [("k", .list [.string "x", .longLong 1])], .string "y"])
      MpvNode.uninit).2.2 = true ∧
    (variantToMpvNode (Heap.mk 5 [4, 1] [])
      (QVariant.list [.map [("k", .list [.string "x", .longLong 1])], .string "y"])
      MpvNode.uninit).1.live = [14, 13, 12, 11, 10, 9, 8, 7, 6, 5, 4, 1] ∧
    (encodeThenFree (Heap.mk 5 [4, 1] [])
      (QVariant.list [.map [("k", .list [.string "x", .longLong 1])], .string "y"])
      MpvNode.uninit).1.live = [4, 1] ∧
    (encodeThenFree (Heap.mk 5 [4, 1] [])
      (QVariant.list [.map [("k", .list [.string "x", .longLong 1])], .string "y"])
      MpvNode.uninit).1.faults = [] :=
  have hw : (Heap.mk 5 [4, 1] []).wellFormed := ⟨by decide, by decide⟩
  have t := encode_then_free_releases_all (Heap.mk 5 [4, 1] [])
    (QVariant.list [.map [("k", .list [.string "x", .longLong 1])], .string "y"])
    MpvNode.uninit hw rfl
  ⟨hw, rfl, t.1, t.2.2.1, t.2.2.2.2.1⟩

/-- C4 (the code at the failing input): encoding the mapping with key `a` bound
to an invalid value and key `b` bound to a text fails, and the cleanup of the
failed call reads the format of the two value slots that were never written and
releases through the key slot that was never written; the four blocks the call
allocated are released.  (`failed_container_faults`: every list or map whose
encoding fails leaves such a fault.) -/
theorem failed_encode_touches_unwritten_slots :
    (variantToMpvNode Heap.empty
      (QVariant.map [("a", .invalid), ("b", .string "x")]) MpvNode.uninit).2.2 = false ∧
    (encodeEntries (Heap.mk 3 [2, 1, 0] [])
      [("a", QVariant.invalid), ("b", QVariant.string "x")]).2.1
        = [(some ⟨3, ['a', NUL]⟩, MpvNode.uninit), (Option.none, MpvNode.uninit)] ∧
    (variantToMpvNode Heap.empty
      (QVariant.map [("a", .invalid), ("b", .string "x")]) MpvNode.uninit).1.faults
        = [Fault.uninitNode, Fault.uninitKey, Fault.uninitNode] ∧
    (variantToMpvNode Heap.empty
      (QVariant.map [("a", .invalid), ("b", .string "x")]) MpvNode.uninit).1.live = [] :=
  ⟨rfl, rfl, rfl, rfl⟩

/-! ## Decoding -/

theorem qstringLess_iff (a b : String) : qstringLess a b = true ↔ toUtf16 a < toUtf16 b := by
  simp [qstringLess]

theorem qstringLess_irrefl (a : String) : qstringLess a a = false := by
  simp [qstringLess]

theorem decodeValues_eq_map (vs : List MpvNode) :
    decodeValues vs = vs.map mpvPropertyToVariant := by
  induction vs with
  | nil => rfl
  | cons n ns ih => simp [decodeValues, ih]

theorem decodeEntries_append (acc : List (String × QVariant))
    (es fs : List (Option CStr × MpvNode)) :
    decodeEntries acc (es ++ fs) = decodeEntries (decodeEntries acc es) fs := by
  induction es generalizing acc with
  | nil => rfl
  | cons e t ih =>
    obtain ⟨key, n⟩ := e
    simp [decodeEntries, ih]

theorem qmapValue_insert_same (k : String) (v : QVariant) (m : List (String × QVariant)) :
    qmapValue k (qmapInsert k v m) = some v := by
  induction m with
  | nil => simp [qmapInsert, qmapValue, qstringLess_irrefl]
  | cons e t ih =>
    obtain ⟨a, va⟩ := e
    by_cases h1 : qstringLess a k = true
    · simp [qmapInsert, qmapValue, h1, ih]
    · by_cases h2 : qstringLess k a = true
      · simp [qmapInsert, qmapValue, h1, h2, qstringLess_irrefl]
      · simp [qmapInsert, qmapValue, h1, h2, qstringLess_irrefl]

theorem qmapValue_insert_other (k q : String) (v : QVariant) (m : List (String × QVariant))
    (hd : keysDiffer q k = true) :
    qmapValue q (qmapInsert k v m) = qmapValue q m := by
  have hd' : toUtf16 q < toUtf16 k ∨ toUtf16 k < toUtf16 q := by
    simpa [keysDiffer, qstringLess] using hd
  induction m with
  | nil =>
    rcases hd' with h | h
    · have : ¬ toUtf16 k < toUtf16 q := lt_asymm h
      simp [qmapInsert, qmapValue, qstringLess, h, this]
    · simp [qmapInsert, qmapValue, qstringLess, h]
  | cons e t ih =>
    obtain ⟨a, va⟩ := e
    by_cases h1 : toUtf16 a < toUtf16 k
    · by_cases h3 : toUtf16 a < toUtf16 q
      · simp [qmapInsert, qmapValue, qstringLess, h1, h3, ih]
      · simp [qmapInsert, qmapValue, qstringLess, h1, h3]
    · by_cases h2 : toUtf16 k < toUtf16 a
      · rcases hd' with h | h
        · have n1 : ¬ toUtf16 k < toUtf16 q := lt_asymm h
          have n2 : toUtf16 q < toUtf16 a := lt_trans h h2
          have n3 : ¬ toUtf16 a < toUtf16 q := lt_asymm n2
          simp [qmapInsert, qmapValue, qstringLess, h1, h2, h, n1, n2, n3]
        · simp [qmapInsert, qmapValue, qstringLess, h1, h2, h]
      · have heq : toUtf16 a = toUtf16 k := by
          rcases lt_trichotomy (toUtf16 a) (toUtf16 k) with h | h | h
          · exact absurd h h1
          · exact h
          · exact absurd h h2
        rcases hd' with h | h
        · have n1 : ¬ toUtf16 k < toUtf16 q := lt_asymm h
          simp [qmapInsert, qmapValue, qstringLess, h1, h2, heq, h, n1]
        · simp [qmapInsert, qmapValue, qstringLess, h1, h2, heq, h]

theorem qmapValue_decodeEntries (q : String) (es : List (Option CStr × MpvNode)) :
    ∀ acc : List (String × QVariant),
      (∀ e ∈ es, keysDiffer q (keyText e.1) = true) →
      qmapValue q (decodeEntries acc es) = qmapValue q acc := by
  induction es with
  | nil => intro acc _; rfl
  | cons e t ih =>
    intro acc hd
    obtain ⟨key, n⟩ := e
    simp only [decodeEntries]
    rw [ih _ (fun e he => hd e (List.mem_cons_of_mem _ he))]
    exact qmapValue_insert_other _ _ _ _ (hd (key, n) (List.mem_cons_self _ _))

/-- C5: `mpvPropertyToVariant` is defined on every native node.  A string,
flag, int64 or double node decodes to the matching value; a node of format none
or of any format outside the six decodes to the invalid (absent) value; an
array decodes element by element, so an element of unknown format becomes an
invalid element at its place between the decoded others; a map decodes entry
by entry, so an entry, of unknown format or not, whose key no later entry
repeats is found under its key with its decoded value. -/
theorem decode_total_forward_compatible (l v k f : Nat) (vs pre post : List MpvNode)
    (es epre epost : List (Option CStr × MpvNode)) (key : Option CStr) (n : MpvNode) :
    (∀ s, mpvPropertyToVariant (MpvNode.string s) = QVariant.string (fromUtf8 s.buf)) ∧
    (∀ i, mpvPropertyToVariant (MpvNode.flag i) = QVariant.bool (i != 0)) ∧
    (∀ i, mpvPropertyToVariant (MpvNode.int64 i) = QVariant.longLong i) ∧
    (∀ d, mpvPropertyToVariant (MpvNode.double d) = QVariant.double d) ∧
    mpvPropertyToVariant MpvNode.none = QVariant.invalid ∧
    mpvPropertyToVariant (MpvNode.other f) = QVariant.invalid ∧
    mpvPropertyToVariant (MpvNode.nodeArray l v vs)
      = QVariant.list (vs.map mpvPropertyToVariant) ∧
    mpvPropertyToVariant (MpvNode.nodeArray l v (pre ++ MpvNode.other f :: post))
      = QVariant.list (pre.map mpvPropertyToVariant ++
          QVariant.invalid :: post.map mpvPropertyToVariant) ∧
    mpvPropertyToVariant (MpvNode.nodeMap l v k es) = QVariant.map (decodeEntries [] es) ∧
    ((∀ e ∈ epost, keysDiffer (keyText key) (keyText e.1) = true) →
      qmapValue (keyText key) (decodeEntries [] (epre ++ (key, n) :: epost))
          = some (mpvPropertyToVariant n) ∧
        qmapValue (keyText key) (decodeEntries [] (epre ++ (key, MpvNode.other f) :: epost))
          = some QVariant.invalid) := by
  have hm : (∀ e ∈ epost, keysDiffer (keyText key) (keyText e.1) = true) → ∀ x : MpvNode,
      qmapValue (keyText key) (decodeEntries [] (epre ++ (key, x) :: epost))
        = some (mpvPropertyToVariant x) := by
    intro hkeys x
    rw [decodeEntries_append]
    simp only [decodeEntries]
    rw [qmapValue_decodeEntries _ _ _ hkeys, qmapValue_insert_same]
  refine ⟨fun _ => rfl, fun _ => rfl, fun _ => rfl, fun _ => rfl, rfl, rfl, ?_, ?_, rfl,
    fun hkeys => ⟨hm hkeys n, hm hkeys (MpvNode.other f)⟩⟩
  · simp [mpvPropertyToVariant, decodeValues_eq_map]
  · simp [mpvPropertyToVariant, decodeValues_eq_map]

/-- Witness for C5: a map whose second entry has an unknown format, between
two entries that are decoded. -/
theorem decode_total_forward_compatible_witness :
    (∀ e ∈ [((some ⟨0, ['c', NUL]⟩ : Option CStr), MpvNode.flag 0)],
      keysDiffer (keyText (some ⟨0, ['b', NUL]⟩)) (keyText e.1) = true) ∧
    mpvPropertyToVariant (MpvNode.nodeMap 0 0 0
      [(some ⟨0, ['a', NUL]⟩, MpvNode.int64 1), (some ⟨0, ['b', NUL]⟩, MpvNode.other 9),
        (some ⟨0, ['c', NUL]⟩, MpvNode.flag 0)])
      = QVariant.map [("a", .longLong 1), ("b", .invalid), ("c", .bool false)] ∧
    qmapValue (keyText (some ⟨0, ['b', NUL]⟩))
      (decodeEntries [] ([(some ⟨0, ['a', NUL]⟩, MpvNode.int64 1)] ++
        (some ⟨0, ['b', NUL]⟩, MpvNode.other 9) :: [(some ⟨0, ['c', NUL]⟩, MpvNode.flag 0)]))
      = some QVariant.invalid :=
  have hk : ∀ e ∈ [((some ⟨0, ['c', NUL]⟩ : Option CStr), MpvNode.flag 0)],
      keysDiffer (keyText (some ⟨0, ['b', NUL]⟩)) (keyText e.1) = true := by
    intro e he
    rw [List.mem_singleton] at he
    subst he
    rfl
  ⟨hk, rfl,
    ((decode_total_forward_compatible 0 0 0 9 [] [] []
      [] [(some ⟨0, ['a', NUL]⟩, MpvNode.int64 1)] [(some ⟨0, ['c', NUL]⟩, MpvNode.flag 0)]
      (some ⟨0, ['b', NUL]⟩) MpvNode.none).2.2.2.2.2.2.2.2.2 hk).2⟩

/-! ## The event drain -/

theorem drainEvents_eq (errorString : Int → String) :
    ∀ (rounds : Nat) (h : MpvHandle), h.events.length < rounds →
      drainEvents errorString rounds h
        = ({ h with events := [] }, published errorString h.events) := by
  intro rounds
  induction rounds with
  | zero => intro h hl; omega
  | succ r ih =>
    intro h hl
    cases he : h.events with
    | nil =>
      have hh : { h with events := [] } = h := by
        cases h
        simp_all
      simp [drainEvents, mpv_wait_event, he, published, hh]
    | cons e rest =>
      have hr : ({ h with events := rest } : MpvHandle).events.length < r := by
        rw [he] at hl
        simpa using hl
      have := ih { h with events := rest } hr
      simp only [drainEvents, mpv_wait_event, he, this]
      simp [published]

theorem handleEvents_eq (errorString : Int → String) (h : MpvHandle) (core : MPVCore) :
    MPVCore.handleEvents errorString { core with m_mpv := some h }
      = ({ core with m_mpv := some { h with events := [] } }, published errorString h.events) := by
  simp [MPVCore.handleEvents, drainEvents_eq errorString _ h (Nat.lt_succ_self _)]

theorem published_append (errorString : Int → String) (pre post : List MpvEvent) :
    published errorString (pre ++ post)
      = published errorString pre ++ published errorString post := by
  simp [published]

/-- C6: with the events `E1 .. En` queued, one `handleEvents` call emits the
signals of `E1`, then those of `E2`, and so on to `En`: the signals of an
earlier part of the queue all come before the signals of the rest, and for
three queued events the output is the signals of the first, then of the second,
then of the third. -/
theorem handleEvents_preserves_order (errorString : Int → String) (h : MpvHandle)
    (core : MPVCore) (pre post : List MpvEvent) (e1 e2 e3 : MpvEvent) :
    (MPVCore.handleEvents errorString { core with m_mpv := some h }).2
      = (h.events.map (dispatchEvent errorString)).flatten ∧
    (MPVCore.handleEvents errorString { core with m_mpv := some { h with events := pre ++ post } }).2
      = (MPVCore.handleEvents errorString { core with m_mpv := some { h with events := pre } }).2 ++
        (MPVCore.handleEvents errorString { core with m_mpv := some { h with events := post } }).2 ∧
    (MPVCore.handleEvents errorString { core with m_mpv := some { h with events := [e1, e2, e3] } }).2
      = dispatchEvent errorString e1 ++ dispatchEvent errorString e2 ++
        dispatchEvent errorString e3 := by
  refine ⟨?_, ?_, ?_⟩
  · rw [handleEvents_eq]; rfl
  · simp only [handleEvents_eq, published_append]
  · rw [handleEvents_eq]; simp [published]

/-- C7: a property-change event in node format publishes
`propertyChanged (name, decoded value)`; it is followed by `playbackFinished`,
before anything the next queued event publishes, exactly when the name is
`eof-reached` and `toBool` of the value holds.  So for `eof-reached` with the
value Bool true the two signals come in that order, and for another name, or
the value Bool false, `propertyChanged` is all the event publishes. -/
theorem eof_synthesis (errorString : Int → String) (h : MpvHandle) (core : MPVCore)
    (pre post : List MpvEvent) (name : List Char) (n : MpvNode) :
    (MPVCore.handleEvents errorString
        { core with
          m_mpv := some
            { h with
              events :=
                pre ++ MpvEvent.propertyChange (some ⟨name, PropertyData.node n⟩) :: post } }).2
      = published errorString pre ++
        (Signal.propertyChanged (fromUtf8 name) (mpvPropertyToVariant n) ::
          (if fromUtf8 name = "eof-reached" ∧ (mpvPropertyToVariant n).toBool = true
           then [Signal.playbackFinished] else [])) ++
        published errorString post ∧
    (fromUtf8 name = "eof-reached" → mpvPropertyToVariant n = QVariant.bool true →
      dispatchEvent errorString (MpvEvent.propertyChange (some ⟨name, PropertyData.node n⟩))
        = [Signal.propertyChanged "eof-reached" (QVariant.bool true),
            Signal.playbackFinished]) ∧
    (fromUtf8 name ≠ "eof-reached" ∨ mpvPropertyToVariant n = QVariant.bool false →
      dispatchEvent errorString (MpvEvent.propertyChange (some ⟨name, PropertyData.node n⟩))
        = [Signal.propertyChanged (fromUtf8 name) (mpvPropertyToVariant n)]) := by
  refine ⟨?_, ?_, ?_⟩
  · rw [handleEvents_eq]
    simp only [published_append]
    by_cases hc : fromUtf8 name = "eof-reached" ∧ (mpvPropertyToVariant n).toBool = true
    · simp [published, dispatchEvent, hc.1, hc.2]
    · have hb : (fromUtf8 name == "eof-reached" && (mpvPropertyToVariant n).toBool) = false := by
        rcases not_and_or.1 hc with h1 | h1
        · simp [h1]
        · simp [h1]
      simp [published, dispatchEvent, hc, hb]
  · intro h1 h2
    simp [dispatchEvent, h1, h2, QVariant.toBool]
  · intro h1
    rcases h1 with h1 | h1
    · simp [dispatchEvent, h1]
    · simp [dispatchEvent, h1, QVariant.toBool]

/-- Witness for C7: the queue holds `eof-reached` with flag 1 and then a
file-loaded event. -/
theorem eof_synthesis_witness :
    (MPVCore.handleEvents (fun _ => "")
        (MPVCore.withEngine { MpvHandle.idle with events :=
          [MpvEvent.propertyChange
            (some ⟨utf8Buffer "eof-reached", PropertyData.node (MpvNode.flag 1)⟩),
            MpvEvent.fileLoaded] })).2
      = [Signal.propertyChanged "eof-reached" (QVariant.bool true), Signal.playbackFinished,
          Signal.fileLoaded] :=
  (eof_synthesis (fun _ => "") MpvHandle.idle (MPVCore.withEngine MpvHandle.idle) []
    [MpvEvent.fileLoaded]
    (utf8Buffer "eof-reached") (MpvNode.flag 1)).1.trans rfl

/-! ## Observation -/

/-- C10 (counterexample): on an engine with no registration and an empty
queue, `observeProperty` called twice for `volume` leaves two registrations
where one call leaves one, and after one change of `volume` to 50 the next
drain emits `propertyChanged` twice where after one call it emits it once. -/
theorem observe_twice_counterexample :
    (((MPVCore.withEngine MpvHandle.idle).observeProperty "volume").observeProperty
        "volume").m_mpv.map (fun h => h.observed)
      = some [⟨0, "volume", MpvFormat.node⟩, ⟨0, "volume", MpvFormat.node⟩] ∧
    ((MPVCore.withEngine MpvHandle.idle).observeProperty "volume").m_mpv.map
        (fun h => h.observed)
      = some [⟨0, "volume", MpvFormat.node⟩] ∧
    (MPVCore.handleEvents (fun _ => "")
        ((((MPVCore.withEngine MpvHandle.idle).observeProperty
          "volume").observeProperty "volume").engineChange "volume" (MpvNode.int64 50))).2
      = [Signal.propertyChanged "volume" (QVariant.longLong 50),
          Signal.propertyChanged "volume" (QVariant.longLong 50)] ∧
    (MPVCore.handleEvents (fun _ => "")
        (((MPVCore.withEngine MpvHandle.idle).observeProperty
          "volume").engineChange "volume" (MpvNode.int64 50))).2
      = [Signal.propertyChanged "volume" (QVariant.longLong 50)] :=
  ⟨rfl, rfl, rfl, rfl⟩

/-- C10 (amended): `observeProperty` passes every call on to the engine.  On a
handle with an engine instance one call adds one registration of the name
(reply id 0, node format) and two calls add two; without an engine instance the
call changes nothing.  After two calls on an engine that had no registration
and an empty queue, one change of the property makes the next drain emit what
the change event publishes twice, and that begins with `propertyChanged`. -/
theorem observeProperty_registers_each_call (errorString : Int → String) (h : MpvHandle)
    (core : MPVCore) (name : String) (value : MpvNode) :
    MPVCore.observeProperty { core with m_mpv := some h } name
      = { core with m_mpv := some { h with observed :=
          h.observed ++ [⟨0, fromUtf8 (utf8Buffer name), MpvFormat.node⟩] } } ∧
    MPVCore.observeProperty (MPVCore.observeProperty { core with m_mpv := some h } name) name
      = { core with m_mpv := some { h with observed :=
          h.observed ++ [⟨0, fromUtf8 (utf8Buffer name), MpvFormat.node⟩,
            ⟨0, fromUtf8 (utf8Buffer name), MpvFormat.node⟩] } } ∧
    MPVCore.observeProperty { core with m_mpv := Option.none } name
      = { core with m_mpv := Option.none } ∧
    (MPVCore.handleEvents errorString
        (MPVCore.engineChange
          (MPVCore.observeProperty
            (MPVCore.observeProperty
              { core with m_mpv := some { h with events := [], observed := [] } } name)
            name)
          (fromUtf8 (utf8Buffer name)) value)).2
      = dispatchEvent errorString (MpvEvent.propertyChange
          (some ⟨utf8Buffer (fromUtf8 (utf8Buffer name)), PropertyData.node value⟩)) ++
        dispatchEvent errorString (MpvEvent.propertyChange
          (some ⟨utf8Buffer (fromUtf8 (utf8Buffer name)), PropertyData.node value⟩)) ∧
    (∃ tail, dispatchEvent errorString (MpvEvent.propertyChange
          (some ⟨utf8Buffer (fromUtf8 (utf8Buffer name)), PropertyData.node value⟩))
      = Signal.propertyChanged (fromUtf8 (utf8Buffer (fromUtf8 (utf8Buffer name))))
          (mpvPropertyToVariant value) :: tail) := by
  refine ⟨rfl, ?_, rfl, ?_, ⟨_, rfl⟩⟩
  · simp [MPVCore.observeProperty, mpv_observe_property]
  · simp [MPVCore.observeProperty, mpv_observe_property, MPVCore.engineChange,
      MpvHandle.changeProperty, handleEvents_eq, published]

/-! ## Commands -/

theorem buildCmdStr_succ (rest : List String) :
    ∀ (i : Nat) (acc : String),
      buildCmdStr (i + 1) rest acc = String.intercalate.go acc " " (rest.map writtenArg) := by
  induction rest with
  | nil => intro i acc; rfl
  | cons b t ih =>
    intro i acc
    simp only [buildCmdStr, List.map_cons, String.intercalate.go]
    rw [ih]
    simp

theorem commandString_eq_intercalate (args : List String) :
    commandString args = " ".intercalate (args.map writtenArg) := by
  cases args with
  | nil => rfl
  | cons a rest =>
    simp only [commandString, buildCmdStr, List.map_cons, String.intercalate]
    rw [buildCmdStr_succ]
    simp

/-- C9 (counterexample): the argument `a`, tab, `b` contains a whitespace
character and is written without quotes: the command string is not the one the
claim describes. -/
theorem command_tab_counterexample :
    ("a\tb".data.any isWhitespace) = true ∧
    commandString ["seek", "a\tb"] = "seek a\tb" ∧
    specSerialise ["seek", "a\tb"] = "seek \"a\tb\"" ∧
    commandString ["seek", "a\tb"] ≠ specSerialise ["seek", "a\tb"] := by
  refine ⟨by decide, by decide, by decide, by decide⟩

/-- C9 (amended): the command string is the arguments in list order, separated
by one space, each argument that contains a space character enclosed in double
quotes and every other argument written as it is; `command` submits that string
to the engine as a C string.  When no argument contains a tab or a newline this
is the serialisation the specification words. -/
theorem command_quotes_spaces (args : List String) (h : MpvHandle) (core : MPVCore) :
    commandString args
      = " ".intercalate
          (args.map (fun a => if a.data.contains ' ' then "\"" ++ a ++ "\"" else a)) ∧
    (args ≠ [] → MPVCore.command { core with m_mpv := some h } args
      = { core with m_mpv := some { h with commands :=
          h.commands ++ [fromUtf8 (utf8Buffer (commandString args))] } }) ∧
    ((∀ x ∈ args, ∀ c ∈ x.data, isWhitespace c = true → c = ' ') →
      commandString args = specSerialise args) := by
  have h1 := commandString_eq_intercalate args
  refine ⟨h1, ?_, ?_⟩
  · intro hne
    cases args with
    | nil => exact absurd rfl hne
    | cons a rest => simp [MPVCore.command, mpv_command_string]
  · intro hws
    rw [h1, specSerialise]
    congr 1
    apply List.map_congr_left
    intro x hx
    have : x.data.any isWhitespace = x.data.contains ' ' := by
      by_cases hc : x.data.contains ' ' = true
      · rw [hc, List.any_eq_true]
        exact ⟨' ', List.elem_iff.1 hc, rfl⟩
      · have hf : x.data.contains ' ' = false := by simpa using hc
        rw [hf]
        cases hany : x.data.any isWhitespace with
        | false => rfl
        | true =>
          obtain ⟨c, hcm, hcw⟩ := List.any_eq_true.1 hany
          have := hws x hx c hcm hcw
          subst this
          exact absurd (List.elem_iff.2 hcm) hc
    simp only [writtenArg, this]

/-- Witness for C9: `loadfile` and a file name with a space. -/
theorem command_quotes_spaces_witness :
    (∀ x ∈ ["loadfile", "my video.mp4"], ∀ c ∈ x.data, isWhitespace c = true → c = ' ') ∧
    commandString ["loadfile", "my video.mp4"] = "loadfile \"my video.mp4\"" ∧
    commandString ["loadfile", "my video.mp4"] = specSerialise ["loadfile", "my video.mp4"] :=
  have hw : ∀ x ∈ ["loadfile", "my video.mp4"], ∀ c ∈ x.data,
      isWhitespace c = true → c = ' ' := by decide
  ⟨hw, by decide,
    (command_quotes_spaces ["loadfile", "my video.mp4"] MpvHandle.idle
      (MPVCore.withEngine MpvHandle.idle)).2.2 hw⟩


theorem intercalate_go_data (l : List String) :
    ∀ acc : String, (String.intercalate.go acc " " l).data
      = acc.data ++ (l.map (fun b => ' ' :: b.data)).flatten := by
  induction l with
  | nil => intro acc; simp [String.intercalate.go]
  | cons b t ih =>
    intro acc
    simp only [String.intercalate.go, ih, String.data_append, List.map_cons, List.flatten_cons]
    simp

theorem commandString_data (a : String) (rest : List String) :
    (commandString (a :: rest)).data
      = (writtenArg a).data ++ (rest.map (fun b => ' ' :: (writtenArg b).data)).flatten := by
  rw [commandString_eq_intercalate]
  simp only [List.map_cons, String.intercalate, intercalate_go_data, List.map_map]
  rfl

theorem writtenArg_data (x : String) :
    (writtenArg x).data
      = if x.data.contains ' ' then '"' :: (x.data ++ ['"']) else x.data := by
  unfold writtenArg
  split
  · simp only [String.data_append]
    rfl
  · rfl

theorem splitArgs_bare (w : List Char) :
    ∀ (acc tail : List Char), (∀ c ∈ w, c ≠ ' ' ∧ c ≠ '"') →
      splitArgs (w ++ tail) false (some acc) = splitArgs tail false (some (acc ++ w)) := by
  induction w with
  | nil => intro acc tail _; simp
  | cons c t ih =>
    intro acc tail hw
    have hc := hw c (List.mem_cons_self _ _)
    simp only [List.cons_append, splitArgs, hc.1, hc.2, if_false, Option.getD_some, List.append_eq]
    rw [ih _ _ (fun d hd => hw d (List.mem_cons_of_mem _ hd))]
    simp

theorem splitArgs_quoted (w : List Char) :
    ∀ (acc tail : List Char), (∀ c ∈ w, c ≠ '"') →
      splitArgs (w ++ '"' :: tail) true (some acc) = splitArgs tail false (some (acc ++ w)) := by
  induction w with
  | nil => intro acc tail _; simp [splitArgs]
  | cons c t ih =>
    intro acc tail hw
    have hc := hw c (List.mem_cons_self _ _)
    simp only [List.cons_append, splitArgs, hc, if_false, Option.getD_some, List.append_eq]
    rw [ih _ _ (fun d hd => hw d (List.mem_cons_of_mem _ hd))]
    simp

theorem splitArgs_written (x : String) (tail : List Char)
    (hne : x.data ≠ []) (hq : ∀ c ∈ x.data, c ≠ '"') :
    splitArgs ((writtenArg x).data ++ tail) false Option.none
      = splitArgs tail false (some x.data) := by
  rw [writtenArg_data]
  by_cases hs : x.data.contains ' ' = true
  · simp only [hs, if_true, List.cons_append, List.append_assoc, List.singleton_append]
    have h1 : ('"' : Char) ≠ ' ' := by decide
    simp only [splitArgs, h1, if_false, if_true, Option.getD_none, List.append_eq]
    rw [splitArgs_quoted _ _ _ hq]
    simp
  · have hs' : ∀ c ∈ x.data, c ≠ ' ' := by
      intro c hc he
      subst he
      exact hs (List.elem_iff.2 hc)
    simp only [hs, if_false]
    cases hx : x.data with
    | nil => exact absurd hx hne
    | cons c t =>
      have hc1 : c ≠ ' ' := hs' c (by rw [hx]; exact List.mem_cons_self _ _)
      have hc2 : c ≠ '"' := hq c (by rw [hx]; exact List.mem_cons_self _ _)
      simp only [List.cons_append, splitArgs, hc1, hc2, if_false, Option.getD_none,
        List.nil_append, List.append_eq]
      rw [splitArgs_bare t [c] tail (fun d hd =>
        ⟨hs' d (by rw [hx]; exact List.mem_cons_of_mem _ hd),
          hq d (by rw [hx]; exact List.mem_cons_of_mem _ hd)⟩)]
      simp

theorem splitArgs_rest (rest : List String) :
    ∀ x : String, (∀ y ∈ rest, y.data ≠ [] ∧ ∀ c ∈ y.data, c ≠ '"') →
      splitArgs (rest.map (fun b => ' ' :: (writtenArg b).data)).flatten false (some x.data)
        = x :: rest := by
  induction rest with
  | nil => intro x _; simp [splitArgs]
  | cons b t ih =>
    intro x hr
    have hb := hr b (List.mem_cons_self _ _)
    simp only [List.map_cons, List.flatten_cons, List.cons_append, splitArgs, if_true,
      List.append_eq]
    rw [splitArgs_written b _ hb.1 hb.2, ih b (fun y hy => hr y (List.mem_cons_of_mem _ hy))]

theorem commandString_noNul (a : String) (rest : List String)
    (hn : ∀ x ∈ a :: rest, noNul x = true) : noNul (commandString (a :: rest)) = true := by
  have hw : ∀ x : String, noNul x = true → ∀ c ∈ (writtenArg x).data, c ≠ NUL := by
    intro x hx c hc
    rw [writtenArg_data] at hc
    have hx' : ∀ d ∈ x.data, d ≠ NUL := by
      intro d hd
      have := List.all_eq_true.1 hx d hd
      simpa using this
    have hqn : ('"' : Char) ≠ NUL := by decide
    split at hc
    · simp only [List.mem_cons, List.mem_append, List.mem_singleton, List.not_mem_nil,
        or_false] at hc
      rcases hc with h | h | h
      · rw [h]; exact hqn
      · exact hx' c h
      · rw [h]; exact hqn
    · exact hx' c hc
  unfold noNul
  rw [commandString_data, List.all_eq_true]
  intro c hc
  have hsn : (' ' : Char) ≠ NUL := by decide
  have : c ≠ NUL := by
    rcases List.mem_append.1 hc with h | h
    · exact hw a (hn a (List.mem_cons_self _ _)) c h
    · obtain ⟨l, hl, hcl⟩ := List.mem_flatten.1 h
      obtain ⟨b, hb, rfl⟩ := List.mem_map.1 hl
      rcases List.mem_cons.1 hcl with h2 | h2
      · rw [h2]; exact hsn
      · exact hw b (hn b (List.mem_cons_of_mem _ hb)) c h2
  simpa using this

theorem splitArgs_chars (chars : List Char) :
    ∀ (inQuote : Bool) (cur : Option (List Char)) (t : String),
      t ∈ splitArgs chars inQuote cur →
      ∀ c ∈ t.data, c ∈ cur.getD [] ∨ (c ∈ chars ∧ c ≠ '"') := by
  induction chars with
  | nil =>
    intro inQuote cur t ht c hc
    cases cur with
    | none => cases inQuote <;> simp [splitArgs] at ht
    | some w =>
      have : t = String.mk w := by cases inQuote <;> simpa [splitArgs] using ht
      subst this
      exact Or.inl hc
  | cons c0 cs ih =>
    intro inQuote cur t ht c hc
    have up : ∀ cur' : Option (List Char),
        (c ∈ cur'.getD [] ∨ (c ∈ cs ∧ c ≠ '"')) →
        (c ∈ cur'.getD [] → c ∈ cur.getD [] ∨ (c = c0 ∧ c0 ≠ '"')) →
        c ∈ cur.getD [] ∨ (c ∈ c0 :: cs ∧ c ≠ '"') := by
      intro cur' h1 h2
      rcases h1 with h1 | h1
      · rcases h2 h1 with h3 | h3
        · exact Or.inl h3
        · exact Or.inr ⟨by rw [h3.1]; exact List.mem_cons_self _ _, by rw [h3.1]; exact h3.2⟩
      · exact Or.inr ⟨List.mem_cons_of_mem _ h1.1, h1.2⟩
    cases inQuote with
    | false =>
      by_cases h1 : c0 = ' '
      · cases cur with
        | none =>
          simp only [splitArgs, h1, if_true] at ht
          exact up Option.none (ih _ _ t ht c hc) (fun h => by simp at h)
        | some w =>
          simp only [splitArgs, h1, if_true, List.mem_cons] at ht
          rcases ht with ht | ht
          · subst ht
            exact Or.inl hc
          · exact up Option.none (ih _ _ t ht c hc) (fun h => by simp at h)
      · by_cases h2 : c0 = '"'
        · simp only [splitArgs, h1, h2, if_false, if_true] at ht
          exact up _ (ih _ _ t ht c hc) (fun h => Or.inl (by simpa using h))
        · simp only [splitArgs, h1, h2, if_false] at ht
          refine up _ (ih _ _ t ht c hc) (fun h => ?_)
          simp only [Option.getD_some, List.mem_append, List.mem_singleton] at h
          rcases h with h | h
          · exact Or.inl h
          · exact Or.inr ⟨h, h2⟩
    | true =>
      by_cases h2 : c0 = '"'
      · simp only [splitArgs, h2, if_true] at ht
        exact up _ (ih _ _ t ht c hc) (fun h => Or.inl h)
      · simp only [splitArgs, h2, if_false] at ht
        refine up _ (ih _ _ t ht c hc) (fun h => ?_)
        simp only [Option.getD_some, List.mem_append, List.mem_singleton] at h
        rcases h with h | h
        · exact Or.inl h
        · exact Or.inr ⟨h, h2⟩

theorem writtenArg_empty (x : String) (hx : x.data = []) : (writtenArg x).data = [] := by
  rw [writtenArg_data, hx]
  rfl

theorem bne_empty_of_data (x : String) : (x != "") = !x.data.isEmpty := by
  cases x with
  | mk d =>
    cases d with
    | nil => rfl
    | cons c t =>
      have : (String.mk (c :: t)) ≠ "" := by
        intro h
        have := congrArg String.data h
        simp at this
      simp [this]

theorem splitArgs_rest_filter (rest : List String) :
    ∀ cur : Option (List Char), (∀ y ∈ rest, ∀ c ∈ y.data, c ≠ '"') →
      splitArgs (rest.map (fun b => ' ' :: (writtenArg b).data)).flatten false cur
        = cur.toList.map String.mk ++ rest.filter (fun y => y != "") := by
  induction rest with
  | nil =>
    intro cur _
    cases cur <;> simp [splitArgs]
  | cons b t ih =>
    intro cur hr
    have hb := hr b (List.mem_cons_self _ _)
    have ht := fun y hy => hr y (List.mem_cons_of_mem _ hy)
    have step : splitArgs ((writtenArg b).data ++
        (t.map (fun b => ' ' :: (writtenArg b).data)).flatten) false Option.none
          = (b :: t).filter (fun y => y != "") := by
      by_cases hd : b.data = []
      · rw [writtenArg_empty b hd, List.nil_append, ih Option.none ht]
        have : (b != "") = false := by rw [bne_empty_of_data, hd]; rfl
        simp [List.filter_cons, this]
      · rw [splitArgs_written b _ hd hb, ih (some b.data) ht]
        have : (b != "") = true := by
          rw [bne_empty_of_data]
          cases hbd : b.data with
          | nil => exact absurd hbd hd
          | cons _ _ => rfl
        simp [List.filter_cons, this]
    cases cur with
    | none =>
      simp only [List.map_cons, List.flatten_cons, List.cons_append, splitArgs, if_true,
        List.append_eq]
      rw [step]
      simp
    | some w =>
      simp only [List.map_cons, List.flatten_cons, List.cons_append, splitArgs, if_true,
        List.append_eq]
      rw [step]
      simp

theorem engineSplit_commandString (a : String) (rest : List String)
    (hq : ∀ y ∈ a :: rest, ∀ c ∈ y.data, c ≠ '"') :
    engineSplit (commandString (a :: rest)) = (a :: rest).filter (fun y => y != "") := by
  have h := splitArgs_rest_filter (a :: rest) Option.none hq
  simp only [List.map_cons, List.flatten_cons, List.cons_append, splitArgs, if_true,
    List.append_eq, Option.toList, List.map_nil, List.nil_append] at h
  unfold engineSplit
  rw [commandString_data]
  exact h

theorem command_eq (h : MpvHandle) (core : MPVCore) (a : String) (rest : List String) :
    MPVCore.command { core with m_mpv := some h } (a :: rest)
      = { core with m_mpv := some { h with commands :=
          h.commands ++ [fromUtf8 (utf8Buffer (commandString (a :: rest)))] } } := by
  simp [MPVCore.command, mpv_command_string]

theorem command_round_trip_iff (a : String) (rest : List String) :
    engineSplit (fromUtf8 (utf8Buffer (commandString (a :: rest)))) = a :: rest ↔
      ∀ x ∈ a :: rest, x ≠ "" ∧ noQuote x = true ∧ noNul x = true := by
  constructor
  · intro heq
    have hchars : ∀ x ∈ a :: rest, ∀ c ∈ x.data, c ≠ '"' ∧ c ≠ NUL := by
      intro x hx c hc
      rw [← heq] at hx
      rcases splitArgs_chars _ _ _ x hx c hc with h1 | h1
      · simp at h1
      · refine ⟨h1.2, ?_⟩
        have := List.mem_takeWhile_imp h1.1
        simpa using this
    have hnq : ∀ x ∈ a :: rest, noQuote x = true := by
      intro x hx
      unfold noQuote
      rw [List.all_eq_true]
      intro c hc
      simpa using (hchars x hx c hc).1
    have hnn : ∀ x ∈ a :: rest, noNul x = true := by
      intro x hx
      unfold noNul
      rw [List.all_eq_true]
      intro c hc
      simpa using (hchars x hx c hc).2
    rw [fromUtf8_utf8Buffer _ (commandString_noNul a rest hnn),
      engineSplit_commandString a rest (fun y hy c hc => (hchars y hy c hc).1)] at heq
    have hne := List.filter_eq_self.1 heq
    intro x hx
    refine ⟨?_, hnq x hx, hnn x hx⟩
    have := hne x hx
    simpa using this
  · intro hargs
    have hnn : ∀ x ∈ a :: rest, noNul x = true := fun x hx => (hargs x hx).2.2
    have hq : ∀ y ∈ a :: rest, ∀ c ∈ y.data, c ≠ '"' := by
      intro y hy c hc
      have := List.all_eq_true.1 (hargs y hy).2.1 c hc
      simpa using this
    rw [fromUtf8_utf8Buffer _ (commandString_noNul a rest hnn),
      engineSplit_commandString a rest hq, List.filter_eq_self]
    intro x hx
    simpa using (hargs x hx).1

/-- C8 (counterexample): an empty argument is not received: `command` with the
arguments `loadfile` and the empty text submits `loadfile` followed by a space,
which splits into the one argument `loadfile`.  Likewise an argument with a
double quote is received without it, and the command ends at an embedded
U+0000. -/
theorem command_round_trip_counterexample :
    (MPVCore.command (MPVCore.withEngine MpvHandle.idle) ["loadfile", ""]).m_mpv.map
        (fun h => h.commands) = some ["loadfile "] ∧
    engineSplit "loadfile " = ["loadfile"] ∧
    engineSplit "loadfile " ≠ ["loadfile", ""] ∧
    (MPVCore.command (MPVCore.withEngine MpvHandle.idle) ["echo", "a\"b"]).m_mpv.map
        (fun h => h.commands) = some ["echo a\"b"] ∧
    engineSplit "echo a\"b" = ["echo", "ab"] ∧
    (MPVCore.command (MPVCore.withEngine MpvHandle.idle) ["a\x00b", "c"]).m_mpv.map
        (fun h => h.commands) = some ["a"] ∧
    engineSplit "a" = ["a"] := by
  refine ⟨by decide, by decide, by decide, by decide, by decide, by decide, by decide⟩

/-- C8 (amended): `command` with a non-empty argument list submits its command
string to the engine as a C string, and what the engine reads splits by the
engine's rule into exactly the original arguments, in order, if and only if
every argument is non-empty and contains neither a double quote nor U+0000. -/
theorem command_round_trip (h : MpvHandle) (core : MPVCore) (a : String)
    (rest : List String) :
    MPVCore.command { core with m_mpv := some h } (a :: rest)
      = { core with m_mpv := some { h with commands :=
          h.commands ++ [fromUtf8 (utf8Buffer (commandString (a :: rest)))] } } ∧
    (engineSplit (fromUtf8 (utf8Buffer (commandString (a :: rest)))) = a :: rest ↔
      ∀ x ∈ a :: rest, x ≠ "" ∧ noQuote x = true ∧ noNul x = true) :=
  ⟨command_eq h core a rest, command_round_trip_iff a rest⟩

/-- Witness for C8: `loadfile` and `my video.mp4` are received as two
arguments. -/
theorem command_round_trip_witness :
    (∀ x ∈ ["loadfile", "my video.mp4"], x ≠ "" ∧ noQuote x = true ∧ noNul x = true) ∧
    (MPVCore.command (MPVCore.withEngine MpvHandle.idle) ["loadfile", "my video.mp4"]).m_mpv.map
        (fun h => h.commands) = some ["loadfile \"my video.mp4\""] ∧
    engineSplit (fromUtf8 (utf8Buffer (commandString ["loadfile", "my video.mp4"])))
      = ["loadfile", "my video.mp4"] :=
  have hw : ∀ x ∈ ["loadfile", "my video.mp4"],
      x ≠ "" ∧ noQuote x = true ∧ noNul x = true := by decide
  ⟨hw, by decide,
    (command_round_trip MpvHandle.idle (MPVCore.withEngine MpvHandle.idle) "loadfile"
      ["my video.mp4"]).2.2 hw⟩

/-! ## Property access -/

/-- C12: for `duration` and for `time-pos`, when the engine answers the get with
the code for an unavailable property, `getProperty` returns the invalid value
(no value) and the one line it logs is at debug level, so nothing is logged at
warning level; the same holds on a handle without engine instance. -/
theorem getProperty_unavailable_is_quiet (errorString : Int → String) (core : MPVCore)
    (h : MpvHandle) (name : String)
    (hname : name = "duration" ∨ name = "time-pos")
    (hun : (mpv_get_property h (utf8Buffer name)).1 = MPV_ERROR_PROPERTY_UNAVAILABLE) :
    MPVCore.getProperty errorString { core with m_mpv := some h } name
      = (QVariant.invalid, [⟨LogLevel.debug, ["Property not yet available:", name]⟩]) ∧
    warnings (MPVCore.getProperty errorString { core with m_mpv := some h } name).2 = [] ∧
    (MPVCore.getProperty errorString { core with m_mpv := Option.none } name).1
      = QVariant.invalid ∧
    warnings (MPVCore.getProperty errorString { core with m_mpv := Option.none } name).2 = [] := by
  have hneg : (mpv_get_property h (utf8Buffer name)).1 < 0 := by
    rw [hun]; decide
  have e1 : MPVCore.getProperty errorString { core with m_mpv := some h } name
      = (QVariant.invalid, [⟨LogLevel.debug, ["Property not yet available:", name]⟩]) := by
    have hc : MPV_ERROR_PROPERTY_UNAVAILABLE < 0 := by decide
    simp only [MPVCore.getProperty, hun, hc, if_true, hname, and_self]
  refine ⟨e1, ?_, rfl, ?_⟩
  · rw [e1]
    simp [warnings]
  · simp [MPVCore.getProperty, warnings]

/-- Witness for C12: `getProperty("duration")` on an engine that holds no
property value, as before any load. -/
theorem getProperty_unavailable_is_quiet_witness :
    ("duration" = "duration" ∨ "duration" = "time-pos") ∧
    (mpv_get_property MpvHandle.idle (utf8Buffer "duration")).1
      = MPV_ERROR_PROPERTY_UNAVAILABLE ∧
    MPVCore.getProperty (fun _ => "") (MPVCore.withEngine MpvHandle.idle) "duration"
      = (QVariant.invalid, [⟨LogLevel.debug, ["Property not yet available:", "duration"]⟩]) ∧
    warnings (MPVCore.getProperty (fun _ => "") (MPVCore.withEngine MpvHandle.idle)
      "duration").2 = [] :=
  have t := getProperty_unavailable_is_quiet (fun _ => "") (MPVCore.withEngine MpvHandle.idle)
    MpvHandle.idle "duration" (Or.inl rfl) rfl
  ⟨Or.inl rfl, rfl, t.1, t.2.1⟩

theorem lookupProperty_head (name : String) (n : MpvNode) (rest : List (String × MpvNode)) :
    lookupProperty name ((name, n) :: rest) = some n := by
  simp [lookupProperty]

theorem setProperty_accepted (errorString : Int → String) (core : MPVCore) (h : MpvHandle)
    (heap : Heap) (name : String) (v : QVariant)
    (hok : (variantToMpvNode heap v MpvNode.uninit).2.2 = true) :
    (MPVCore.setProperty errorString { core with m_mpv := some h } heap name v).1
      = { core with
          m_mpv := some (mpv_set_property_async h 0 (utf8Buffer name)
                    (variantToMpvNode heap v MpvNode.uninit).2.1).2 } := by
  simp [MPVCore.setProperty, hok]

theorem get_after_set (errorString : Int → String) (core : MPVCore) (h : MpvHandle)
    (heap : Heap) (name : String) (v : QVariant)
    (hok : (variantToMpvNode heap v MpvNode.uninit).2.2 = true) (hacc : 0 ≤ h.setReply) :
    MPVCore.getProperty errorString
        (MPVCore.setProperty errorString { core with m_mpv := some h } heap name v).1 name
      = (mpvPropertyToVariant (variantToMpvNode heap v MpvNode.uninit).2.1, []) := by
  rw [setProperty_accepted errorString core h heap name v hok]
  have hn : ¬ h.setReply < 0 := by omega
  have hg : mpv_get_property (mpv_set_property_async h 0 (utf8Buffer name)
      (variantToMpvNode heap v MpvNode.uninit).2.1).2 (utf8Buffer name)
        = (0, (variantToMpvNode heap v MpvNode.uninit).2.1) := by
    simp only [mpv_get_property, mpv_set_property_async, hn, if_false, lookupProperty_head]
  simp only [MPVCore.getProperty, hg]
  simp

/-- C13 (counterexample): the text `a`, U+0000, `b` set as `title` on an engine
that stores the submitted node comes back from `getProperty` as the text
`a`. -/
theorem set_then_get_counterexample :
    (QVariant.string "a\x00b").supported = true ∧
    (MPVCore.getProperty (fun _ => "")
      (MPVCore.setProperty (fun _ => "") (MPVCore.withEngine MpvHandle.idle) Heap.empty
        "title" (QVariant.string "a\x00b")).1 "title").1 = QVariant.string "a" ∧
    (MPVCore.getProperty (fun _ => "")
      (MPVCore.setProperty (fun _ => "") (MPVCore.withEngine MpvHandle.idle) Heap.empty
        "title" (QVariant.string "a\x00b")).1 "title").1 ≠ QVariant.string "a\x00b" := by
  have e : (MPVCore.getProperty (fun _ => "")
      (MPVCore.setProperty (fun _ => "") (MPVCore.withEngine MpvHandle.idle) Heap.empty
        "title" (QVariant.string "a\x00b")).1 "title").1 = QVariant.string "a" := rfl
  refine ⟨rfl, e, ?_⟩
  rw [e]
  intro hc
  exact absurd (QVariant.string.inj hc) (by decide)

/-- C13 (amended): on a handle whose engine stores a submitted node
synchronously and accepts the set, for every property name and every value
built only from Bool, 64-bit Integer, Double, Text, Sequence and Mapping (keys
in ascending order), `setProperty(name, v)` followed by `getProperty(name)`
logs nothing and returns `v` if and only if no text and no key of `v` contains
U+0000.  An `Int` value comes back as the `LongLong` of the same number. -/
theorem set_then_get (errorString : Int → String) (core : MPVCore) (h : MpvHandle)
    (heap : Heap) (name : String) (v : QVariant) (i : Int)
    (hw : v.wellFormed = true) (ht : v.valueTags = true) (hacc : 0 ≤ h.setReply) :
    ((MPVCore.getProperty errorString
        (MPVCore.setProperty errorString { core with m_mpv := some h } heap name v).1 name).1
      = v ↔ v.nulFree = true) ∧
    (MPVCore.getProperty errorString
        (MPVCore.setProperty errorString { core with m_mpv := some h } heap name v).1 name).2
      = [] ∧
    MPVCore.getProperty errorString
        (MPVCore.setProperty errorString { core with m_mpv := some h } heap name
          (QVariant.int i)).1 name
      = (QVariant.longLong i, []) := by
  have hok : (variantToMpvNode heap v MpvNode.uninit).2.2 = true := by
    rw [encode_result_eq_supported]
    exact supported_of_valueTags v ht
  rw [get_after_set errorString core h heap name v hok hacc]
  refine ⟨⟨?_, ?_⟩, rfl, ?_⟩
  · intro heq
    rw [← heq]
    exact decode_nulFree _
  · intro hn
    have hp : v.plain = true := by rw [plain_eq, ht, hn]; rfl
    exact (roundtrip_node heap v MpvNode.uninit hw hp).2
  · rw [get_after_set errorString core h heap name (QVariant.int i) rfl hacc]
    rfl

/-- Witness for C13: `setProperty("volume", 50)` then `getProperty("volume")`,
with the 64-bit integer 50. -/
theorem set_then_get_witness :
    (QVariant.longLong 50).wellFormed = true ∧ (QVariant.longLong 50).valueTags = true ∧
    (0 : Int) ≤ MpvHandle.idle.setReply ∧
    MPVCore.getProperty (fun _ => "")
        (MPVCore.setProperty (fun _ => "") (MPVCore.withEngine MpvHandle.idle) Heap.empty
          "volume" (QVariant.longLong 50)).1 "volume"
      = (QVariant.longLong 50, []) :=
  have t := set_then_get (fun _ => "") (MPVCore.withEngine MpvHandle.idle) MpvHandle.idle
    Heap.empty "volume" (QVariant.longLong 50) 50 rfl rfl (by decide)
  ⟨rfl, rfl, by decide, Prod.ext (t.1.2 rfl) t.2.1⟩

/-- What `setProperty` does to the handle and the log: when the conversion of
the value fails it leaves the handle and with it the engine as they were
(nothing is submitted, no property value changes) and the log it would write is
one line, a warning; when the conversion succeeds the engine receives exactly
one more asynchronous set, of the converted node under the name read as a C
string.  Without engine instance the call does nothing.  The heap is not part
of this statement: see `setProperty_failed_container_faults`. -/
theorem setProperty_conversion_failure_dropped (errorString : Int → String) (core : MPVCore)
    (h : MpvHandle) (heap : Heap) (name : String) (v : QVariant) :
    (v.supported = false →
      (MPVCore.setProperty errorString { core with m_mpv := some h } heap name v).1
        = { core with m_mpv := some h } ∧
      (MPVCore.setProperty errorString { core with m_mpv := some h } heap name v).2.2
        = [⟨LogLevel.warning, ["Failed to convert value for property:", name]⟩]) ∧
    (v.supported = true →
      ∃ h' : MpvHandle,
        (MPVCore.setProperty errorString { core with m_mpv := some h } heap name v).1
          = { core with m_mpv := some h' } ∧
        h'.asyncSets = h.asyncSets ++
          [(fromUtf8 (utf8Buffer name), (variantToMpvNode heap v MpvNode.uninit).2.1)] ∧
        h'.events = h.events ∧ h'.observed = h.observed ∧ h'.commands = h.commands) ∧
    MPVCore.setProperty errorString { core with m_mpv := Option.none } heap name v
      = ({ core with m_mpv := Option.none }, heap, []) := by
  refine ⟨?_, ?_, rfl⟩
  · intro hf
    have hr : (variantToMpvNode heap v MpvNode.uninit).2.2 = false := by
      rw [encode_result_eq_supported]; exact hf
    simp [MPVCore.setProperty, hr]
  · intro ht
    have hr : (variantToMpvNode heap v MpvNode.uninit).2.2 = true := by
      rw [encode_result_eq_supported]; exact ht
    refine ⟨_, setProperty_accepted errorString core h heap name v hr, ?_, ?_, ?_, ?_⟩
    · unfold mpv_set_property_async
      split <;> rfl
    · unfold mpv_set_property_async
      split <;> rfl
    · unfold mpv_set_property_async
      split <;> rfl
    · unfold mpv_set_property_async
      split <;> rfl

/-- An invalid value at top level is dropped with one warning and an untouched
heap, and a Bool is submitted once. -/
theorem setProperty_conversion_failure_dropped_witness :
    QVariant.invalid.supported = false ∧
    MPVCore.setProperty (fun _ => "") (MPVCore.withEngine MpvHandle.idle) Heap.empty "pause"
        QVariant.invalid
      = (MPVCore.withEngine MpvHandle.idle, Heap.empty,
          [⟨LogLevel.warning, ["Failed to convert value for property:", "pause"]⟩]) ∧
    ((MPVCore.setProperty (fun _ => "") (MPVCore.withEngine MpvHandle.idle) Heap.empty "pause"
        (QVariant.bool true)).1.m_mpv.map (fun h => h.asyncSets))
      = some [("pause", MpvNode.flag 1)] :=
  have t := (setProperty_conversion_failure_dropped (fun _ => "")
    (MPVCore.withEngine MpvHandle.idle) MpvHandle.idle Heap.empty "pause" QVariant.invalid).1 rfl
  ⟨rfl, Prod.ext t.1 (Prod.ext rfl t.2), rfl⟩

theorem setProperty_failed_container_faults (errorString : Int → String) (core : MPVCore)
    (h : MpvHandle) (heap : Heap) (name : String) (v : QVariant)
    (hc : v.isContainer = true) (hf : v.supported = false) :
    heap.faults.length
      < (MPVCore.setProperty errorString { core with m_mpv := some h } heap name
          v).2.1.faults.length := by
  have hr : (variantToMpvNode heap v MpvNode.uninit).2.2 = false := by
    rw [encode_result_eq_supported]; exact hf
  simp only [MPVCore.setProperty, hr, Bool.false_eq_true, if_false]
  exact failed_container_faults heap v MpvNode.uninit hc hr

/-- C14 (the code at the failing input): `setProperty("vf", value)` with the
mapping of key `a` to an invalid value and key `b` to a text.  The conversion
fails; nothing is submitted to the engine and the line `setProperty` goes on to
log is the one warning, but on the way there the cleanup of the failed
conversion has read the format of the two value slots that were never written
and released through the key slot that was never written: the heap the call
leaves holds these three faults, where a call that returns normally leaves
none.  (`setProperty_failed_container_faults`: the same for every list or map
whose conversion fails.) -/
theorem setProperty_failed_map_faults :
    (QVariant.map [("a", .invalid), ("b", .string "x")]).supported = false ∧
    (MPVCore.setProperty (fun _ => "") (MPVCore.withEngine MpvHandle.idle) Heap.empty "vf"
      (QVariant.map [("a", .invalid), ("b", .string "x")])).2.1.faults
        = [Fault.uninitNode, Fault.uninitKey, Fault.uninitNode] ∧
    (MPVCore.setProperty (fun _ => "") (MPVCore.withEngine MpvHandle.idle) Heap.empty "vf"
      (QVariant.map [("a", .invalid), ("b", .string "x")])).2.1.live = [] ∧
    (MPVCore.setProperty (fun _ => "") (MPVCore.withEngine MpvHandle.idle) Heap.empty "vf"
      (QVariant.map [("a", .invalid), ("b", .string "x")])).1.m_mpv.map
        (fun engine => engine.asyncSets) = some [] ∧
    (MPVCore.setProperty (fun _ => "") (MPVCore.withEngine MpvHandle.idle) Heap.empty "vf"
      (QVariant.map [("a", .invalid), ("b", .string "x")])).2.2
        = [⟨LogLevel.warning, ["Failed to convert value for property:", "vf"]⟩] :=
  ⟨rfl, rfl, rfl, rfl, rfl⟩

/-! ## Start-up -/

theorem initialize_ok (errorString : Int → String) (h0 : MpvHandle) (core : MPVCore)
    (hi : 0 ≤ h0.initializeReply) :
    MPVCore.initialize errorString (some h0) core
      = ({ core with
            m_mpv := some { h0 with
                      calls := h0.calls ++ baselineCalls ++
                        [EngineCall.init, EngineCall.setWakeupCallback],
                      observed := h0.observed ++ startupObservations } },
          true, logRequestLines errorString h0) := by
  have hn : ¬ h0.initializeReply < 0 := by omega
  have e1 : fromUtf8 (utf8Buffer "time-pos") = "time-pos" := by decide
  have e2 : fromUtf8 (utf8Buffer "duration") = "duration" := by decide
  have e3 : fromUtf8 (utf8Buffer "pause") = "pause" := by decide
  have e4 : fromUtf8 (utf8Buffer "volume") = "volume" := by decide
  have e5 : fromUtf8 (utf8Buffer "eof-reached") = "eof-reached" := by decide
  simp [ MPVCore.initialize, mpv_set_option_string, mpv_request_log_messages, mpv_initialize,
    mpv_set_wakeup_callback, MPVCore.observeProperty, mpv_observe_property, hn, e1, e2, e3, e4,
    e5, baselineCalls, startupObservations, logRequestLines]

theorem initialize_refused (errorString : Int → String) (h0 : MpvHandle) (core : MPVCore)
    (hi : h0.initializeReply < 0) :
    MPVCore.initialize errorString (some h0) core
      = ({ core with
            m_mpv := some { h0 with
                      calls := h0.calls ++ baselineCalls ++ [EngineCall.init] } },
          false,
          logRequestLines errorString h0 ++
            [⟨LogLevel.warning,
              ["Failed to initialize MPV:", errorString h0.initializeReply]⟩]) := by
  simp [ MPVCore.initialize, mpv_set_option_string, mpv_request_log_messages, mpv_initialize,
    hi, baselineCalls, logRequestLines]

theorem initialize_observes (errorString : Int → String) (h0 : MpvHandle) (core : MPVCore)
    (hi : 0 ≤ h0.initializeReply) :
    ( MPVCore.initialize errorString (some h0) core).1.observedNames
      = h0.observed.map (fun o => o.name) ++
          ["time-pos", "duration", "pause", "volume", "eof-reached"] := by
  rw [initialize_ok errorString h0 core hi]
  simp [MPVCore.observedNames, startupObservations]

/-- C11 (the code at the failing input): `initialize` on a new handle with an
engine that is created and initialises succeeds and registers `time-pos`,
`duration`, `pause`, `volume` and `eof-reached`; `mute` is not registered, so a
change of `mute` in the engine publishes nothing in the next drain, where a
change of `volume` publishes `propertyChanged`. -/
theorem initialize_leaves_mute_unobserved :
    ( MPVCore.initialize (fun _ => "") (some MpvHandle.idle) MPVCore.new).2.1 = true ∧
    ( MPVCore.initialize (fun _ => "") (some MpvHandle.idle) MPVCore.new).1.observedNames
      = ["time-pos", "duration", "pause", "volume", "eof-reached"] ∧
    "mute" ∉ ( MPVCore.initialize (fun _ => "") (some MpvHandle.idle)
      MPVCore.new).1.observedNames ∧
    (MPVCore.handleEvents (fun _ => "")
      (( MPVCore.initialize (fun _ => "") (some MpvHandle.idle) MPVCore.new).1.engineChange
        "mute" (MpvNode.flag 1))).2 = [] ∧
    (MPVCore.handleEvents (fun _ => "")
      (( MPVCore.initialize (fun _ => "") (some MpvHandle.idle) MPVCore.new).1.engineChange
        "volume" (MpvNode.int64 50))).2
      = [Signal.propertyChanged "volume" (QVariant.longLong 50)] := by
  refine ⟨rfl, rfl, ?_, rfl, rfl⟩
  have e : ( MPVCore.initialize (fun _ => "") (some MpvHandle.idle) MPVCore.new).1.observedNames
      = ["time-pos", "duration", "pause", "volume", "eof-reached"] := rfl
  rw [e]
  decide

/-- C15 (counterexample): on a new handle with an engine that is created and
initialises, the start-up calls are the five options, the log request,
`mpv_initialize` and only then `mpv_set_wakeup_callback`: no wakeup callback is
registered among the calls up to and including `mpv_initialize`. -/
theorem initialize_order_counterexample :
    ( MPVCore.initialize (fun _ => "") (some MpvHandle.idle) MPVCore.new).1.engineCalls
      = [EngineCall.setOptionString "video-sync" "display-resample",
         EngineCall.setOptionString "hwdec" "auto",
         EngineCall.setOptionString "vo" "gpu",
         EngineCall.setOptionString "gpu-api" "auto",
         EngineCall.setOptionString "keep-open" "yes",
         EngineCall.requestLogMessages "warn",
         EngineCall.init,
         EngineCall.setWakeupCallback] ∧
    EngineCall.setWakeupCallback ∉
      (( MPVCore.initialize (fun _ => "") (some MpvHandle.idle) MPVCore.new).1.engineCalls).take 7 ∧
    EngineCall.init ∈
      (( MPVCore.initialize (fun _ => "") (some MpvHandle.idle) MPVCore.new).1.engineCalls).take 7 := by
  have e : ( MPVCore.initialize (fun _ => "") (some MpvHandle.idle) MPVCore.new).1.engineCalls
      = [EngineCall.setOptionString "video-sync" "display-resample",
         EngineCall.setOptionString "hwdec" "auto",
         EngineCall.setOptionString "vo" "gpu",
         EngineCall.setOptionString "gpu-api" "auto",
         EngineCall.setOptionString "keep-open" "yes",
         EngineCall.requestLogMessages "warn",
         EngineCall.init,
         EngineCall.setWakeupCallback] := rfl
  refine ⟨e, ?_, ?_⟩
  · rw [e]; decide
  · rw [e]; decide

/-- C15 (amended): in every run of `initialize` in which the engine instance is
created, the engine receives, after what it had received before, the five
baseline options, the request for log messages and then `mpv_initialize`; the
wakeup callback is registered after that, and only when `mpv_initialize`
answered with a code that is not negative.  When no instance is created there
is no engine to call. -/
theorem initialize_call_order (errorString : Int → String) (h0 : MpvHandle) (core : MPVCore) :
    ( MPVCore.initialize errorString (some h0) core).1.engineCalls
      = h0.calls ++ baselineCalls ++ [EngineCall.init] ++
          (if 0 ≤ h0.initializeReply then [EngineCall.setWakeupCallback] else []) ∧
    baselineCalls
      = [EngineCall.setOptionString "video-sync" "display-resample",
         EngineCall.setOptionString "hwdec" "auto",
         EngineCall.setOptionString "vo" "gpu",
         EngineCall.setOptionString "gpu-api" "auto",
         EngineCall.setOptionString "keep-open" "yes",
         EngineCall.requestLogMessages "warn"] ∧
    ( MPVCore.initialize errorString Option.none core).1.m_mpv = Option.none := by
  refine ⟨?_, rfl, rfl⟩
  by_cases hi : 0 ≤ h0.initializeReply
  · rw [initialize_ok errorString h0 core hi]
    simp [MPVCore.engineCalls, hi]
  · have hn : h0.initializeReply < 0 := by omega
    rw [initialize_refused errorString h0 core hn]
    simp [MPVCore.engineCalls, hi]

/-- C16 (counterexample): the run in which no instance can be created and the
runs in which the engine refuses to initialise with code -1 and with code -2
all return the same result, `false`. -/
theorem initialize_failures_counterexample :
    ( MPVCore.initialize (fun _ => "") Option.none MPVCore.new).2.1 = false ∧
    ( MPVCore.initialize (fun _ => "")
      (some { MpvHandle.idle with initializeReply := -1 }) MPVCore.new).2.1 = false ∧
    ( MPVCore.initialize (fun _ => "")
      (some { MpvHandle.idle with initializeReply := -2 }) MPVCore.new).2.1 = false ∧
    ( MPVCore.initialize (fun _ => "") Option.none MPVCore.new).2.1
      = ( MPVCore.initialize (fun _ => "")
          (some { MpvHandle.idle with initializeReply := -1 }) MPVCore.new).2.1 :=
  ⟨rfl, rfl, rfl, rfl⟩

/-- C16 (amended): `initialize` returns true if and only if the engine instance
is created and `mpv_initialize` answers with a code that is not negative.  It
returns false, and nothing more, in both failure cases: when no instance is
created it logs the warning that creation failed and leaves the engine member
null; when `mpv_initialize` answers a negative code it logs the warning that
initialisation failed, with the engine's text for that code.  On either failure
no property observation and no wakeup callback is registered. -/
theorem initialize_result (errorString : Int → String) (created : Option MpvHandle)
    (core : MPVCore) (h0 : MpvHandle) :
    (( MPVCore.initialize errorString created core).2.1 = true ↔
      ∃ h, created = some h ∧ 0 ≤ h.initializeReply) ∧
    MPVCore.initialize errorString Option.none core
      = ({ core with m_mpv := Option.none }, false,
          [⟨LogLevel.warning, ["Failed to create MPV instance"]⟩]) ∧
    (h0.initializeReply < 0 →
      ( MPVCore.initialize errorString (some h0) core).2.1 = false ∧
      ( MPVCore.initialize errorString (some h0) core).2.2
        = logRequestLines errorString h0 ++
            [⟨LogLevel.warning,
              ["Failed to initialize MPV:", errorString h0.initializeReply]⟩] ∧
      ( MPVCore.initialize errorString (some h0) core).1.observedNames
        = h0.observed.map (fun o => o.name) ∧
      ( MPVCore.initialize errorString (some h0) core).1.engineCalls
        = h0.calls ++ baselineCalls ++ [EngineCall.init]) := by
  refine ⟨?_, rfl, ?_⟩
  · cases created with
    | none => simp [ MPVCore.initialize]
    | some h =>
      by_cases hi : 0 ≤ h.initializeReply
      · rw [initialize_ok errorString h core hi]
        simp [hi]
      · have hn : h.initializeReply < 0 := by omega
        rw [initialize_refused errorString h core hn]
        simp [hi]
  · intro hn
    rw [initialize_refused errorString h0 core hn]
    simp [MPVCore.observedNames, MPVCore.engineCalls]

/-- Witness for C16: an engine that refuses to initialise with code -3. -/
theorem initialize_result_witness :
    ({ MpvHandle.idle with initializeReply := -3 } : MpvHandle).initializeReply < 0 ∧
    MPVCore.initialize (fun c => toString c)
        (some { MpvHandle.idle with initializeReply := -3 }) MPVCore.new
      = ({ MPVCore.new with
            m_mpv := some { MpvHandle.idle with
                      initializeReply := -3,
                      calls := baselineCalls ++ [EngineCall.init] } },
          false, [⟨LogLevel.warning, ["Failed to initialize MPV:", "-3"]⟩]) ∧
    ( MPVCore.initialize (fun c => toString c)
        (some { MpvHandle.idle with initializeReply := -3 }) MPVCore.new).1.observedNames
      = [] :=
  have hn : ({ MpvHandle.idle with initializeReply := -3 } : MpvHandle).initializeReply < 0 := by
    decide
  ⟨hn, rfl,
    ((initialize_result (fun c => toString c) Option.none MPVCore.new
      { MpvHandle.idle with initializeReply := -3 }).2.2 hn).2.2.1⟩

/-! ## Teardown and rendering -/

/-- C17: for every handle state the destructor frees the render context, when
there is one, and after that destroys the engine instance, when there is one:
the releases are the render context's, if any, followed by the engine's, if
any.  Both members are null afterwards, and a second run on the resulting state
releases nothing and changes nothing. -/
theorem teardown_order_idempotent (core : MPVCore) (ctx : Nat) (h : MpvHandle) :
    (MPVCore.destructor core).2
      = (match core.m_mpvGL with
         | some c => [Release.renderContextFree c]
         | Option.none => []) ++
        (match core.m_mpv with
         | some _ => [Release.terminateDestroy]
         | Option.none => []) ∧
    (MPVCore.destructor { core with m_mpv := some h, m_mpvGL := some ctx }).2
      = [Release.renderContextFree ctx, Release.terminateDestroy] ∧
    (MPVCore.destructor core).1.m_mpv = Option.none ∧
    (MPVCore.destructor core).1.m_mpvGL = Option.none ∧
    MPVCore.destructor (MPVCore.destructor core).1 = ((MPVCore.destructor core).1, []) := by
  cases hm : core.m_mpv <;> cases hg : core.m_mpvGL <;> simp [MPVCore.destructor, hm, hg]

/-- C18: without a render context `renderFrame` makes no render call, emits no
signal, logs nothing and leaves the handle as it was, for every buffer, width
and height.  With a render context it makes exactly one render call, on that
context, with the buffer id read as a signed 32-bit number (the same 32 bits;
the same number when below 2^31), the width and the height given, and flip
set; it emits no signal and leaves the handle as it was. -/
theorem renderFrame_without_context_is_noop (errorString : Int → String) (renderReply : Int)
    (core : MPVCore) (ctx fbo : Nat) (width height : Int) :
    MPVCore.renderFrame errorString renderReply { core with m_mpvGL := Option.none } fbo width
        height
      = ({ core with m_mpvGL := Option.none }, [], [], []) ∧
    (MPVCore.renderFrame errorString renderReply { core with m_mpvGL := some ctx } fbo width
        height).1
      = { core with m_mpvGL := some ctx } ∧
    (MPVCore.renderFrame errorString renderReply { core with m_mpvGL := some ctx } fbo width
        height).2.1
      = [⟨ctx, toInt32 fbo, width, height, 0, 1⟩] ∧
    (MPVCore.renderFrame errorString renderReply { core with m_mpvGL := some ctx } fbo width
        height).2.2.1 = [] ∧
    (toInt32 fbo - (fbo : Int)) % 2 ^ 32 = 0 ∧
    (fbo < 2 ^ 31 → toInt32 fbo = (fbo : Int)) := by
  refine ⟨rfl, rfl, rfl, rfl, ?_, ?_⟩
  · unfold toInt32
    split <;> omega
  · intro hlt
    unfold toInt32
    have h1 : fbo % 2 ^ 32 = fbo := Nat.mod_eq_of_lt (by omega)
    rw [h1, if_pos hlt]

/-- Witness for C18: buffer 7 at 640 by 480 on render context 3. -/
theorem renderFrame_without_context_is_noop_witness :
    (7 : Nat) < 2 ^ 31 ∧
    MPVCore.renderFrame (fun _ => "") 0 { MPVCore.new with m_mpvGL := some 3 } 7 640 480
      = ({ MPVCore.new with m_mpvGL := some 3 }, [⟨3, 7, 640, 480, 0, 1⟩], [], []) ∧
    toInt32 7 = 7 :=
  ⟨by decide, rfl,
    (renderFrame_without_context_is_noop (fun _ => "") 0 MPVCore.new 3 7 640 480).2.2.2.2.2
      (by decide)⟩

/-! ## Channel storage -/

theorem storedRecord_object (obj : List (String × QJsonValue)) :
    storedRecord (QJsonValue.object obj)
      = if JSONParser.isValidChannel obj then some (ChannelData.fromJson obj)
        else Option.none := by
  unfold storedRecord textField JSONParser.isValidChannel jsonContains jsonValue
    ChannelData.fromJson
  cases h1 : obj.find? (fun m => m.1 == "name") with
  | none => simp [h1]
  | some m1 =>
    obtain ⟨k1, v1⟩ := m1
    cases h2 : obj.find? (fun m => m.1 == "url") with
    | none => cases v1 <;> simp [QJsonValue.isString, h1, h2]
    | some m2 =>
      obtain ⟨k2, v2⟩ := m2
      cases v1 <;> cases v2 <;>
        simp [QJsonValue.isString, QJsonValue.toString, jsonValue, h1, h2]

theorem parseLoop_eq (xs : List QJsonValue) :
    ∀ channels : List ChannelData,
      JSONParser.parseLoop channels xs = channels ++ xs.filterMap storedRecord := by
  induction xs with
  | nil => intro channels; simp [JSONParser.parseLoop]
  | cons v rest ih =>
    intro channels
    cases v with
    | object obj =>
      simp only [JSONParser.parseLoop, QJsonValue.isObject, QJsonValue.toObject,
        Bool.not_true, Bool.false_eq_true, if_false, List.filterMap_cons, storedRecord_object]
      by_cases hv : JSONParser.isValidChannel obj = true
      · simp [hv, ih]
      · simp [hv, ih]
    | null => simp [JSONParser.parseLoop, QJsonValue.isObject, storedRecord, ih]
    | bool b => simp [JSONParser.parseLoop, QJsonValue.isObject, storedRecord, ih]
    | double d => simp [JSONParser.parseLoop, QJsonValue.isObject, storedRecord, ih]
    | string t => simp [JSONParser.parseLoop, QJsonValue.isObject, storedRecord, ih]
    | array ys => simp [JSONParser.parseLoop, QJsonValue.isObject, storedRecord, ih]
    | undefined => simp [JSONParser.parseLoop, QJsonValue.isObject, storedRecord, ih]

/-- C19: for every top-level array `parseDocument` succeeds and returns, in
their original order, the records of exactly those elements that are objects
with both a `name` and a `url` field of text type; an element that is not an
object, or lacks a field, or has a field that is not a text, contributes
nothing. -/
theorem parseDocument_skips_invalid (xs pre post : List QJsonValue) (v : QJsonValue) :
    JSONParser.parseDocument (QJsonDocument.array xs)
      = Except.ok (xs.filterMap storedRecord) ∧
    (storedRecord v = Option.none →
      JSONParser.parseDocument (QJsonDocument.array (pre ++ v :: post))
        = JSONParser.parseDocument (QJsonDocument.array (pre ++ post))) ∧
    (∀ n u rest, storedRecord (QJsonValue.object
        (("name", QJsonValue.string n) :: ("url", QJsonValue.string u) :: rest))
      = some ⟨n, u⟩) ∧
    (∀ n, storedRecord (QJsonValue.object [("name", QJsonValue.string n)]) = Option.none) ∧
    (∀ n d, storedRecord (QJsonValue.object
        [("name", QJsonValue.string n), ("url", QJsonValue.double d)]) = Option.none) := by
  refine ⟨?_, ?_, ?_, ?_, ?_⟩
  · simp [JSONParser.parseDocument, parseLoop_eq]
  · intro hv
    simp [JSONParser.parseDocument, parseLoop_eq, List.filterMap_append, hv]
  · intro n u rest
    simp [storedRecord, textField, List.find?]
  · intro n
    simp [storedRecord, textField, List.find?]
  · intro n d
    simp [storedRecord, textField, List.find?]

/-- Witness for C19: five stored records, the third without `url`, give four
entries. -/
theorem parseDocument_skips_invalid_witness :
    storedRecord (QJsonValue.object [("name", QJsonValue.string "X")]) = Option.none ∧
    JSONParser.parseDocument (QJsonDocument.array
      [QJsonValue.object [("name", .string "A"), ("url", .string "a")],
       QJsonValue.object [("name", .string "B"), ("url", .string "b")],
       QJsonValue.object [("name", .string "X")],
       QJsonValue.object [("name", .string "C"), ("url", .string "c")],
       QJsonValue.object [("name", .string "D"), ("url", .string "d")]])
      = Except.ok [⟨"A", "a"⟩, ⟨"B", "b"⟩, ⟨"C", "c"⟩, ⟨"D", "d"⟩] :=
  have hx : storedRecord (QJsonValue.object [("name", QJsonValue.string "X")])
      = Option.none := rfl
  ⟨hx,
    ((parseDocument_skips_invalid []
      [QJsonValue.object [("name", .string "A"), ("url", .string "a")],
       QJsonValue.object [("name", .string "B"), ("url", .string "b")]]
      [QJsonValue.object [("name", .string "C"), ("url", .string "c")],
       QJsonValue.object [("name", .string "D"), ("url", .string "d")]]
      (QJsonValue.object [("name", QJsonValue.string "X")])).2.1 hx).trans rfl⟩

theorem toJson_eq (c : ChannelData) :
    c.toJson = [("name", QJsonValue.string c.m_name), ("url", QJsonValue.string c.m_url)] := by
  have h1 : qstringLess "name" "url" = true := by decide
  simp [ChannelData.toJson, jsonInsert, h1]

theorem saved_array_eq (channels : List ChannelData) :
    ∀ arr : List QJsonValue,
      channels.foldl (fun arr c => arr ++ [QJsonValue.object c.toJson]) arr
        = arr ++ channels.map (fun c => QJsonValue.object
            [("name", QJsonValue.string c.m_name), ("url", QJsonValue.string c.m_url)]) := by
  induction channels with
  | nil => intro arr; simp
  | cons c rest ih =>
    intro arr
    rw [List.foldl_cons, ih, toJson_eq]
    simp

/-- C20: for every list of channel records, when the file opens `saveToFile`
returns true and the document it writes is the array with, for each record in
list order, the object with the members `name` and `url` bound to the record's
texts; `parseDocument` applied to that document returns the original list.
When the file does not open it returns false and writes nothing. -/
theorem save_load_round_trip (channels : List ChannelData) :
    JSONParser.saveToFile true channels
      = (true, some (QJsonDocument.array (channels.map (fun c => QJsonValue.object
          [("name", QJsonValue.string c.m_name), ("url", QJsonValue.string c.m_url)])))) ∧
    JSONParser.parseDocument (QJsonDocument.array (channels.map (fun c => QJsonValue.object
          [("name", QJsonValue.string c.m_name), ("url", QJsonValue.string c.m_url)])))
      = Except.ok channels ∧
    JSONParser.saveToFile false channels = (false, Option.none) := by
  refine ⟨?_, ?_, rfl⟩
  · simp [JSONParser.saveToFile, saved_array_eq]
  · simp only [JSONParser.parseDocument, parseLoop_eq, List.nil_append]
    congr 1
    induction channels with
    | nil => rfl
    | cons c rest ih =>
      simp only [List.map_cons, List.filterMap_cons]
      have : storedRecord (QJsonValue.object
          [("name", QJsonValue.string c.m_name), ("url", QJsonValue.string c.m_url)])
            = some c := by
        simp [storedRecord, textField, List.find?]
      rw [this, ih]

/-! ## Error events and the end of the drain -/

theorem errorText_dispatch (errorString : Int → String) (e : MpvEvent) :
    (dispatchEvent errorString e).filterMap Signal.errorText
      = (surfacedError errorString e).toList := by
  cases e with
  | propertyChange prop =>
    cases prop with
    | none => rfl
    | some p =>
      obtain ⟨name, data⟩ := p
      cases data with
      | node n =>
        by_cases hc : (fromUtf8 name == "eof-reached" && (mpvPropertyToVariant n).toBool) = true
        · simp [dispatchEvent, surfacedError, Signal.errorText, hc]
        · simp [dispatchEvent, surfacedError, Signal.errorText, hc]
      | other f => rfl
  | fileLoaded => rfl
  | logMessage msg =>
    cases msg with
    | none => rfl
    | some m =>
      by_cases hc : fromUtf8 m.level = "error"
      · simp [dispatchEvent, surfacedError, Signal.errorText, hc]
      · simp [dispatchEvent, surfacedError, Signal.errorText, hc]
  | commandReply code =>
    by_cases hc : code < 0
    · simp [dispatchEvent, surfacedError, Signal.errorText, hc]
    · simp [dispatchEvent, surfacedError, Signal.errorText, hc]
  | other id => rfl

theorem errorText_published (errorString : Int → String) (queue : List MpvEvent) :
    (published errorString queue).filterMap Signal.errorText
      = queue.filterMap (surfacedError errorString) := by
  induction queue with
  | nil => rfl
  | cons e rest ih =>
    have hp : published errorString (e :: rest)
        = dispatchEvent errorString e ++ published errorString rest := by
      simp [published]
    rw [hp, List.filterMap_append, ih, errorText_dispatch]
    cases h : surfacedError errorString e <;> simp [List.filterMap_cons, h]

/-- C21: for every engine event, the error signals that the `switch` of
`handleEvents` publishes for it are: the text of the message when the event is
a log message whose level is `error`, the engine's error string of the code
when the event is a command reply with a negative code, and none for any other
event, so none for a log message at another level and for a reply with a
non-negative code.  An error signal with a given message is published for the
event exactly in these two cases, and over a whole queue the error signals of
one `handleEvents` call are those of its events, in queue order. -/
theorem error_surface_events (errorString : Int → String) (e : MpvEvent) (message : String)
    (h : MpvHandle) (core : MPVCore) :
    (dispatchEvent errorString e).filterMap Signal.errorText
      = (surfacedError errorString e).toList ∧
    (Signal.error message ∈ dispatchEvent errorString e ↔
      (∃ msg, e = MpvEvent.logMessage (some msg) ∧ fromUtf8 msg.level = "error" ∧
        message = fromUtf8 msg.text) ∨
      (∃ code, e = MpvEvent.commandReply code ∧ code < 0 ∧ message = errorString code)) ∧
    ((MPVCore.handleEvents errorString { core with m_mpv := some h }).2.filterMap
        Signal.errorText
      = h.events.filterMap (surfacedError errorString)) := by
  refine ⟨errorText_dispatch errorString e, ?_, ?_⟩
  · cases e with
    | propertyChange prop =>
      cases prop with
      | none => simp [dispatchEvent]
      | some p =>
        obtain ⟨name, data⟩ := p
        cases data with
        | node n =>
          by_cases hc : (fromUtf8 name == "eof-reached" && (mpvPropertyToVariant n).toBool) = true
          · simp [dispatchEvent, hc]
          · simp [dispatchEvent, hc]
        | other f => simp [dispatchEvent]
    | fileLoaded => simp [dispatchEvent]
    | logMessage msg =>
      cases msg with
      | none => simp [dispatchEvent]
      | some m =>
        by_cases hc : fromUtf8 m.level = "error"
        · simp [dispatchEvent, hc]
        · simp [dispatchEvent, hc]
    | commandReply code =>
      by_cases hc : code < 0
      · simp [dispatchEvent, hc]
      · simp [dispatchEvent, hc]
    | other id => simp [dispatchEvent]
  · rw [handleEvents_eq]
    exact errorText_published errorString h.events

/-- C26: on a handle with an engine instance, whatever the length of the
engine's queue, the loop of `handleEvents` ends after one round per queued event
and one for the report that the queue is empty (more rounds change nothing);
the call passes every queued event once, in queue order, through the `switch`
and returns with the engine's queue empty, so that the next `mpv_wait_event`
reports no event.  An event of a kind the `switch` has no case for, a property
change that is not in node format and a property change without data publish
nothing.  On a handle without engine instance the call changes nothing and
publishes nothing. -/
theorem drain_runs_to_empty (errorString : Int → String) (h : MpvHandle) (core : MPVCore)
    (extra eventId : Nat) (name : List Char) (format : MpvFormat) :
    drainEvents errorString (h.events.length + 1 + extra) h
      = drainEvents errorString (h.events.length + 1) h ∧
    MPVCore.handleEvents errorString { core with m_mpv := some h }
      = ({ core with m_mpv := some { h with events := [] } },
          (h.events.map (dispatchEvent errorString)).flatten) ∧
    (mpv_wait_event { h with events := [] }).1 = Option.none ∧
    dispatchEvent errorString (MpvEvent.other eventId) = [] ∧
    dispatchEvent errorString
      (MpvEvent.propertyChange (some ⟨name, PropertyData.other format⟩)) = [] ∧
    dispatchEvent errorString (MpvEvent.propertyChange Option.none) = [] ∧
    MPVCore.handleEvents errorString { core with m_mpv := Option.none }
      = ({ core with m_mpv := Option.none }, []) := by
  refine ⟨?_, ?_, rfl, rfl, rfl, rfl, rfl⟩
  · rw [drainEvents_eq errorString _ h (by omega),
      drainEvents_eq errorString _ h (Nat.lt_succ_self _)]
  · rw [handleEvents_eq]
    rfl

/-! ## The channel list -/

theorem channelAt_inRange (channels : List ChannelData) (i : Int) (h0 : 0 ≤ i)
    (h1 : i < channels.length) :
    ∃ c, channelAt channels i = some c ∧ c ∈ channels := by
  have hlt : i.toNat < channels.length := by omega
  refine ⟨channels[i.toNat], ?_, List.getElem_mem hlt⟩
  have hn : ¬ i < 0 := by omega
  simp [channelAt, hn, List.getElem?_eq_getElem hlt]

theorem length_pos_of_not_isEmpty (channels : List ChannelData)
    (h : ¬ channels.isEmpty = true) : 0 < channels.length := by
  cases channels with
  | nil => simp at h
  | cons c rest => simp

theorem removeChannel_total (mgr : ChannelManager) (index : Int)
    (hin : 0 ≤ index ∧ index < mgr.m_channels.length) :
    ∃ mgr' signals, mgr.removeChannel index = some (mgr', true, signals) ∧
      mgr'.m_channels = mgr.m_channels.eraseIdx index.toNat ∧
      (mgr'.m_channels = [] → mgr'.m_currentIndex = -1) ∧
      (mgr'.m_channels ≠ [] →
        mgr'.m_currentIndex = min mgr.m_currentIndex ((mgr'.m_channels.length : Int) - 1)) := by
  have hr : ¬ (index < 0 ∨ index ≥ mgr.m_channels.length) := by omega
  unfold ChannelManager.removeChannel
  rw [if_neg hr]
  by_cases he : (mgr.m_channels.eraseIdx index.toNat).isEmpty = true
  · simp only [he, if_true]
    refine ⟨_, _, rfl, rfl, fun _ => rfl, ?_⟩
    intro hne
    exact absurd (List.isEmpty_iff.1 he) hne
  · simp only [he]
    have hpos := length_pos_of_not_isEmpty _ he
    have hnil : mgr.m_channels.eraseIdx index.toNat ≠ [] := by
      intro h0
      rw [h0] at hpos
      simp at hpos
    by_cases hge : mgr.m_currentIndex ≥ ((mgr.m_channels.eraseIdx index.toNat).length : Int)
    · obtain ⟨c, hc, _⟩ := channelAt_inRange (mgr.m_channels.eraseIdx index.toNat)
        (((mgr.m_channels.eraseIdx index.toNat).length : Int) - 1) (by omega) (by omega)
      simp only [Bool.false_eq_true, if_false]
      rw [if_pos hge, hc]
      refine ⟨_, _, rfl, rfl, fun h0 => absurd h0 hnil, ?_⟩
      intro _
      simp only
      omega
    · by_cases heq : mgr.m_currentIndex = index
      · obtain ⟨c, hc, _⟩ := channelAt_inRange (mgr.m_channels.eraseIdx index.toNat)
          mgr.m_currentIndex (by omega) (by omega)
        simp only [Bool.false_eq_true, if_false]
        rw [if_neg hge, if_pos heq, hc]
        refine ⟨_, _, rfl, rfl, fun h0 => absurd h0 hnil, ?_⟩
        intro _
        simp only
        omega
      · simp only [Bool.false_eq_true, if_false]
        rw [if_neg hge, if_neg heq]
        refine ⟨_, _, rfl, rfl, fun h0 => absurd h0 hnil, ?_⟩
        intro _
        simp only
        omega

/-- C24: for every state and every integer `index`, `removeChannel(index)`
returns, and its result is true exactly when `0 <= index < count`.  When it is
true the old list is a front part of `index` elements, the removed element and a
back part, and the new list is the front part followed by the back part; when it
is false the list and the current index are unchanged and no signal is
emitted. -/
theorem removeChannel_result (mgr : ChannelManager) (index : Int) :
    (∃ mgr' signals, mgr.removeChannel index
      = some (mgr', decide (0 ≤ index ∧ index < mgr.m_channels.length), signals)) ∧
    (0 ≤ index ∧ index < mgr.m_channels.length →
      ∃ mgr' signals removed, mgr.removeChannel index = some (mgr', true, signals) ∧
        (mgr.m_channels.take index.toNat).length = index.toNat ∧
        mgr.m_channels = mgr.m_channels.take index.toNat ++
          removed :: mgr.m_channels.drop (index.toNat + 1) ∧
        mgr'.m_channels = mgr.m_channels.take index.toNat ++
          mgr.m_channels.drop (index.toNat + 1)) ∧
    (¬ (0 ≤ index ∧ index < mgr.m_channels.length) →
      mgr.removeChannel index = some (mgr, false, [])) := by
  have hout : ¬ (0 ≤ index ∧ index < mgr.m_channels.length) →
      mgr.removeChannel index = some (mgr, false, []) := by
    intro hn
    have hr : index < 0 ∨ index ≥ mgr.m_channels.length := by omega
    unfold ChannelManager.removeChannel
    rw [if_pos hr]
  refine ⟨?_, ?_, hout⟩
  · by_cases hin : 0 ≤ index ∧ index < mgr.m_channels.length
    · obtain ⟨mgr', signals, hcall, _⟩ := removeChannel_total mgr index hin
      exact ⟨mgr', signals, by rw [hcall, decide_eq_true hin]⟩
    · exact ⟨mgr, [], by rw [hout hin, decide_eq_false hin]⟩
  · intro hin
    obtain ⟨mgr', signals, hcall, hlist, _⟩ := removeChannel_total mgr index hin
    have hlt : index.toNat < mgr.m_channels.length := by omega
    refine ⟨mgr', signals, mgr.m_channels[index.toNat], hcall, ?_, ?_, ?_⟩
    · rw [List.length_take]
      omega
    · rw [← List.drop_eq_getElem_cons hlt, List.take_append_drop]
    · rw [hlist, List.eraseIdx_eq_take_drop_succ]

/-- Witness for C24: removing index 1 of a list of three channels, whose current
index is 0. -/
theorem removeChannel_result_witness :
    ChannelManager.removeChannel ⟨[⟨"a", "u1"⟩, ⟨"b", "u2"⟩, ⟨"c", "u3"⟩], 0⟩ 1
      = some (⟨[⟨"a", "u1"⟩, ⟨"c", "u3"⟩], 0⟩, true, [ChannelSignal.channelListChanged]) ∧
    ChannelManager.removeChannel ⟨[⟨"a", "u1"⟩, ⟨"b", "u2"⟩, ⟨"c", "u3"⟩], 0⟩ 3
      = some (⟨[⟨"a", "u1"⟩, ⟨"b", "u2"⟩, ⟨"c", "u3"⟩], 0⟩, false, []) :=
  ⟨by decide,
    (removeChannel_result ⟨[⟨"a", "u1"⟩, ⟨"b", "u2"⟩, ⟨"c", "u3"⟩], 0⟩ 3).2.2 (by decide)⟩

theorem loadFromFile_ok (fromJson : String → Except String QJsonDocument)
    (file : Option String) (mgr : ChannelManager) (filePath : String)
    (channels : List ChannelData)
    (hp : JSONParser.parseFile fromJson file filePath = Except.ok channels) :
    ∃ signals, mgr.loadFromFile fromJson file filePath
      = some (⟨channels, if channels.isEmpty then -1 else 0⟩, true, signals, []) := by
  unfold ChannelManager.loadFromFile
  rw [hp]
  cases channels with
  | nil => exact ⟨[ChannelSignal.channelsLoaded, ChannelSignal.channelListChanged], rfl⟩
  | cons c rest =>
    refine ⟨[ChannelSignal.channelsLoaded, ChannelSignal.channelListChanged,
      ChannelSignal.currentChannelChanged c], ?_⟩
    simp [channelAt]

theorem loadFromFile_error (fromJson : String → Except String QJsonDocument)
    (file : Option String) (mgr : ChannelManager) (filePath : String) (error : String)
    (hp : JSONParser.parseFile fromJson file filePath = Except.error error) :
    mgr.loadFromFile fromJson file filePath
      = some (mgr, false, [], [⟨LogLevel.warning, ["Error loading channels:", error]⟩]) := by
  unfold ChannelManager.loadFromFile
  rw [hp]

theorem call_keeps_indexValid (fromJson : String → Except String QJsonDocument)
    (mgr : ChannelManager) (c : ChannelCall) (hinv : mgr.indexValid) :
    ∃ mgr', mgr.call fromJson c = some mgr' ∧ mgr'.indexValid := by
  unfold ChannelManager.indexValid at hinv
  cases c with
  | loadFromFile filePath file =>
    cases hp : JSONParser.parseFile fromJson file filePath with
    | error e =>
      refine ⟨mgr, ?_, hinv⟩
      simp [ChannelManager.call, loadFromFile_error fromJson file mgr filePath e hp]
    | ok channels =>
      obtain ⟨signals, hl⟩ := loadFromFile_ok fromJson file mgr filePath channels hp
      refine ⟨⟨channels, if channels.isEmpty then -1 else 0⟩, ?_, ?_⟩
      · unfold ChannelManager.call
        simp only
        rw [hl]
        rfl
      unfold ChannelManager.indexValid
      cases channels with
      | nil => exact Or.inl ⟨rfl, rfl⟩
      | cons ch rest =>
        refine Or.inr ?_
        simp only [List.isEmpty_cons, Bool.false_eq_true, if_false, List.length_cons]
        omega
  | setCurrentIndex index =>
    by_cases hr : index < 0 ∨ index ≥ mgr.m_channels.length
    · refine ⟨mgr, ?_, hinv⟩
      simp [ChannelManager.call, ChannelManager.setCurrentIndex, hr]
    · by_cases hne : mgr.m_currentIndex ≠ index
      · obtain ⟨ch, hc, _⟩ := channelAt_inRange mgr.m_channels index (by omega) (by omega)
        refine ⟨{ mgr with m_currentIndex := index }, ?_, ?_⟩
        · unfold ChannelManager.call ChannelManager.setCurrentIndex
          simp only
          rw [if_neg hr, if_pos hne, hc]
          rfl
        · unfold ChannelManager.indexValid
          refine Or.inr ?_
          simp only
          omega
      · refine ⟨mgr, ?_, hinv⟩
        unfold ChannelManager.call ChannelManager.setCurrentIndex
        simp only
        rw [if_neg hr, if_neg hne]
        rfl
  | addChannel channel =>
    by_cases hneg : mgr.m_currentIndex < 0
    · obtain ⟨ch, hc, _⟩ := channelAt_inRange (mgr.m_channels ++ [channel]) 0 (by omega)
        (by simp)
      refine ⟨⟨mgr.m_channels ++ [channel], 0⟩, ?_, ?_⟩
      · unfold ChannelManager.call ChannelManager.addChannel
        simp only
        rw [if_pos hneg, hc]
        rfl
      · unfold ChannelManager.indexValid
        refine Or.inr ?_
        simp
    · refine ⟨⟨mgr.m_channels ++ [channel], mgr.m_currentIndex⟩, ?_, ?_⟩
      · unfold ChannelManager.call ChannelManager.addChannel
        simp only
        rw [if_neg hneg]
        rfl
      · unfold ChannelManager.indexValid
        refine Or.inr ?_
        simp only [List.length_append, List.length_singleton]
        omega
  | removeChannel index =>
    by_cases hin : 0 ≤ index ∧ index < mgr.m_channels.length
    · obtain ⟨mgr', signals, hcall, hlist, hempty, hfull⟩ := removeChannel_total mgr index hin
      refine ⟨mgr', by simp [ChannelManager.call, hcall], ?_⟩
      unfold ChannelManager.indexValid
      by_cases hnil : mgr'.m_channels = []
      · exact Or.inl ⟨hnil, hempty hnil⟩
      · refine Or.inr ?_
        have hpos : 0 < mgr'.m_channels.length := List.length_pos.2 hnil
        have hcur : 0 ≤ mgr.m_currentIndex := by
          rcases hinv with ⟨h0, _⟩ | h1
          · rw [h0] at hin
            simp at hin
            omega
          · exact h1.1
        rw [hfull hnil]
        omega
    · have hr : index < 0 ∨ index ≥ mgr.m_channels.length := by omega
      refine ⟨mgr, ?_, hinv⟩
      simp [ChannelManager.call, ChannelManager.removeChannel, hr]
  | updateChannel index channel =>
    by_cases hr : index < 0 ∨ index ≥ mgr.m_channels.length
    · refine ⟨mgr, ?_, hinv⟩
      simp [ChannelManager.call, ChannelManager.updateChannel, hr]
    · have hlen : (mgr.m_channels.set index.toNat channel).length = mgr.m_channels.length :=
        List.length_set _ _ _
      have hv : (0 : Int) ≤ mgr.m_currentIndex ∧
          mgr.m_currentIndex < ((mgr.m_channels.set index.toNat channel).length : Int) := by
        rw [hlen]
        rcases hinv with ⟨h0, _⟩ | h1
        · rw [h0] at hr
          simp at hr
          omega
        · exact h1
      by_cases heq : mgr.m_currentIndex = index
      · obtain ⟨ch, hc, _⟩ := channelAt_inRange (mgr.m_channels.set index.toNat channel)
          mgr.m_currentIndex hv.1 hv.2
        refine ⟨⟨mgr.m_channels.set index.toNat channel, mgr.m_currentIndex⟩, ?_, Or.inr hv⟩
        unfold ChannelManager.call ChannelManager.updateChannel
        simp only
        rw [if_neg hr, if_pos heq, hc]
        rfl
      · refine ⟨⟨mgr.m_channels.set index.toNat channel, mgr.m_currentIndex⟩, ?_, Or.inr hv⟩
        unfold ChannelManager.call ChannelManager.updateChannel
        simp only
        rw [if_neg hr, if_neg heq]
        rfl

theorem run_keeps_indexValid (fromJson : String → Except String QJsonDocument)
    (calls : List ChannelCall) :
    ∀ mgr : ChannelManager, mgr.indexValid →
      ∃ mgr', ChannelManager.run fromJson mgr calls = some mgr' ∧ mgr'.indexValid := by
  induction calls with
  | nil => exact fun mgr h => ⟨mgr, rfl, h⟩
  | cons c rest ih =>
    intro mgr h
    obtain ⟨mgr1, h1, hv1⟩ := call_keeps_indexValid fromJson mgr c h
    obtain ⟨mgr2, h2, hv2⟩ := ih mgr1 hv1
    exact ⟨mgr2, by simp [ChannelManager.run, h1, h2], hv2⟩

theorem indexValid_new : ChannelManager.new.indexValid :=
  Or.inl ⟨rfl, rfl⟩

/-- C28: every sequence of `loadFromFile`, `setCurrentIndex`, `addChannel`,
`removeChannel` and `updateChannel` calls on a new `ChannelManager` runs through
(no call indexes the list outside its bounds) and ends in a state where the
current index is -1 exactly when the list is empty and is a position of the list
otherwise, `0 <= currentIndex < count`; in such a state with a non-empty list,
`currentChannel()` returns an element of the list. -/
theorem current_index_invariant (fromJson : String → Except String QJsonDocument)
    (calls : List ChannelCall) :
    ∃ mgr, ChannelManager.run fromJson ChannelManager.new calls = some mgr ∧
      (mgr.m_currentIndex = -1 ↔ mgr.m_channels = []) ∧
      (mgr.m_channels ≠ [] →
        0 ≤ mgr.m_currentIndex ∧ mgr.m_currentIndex < mgr.m_channels.length) ∧
      (mgr.m_channels ≠ [] → ∃ c, mgr.currentChannel = some c ∧ c ∈ mgr.m_channels) := by
  obtain ⟨mgr, hrun, hv⟩ := run_keeps_indexValid fromJson calls ChannelManager.new indexValid_new
  unfold ChannelManager.indexValid at hv
  refine ⟨mgr, hrun, ?_, ?_, ?_⟩
  · constructor
    · intro h1
      rcases hv with ⟨h0, _⟩ | h2
      · exact h0
      · omega
    · intro h0
      rcases hv with ⟨_, h1⟩ | h2
      · exact h1
      · rw [h0] at h2
        simp at h2
        omega
  · intro hne
    rcases hv with ⟨h0, _⟩ | h2
    · exact absurd h0 hne
    · exact h2
  · intro hne
    rcases hv with ⟨h0, _⟩ | h2
    · exact absurd h0 hne
    · obtain ⟨c, hc, hmem⟩ := channelAt_inRange mgr.m_channels mgr.m_currentIndex h2.1 h2.2
      refine ⟨c, ?_, hmem⟩
      unfold ChannelManager.currentChannel
      rw [if_pos (by omega), hc]

/-- Witness for C28: two channels are added, the second is selected and then
removed; the first is current afterwards. -/
theorem current_index_invariant_witness :
    ChannelManager.run (fun _ => Except.error "") ChannelManager.new
        [ChannelCall.addChannel ⟨"a", "u1"⟩, ChannelCall.addChannel ⟨"b", "u2"⟩,
          ChannelCall.setCurrentIndex 1, ChannelCall.removeChannel 1]
      = some ⟨[⟨"a", "u1"⟩], 0⟩ ∧
    (∃ mgr, ChannelManager.run (fun _ => Except.error "") ChannelManager.new
        [ChannelCall.addChannel ⟨"a", "u1"⟩, ChannelCall.addChannel ⟨"b", "u2"⟩,
          ChannelCall.setCurrentIndex 1, ChannelCall.removeChannel 1] = some mgr ∧
      (mgr.m_currentIndex = -1 ↔ mgr.m_channels = [])) :=
  ⟨by decide,
    (current_index_invariant (fun _ => Except.error "")
      [ChannelCall.addChannel ⟨"a", "u1"⟩, ChannelCall.addChannel ⟨"b", "u2"⟩,
        ChannelCall.setCurrentIndex 1, ChannelCall.removeChannel 1]).imp
      fun _ h => ⟨h.1, h.2.1⟩⟩

/-- C29 (failing input): three channels `a`, `b`, `c` are added to a new
`ChannelManager` and index 1 is selected, so `currentChannel()` is `b`; then
`removeChannel(0)`, an index other than the current one, returns true, emits
only `channelListChanged`, and leaves the current index at 1 in the list `b`,
`c`: `currentChannel()` is now `c`. -/
theorem removeChannel_before_current_moves_selection :
    ChannelManager.run (fun _ => Except.error "") ChannelManager.new
        [ChannelCall.addChannel ⟨"a", "u1"⟩, ChannelCall.addChannel ⟨"b", "u2"⟩,
          ChannelCall.addChannel ⟨"c", "u3"⟩, ChannelCall.setCurrentIndex 1]
      = some ⟨[⟨"a", "u1"⟩, ⟨"b", "u2"⟩, ⟨"c", "u3"⟩], 1⟩ ∧
    ChannelManager.currentChannel ⟨[⟨"a", "u1"⟩, ⟨"b", "u2"⟩, ⟨"c", "u3"⟩], 1⟩
      = some ⟨"b", "u2"⟩ ∧
    ChannelManager.removeChannel ⟨[⟨"a", "u1"⟩, ⟨"b", "u2"⟩, ⟨"c", "u3"⟩], 1⟩ 0
      = some (⟨[⟨"b", "u2"⟩, ⟨"c", "u3"⟩], 1⟩, true, [ChannelSignal.channelListChanged]) ∧
    ChannelManager.currentChannel ⟨[⟨"b", "u2"⟩, ⟨"c", "u3"⟩], 1⟩ = some ⟨"c", "u3"⟩ := by
  decide

theorem parseFile_array (fromJson : String → Except String QJsonDocument)
    (filePath text : String) (xs : List QJsonValue)
    (hx : fromJson text = Except.ok (QJsonDocument.array xs)) :
    JSONParser.parseFile fromJson (some text) filePath
      = Except.ok (xs.filterMap storedRecord) := by
  simp [JSONParser.parseFile, JSONParser.parseString, hx, JSONParser.parseDocument,
    parseLoop_eq]

/-- C30: `loadFromFile` returns false, leaves the channel list and the current
index as they were and emits no signal (it logs one warning) when the file does
not open, when `QJsonDocument::fromJson` reports a parse error for its text, and
when the document parsed is not an array.  When the document is an array it
returns true, the list becomes the records of the array's valid elements, the
current index becomes 0 when that list is non-empty and -1 when it is empty, and
the signals are `channelsLoaded`, `channelListChanged` and, for a non-empty
list, `currentChannelChanged` with its first record. -/
theorem failed_load_is_atomic (fromJson : String → Except String QJsonDocument)
    (mgr : ChannelManager) (filePath text e : String) (doc : QJsonDocument)
    (xs : List QJsonValue) :
    mgr.loadFromFile fromJson Option.none filePath
      = some (mgr, false, [],
          [⟨LogLevel.warning, ["Error loading channels:", "Could not open file: " ++ filePath]⟩]) ∧
    (fromJson text = Except.error e →
      mgr.loadFromFile fromJson (some text) filePath
        = some (mgr, false, [],
            [⟨LogLevel.warning, ["Error loading channels:", "JSON parse error: " ++ e]⟩])) ∧
    (fromJson text = Except.ok doc → (∀ ys, doc ≠ QJsonDocument.array ys) →
      mgr.loadFromFile fromJson (some text) filePath
        = some (mgr, false, [],
            [⟨LogLevel.warning, ["Error loading channels:", "JSON document is not an array"]⟩])) ∧
    (fromJson text = Except.ok (QJsonDocument.array xs) →
      mgr.loadFromFile fromJson (some text) filePath
        = some (⟨xs.filterMap storedRecord,
                  if xs.filterMap storedRecord = [] then -1 else 0⟩, true,
            ChannelSignal.channelsLoaded :: ChannelSignal.channelListChanged ::
              ((xs.filterMap storedRecord).head?.map ChannelSignal.currentChannelChanged).toList,
            [])) := by
  refine ⟨?_, ?_, ?_, ?_⟩
  · exact loadFromFile_error fromJson Option.none mgr filePath _ rfl
  · intro he
    apply loadFromFile_error
    simp [JSONParser.parseFile, JSONParser.parseString, he]
  · intro hd hna
    apply loadFromFile_error
    cases doc with
    | array ys => exact absurd rfl (hna ys)
    | null => simp [JSONParser.parseFile, JSONParser.parseString, hd, JSONParser.parseDocument]
    | object m => simp [JSONParser.parseFile, JSONParser.parseString, hd, JSONParser.parseDocument]
  · intro hx
    unfold ChannelManager.loadFromFile
    rw [parseFile_array fromJson filePath text xs hx]
    cases xs.filterMap storedRecord with
    | nil => rfl
    | cons c rest => simp [channelAt]

/-- Witness for C30: for a state with one channel, a file whose text the parser
rejects leaves the state as it was, and a file that holds an array with one
valid record replaces the list. -/
theorem failed_load_is_atomic_witness :
    ChannelManager.loadFromFile (fun _ => Except.error "illegal value") (some "x")
        ⟨[⟨"a", "u1"⟩], 0⟩ "channels.json"
      = some (⟨[⟨"a", "u1"⟩], 0⟩, false, [],
          [⟨LogLevel.warning, ["Error loading channels:",
            "JSON parse error: " ++ "illegal value"]⟩]) ∧
    ChannelManager.loadFromFile
        (fun _ => Except.ok (QJsonDocument.array
          [QJsonValue.object [("name", QJsonValue.string "b"), ("url", QJsonValue.string "u2")]]))
        (some "x") ⟨[⟨"a", "u1"⟩], 0⟩ "channels.json"
      = some (⟨[⟨"b", "u2"⟩], 0⟩, true,
          [ChannelSignal.channelsLoaded, ChannelSignal.channelListChanged,
            ChannelSignal.currentChannelChanged ⟨"b", "u2"⟩], []) :=
  ⟨(failed_load_is_atomic (fun _ => Except.error "illegal value") ⟨[⟨"a", "u1"⟩], 0⟩
      "channels.json" "x" "illegal value" QJsonDocument.null []).2.1 rfl,
    ((failed_load_is_atomic
      (fun _ => Except.ok (QJsonDocument.array
        [QJsonValue.object [("name", QJsonValue.string "b"), ("url", QJsonValue.string "u2")]]))
      ⟨[⟨"a", "u1"⟩], 0⟩ "channels.json" "x" "" QJsonDocument.null
      [QJsonValue.object [("name", QJsonValue.string "b"),
        ("url", QJsonValue.string "u2")]]).2.2.2 rfl).trans (by decide)⟩

/-! ## The playback projection -/

/-- C22 (failing input): the engine reports the volume 130.  `handleEvents`
publishes `propertyChanged("volume", 130)`, and the slot `onPropertyChanged` of a
newly built `PlaybackController` stores the number as it is and emits
`volumeChanged(130)`; `volume()` returns 130 afterwards, which is above 100.
For a value of type double the number stored is Qt's conversion of it to `int`,
again without a bound. -/
theorem volume_event_leaves_range (qt : QtConversions) (errorString : Int → String)
    (bits : Nat) :
    (MPVCore.handleEvents errorString
        (MPVCore.withEngine { MpvHandle.idle with events :=
          [MpvEvent.propertyChange
            (some ⟨utf8Buffer "volume", PropertyData.node (MpvNode.int64 130)⟩)] })).2
      = [Signal.propertyChanged "volume" (QVariant.longLong 130)] ∧
    (PlaybackController.new qt errorString (MPVCore.withEngine MpvHandle.idle)).volume = 100 ∧
    (PlaybackController.onPropertyChanged qt
        (PlaybackController.new qt errorString (MPVCore.withEngine MpvHandle.idle))
        "volume" (QVariant.longLong 130)).2 = [PlaybackSignal.volumeChanged 130] ∧
    (PlaybackController.onPropertyChanged qt
        (PlaybackController.new qt errorString (MPVCore.withEngine MpvHandle.idle))
        "volume" (QVariant.longLong 130)).1.volume = 130 ∧
    ¬ ((130 : Int) ≤ 100) ∧
    (PlaybackController.onPropertyChanged qt
        (PlaybackController.new qt errorString (MPVCore.withEngine MpvHandle.idle))
        "volume" (QVariant.double bits)).1.volume = qt.doubleToInt bits := by
  refine ⟨?_, ?_, ?_, ?_, by decide, ?_⟩
  · rfl
  · rfl
  · rfl
  · rfl
  · rfl

theorem qBound_eq (v : Int) : qBound 0 v 100 = min 100 (max 0 v) := by
  unfold qBound
  omega

theorem setProperty_int (errorString : Int → String) (core : MPVCore) (h : MpvHandle)
    (heap : Heap) (name : String) (i : Int) :
    (MPVCore.setProperty errorString { core with m_mpv := some h } heap name (QVariant.int i)).1
      = { core with m_mpv := some (mpv_set_property_async h 0 (utf8Buffer name)
          (MpvNode.int64 i)).2 } ∧
    (MPVCore.setProperty errorString { core with m_mpv := some h } heap name
      (QVariant.int i)).2.1 = heap := by
  simp [MPVCore.setProperty, variantToMpvNode, freeMpvNode]

theorem setProperty_bool (errorString : Int → String) (core : MPVCore) (h : MpvHandle)
    (heap : Heap) (name : String) (b : Bool) :
    (MPVCore.setProperty errorString { core with m_mpv := some h } heap name
      (QVariant.bool b)).1
      = { core with m_mpv := some (mpv_set_property_async h 0 (utf8Buffer name)
          (MpvNode.flag (if b then 1 else 0))).2 } ∧
    (MPVCore.setProperty errorString { core with m_mpv := some h } heap name
      (QVariant.bool b)).2.1 = heap := by
  simp [MPVCore.setProperty, variantToMpvNode, freeMpvNode]

theorem asyncSets_after_set (h : MpvHandle) (name : String) (hn : noNul name = true)
    (node : MpvNode) :
    (mpv_set_property_async h 0 (utf8Buffer name) node).2.asyncSets
      = h.asyncSets ++ [(name, node)] := by
  unfold mpv_set_property_async
  rw [fromUtf8_utf8Buffer name hn]
  by_cases hr : h.setReply < 0
  · simp [hr]
  · simp [hr]

/-- C23: for every integer `v` that differs from the cached volume,
`setVolume(v)` on a controller whose handle has an engine instance sets the
cached volume to `min(100, max(0, v))`, submits that number as the one new
value of `volume` to the engine and emits one `volumeChanged` with it; when the
controller is muted and the number is above 0 the unmute follows: `mute` false
is submitted and `muteChanged(false)` is emitted after them.  When `v` equals
the cached volume nothing is submitted, nothing is emitted and the state is
unchanged. -/
theorem setVolume_clamps (errorString : Int → String) (ctl : PlaybackController)
    (core : MPVCore) (h : MpvHandle) (heap : Heap) (v : Int) :
    (v ≠ ctl.m_volume →
      (PlaybackController.setVolume errorString
          { ctl with m_mpvCore := { core with m_mpv := some h } } heap v).1.m_volume
        = min 100 (max 0 v) ∧
      (PlaybackController.setVolume errorString
          { ctl with m_mpvCore := { core with m_mpv := some h } } heap v).1.m_mpvCore.m_mpv.map
            (fun engine => engine.asyncSets)
        = some (h.asyncSets ++ ("volume", MpvNode.int64 (min 100 (max 0 v))) ::
            (if 0 < min 100 (max 0 v) ∧ ctl.m_isMuted = true then [("mute", MpvNode.flag 0)]
             else [])) ∧
      (PlaybackController.setVolume errorString
          { ctl with m_mpvCore := { core with m_mpv := some h } } heap v).2.2.1
        = PlaybackSignal.volumeChanged (min 100 (max 0 v)) ::
            (if 0 < min 100 (max 0 v) ∧ ctl.m_isMuted = true
             then [PlaybackSignal.muteChanged false] else [])) ∧
    (v = ctl.m_volume →
      PlaybackController.setVolume errorString ctl heap v = (ctl, heap, [], [])) := by
  constructor
  · intro hne
    have hv : noNul "volume" = true := by decide
    have hm : noNul "mute" = true := by decide
    unfold PlaybackController.setVolume
    simp only [ne_eq, hne, not_false_eq_true, if_true, MPVCore.setVolume, qBound_eq]
    by_cases hc : 0 < min 100 (max 0 v) ∧ ctl.m_isMuted = true
    · have hc' : min 100 (max 0 v) > 0 ∧ ctl.m_isMuted = true := hc
      simp only [hc, hc', if_true, PlaybackController.setMute, hc.2, setProperty_int,
        setProperty_bool, bne_iff_ne, ne_eq, Bool.false_eq_true, not_false_eq_true,
        Option.map_some', asyncSets_after_set _ _ hv, asyncSets_after_set _ _ hm]
      simp [asyncSets_after_set _ _ hv, asyncSets_after_set _ _ hm]
    · have hc' : ¬ (min 100 (max 0 v) > 0 ∧ ctl.m_isMuted = true) := hc
      simp only [hc, hc', if_false, setProperty_int, Option.map_some',
        asyncSets_after_set _ _ hv]
      simp
  · intro he
    unfold PlaybackController.setVolume
    simp [he]

/-- Witness for C23: `setVolume(150)` on a muted controller whose cached volume
is 40. -/
theorem setVolume_clamps_witness :
    (150 : Int) ≠ 40 ∧
    (PlaybackController.setVolume (fun _ => "")
        { m_mpvCore := MPVCore.withEngine MpvHandle.idle, m_isPlaying := false, m_duration := 0,
          m_position := 0, m_volume := 40, m_isMuted := true, m_lastVolume := 100 }
        Heap.empty 150).2.2.1
      = [PlaybackSignal.volumeChanged 100, PlaybackSignal.muteChanged false] :=
  ⟨by decide,
    ((setVolume_clamps (fun _ => "")
      { m_mpvCore := MPVCore.withEngine MpvHandle.idle, m_isPlaying := false, m_duration := 0,
        m_position := 0, m_volume := 40, m_isMuted := true, m_lastVolume := 100 }
      (MPVCore.withEngine MpvHandle.idle) MpvHandle.idle Heap.empty 150).1
        (by decide)).2.2.trans rfl⟩

theorem onPropertyChanged_isPlaying (qt : QtConversions) (ctl : PlaybackController)
    (name : String) (value : QVariant) :
    (PlaybackController.onPropertyChanged qt ctl name value).1.m_isPlaying
      = if name = "pause" then !value.toBool else ctl.m_isPlaying := by
  unfold PlaybackController.onPropertyChanged
  split_ifs <;> simp_all

theorem onPropertyChanged_volume (qt : QtConversions) (ctl : PlaybackController)
    (name : String) (value : QVariant) :
    (PlaybackController.onPropertyChanged qt ctl name value).1.m_volume
      = if name = "volume" then value.toInt qt else ctl.m_volume := by
  unfold PlaybackController.onPropertyChanged
  split_ifs <;> simp_all

theorem onPropertyChanged_isMuted (qt : QtConversions) (ctl : PlaybackController)
    (name : String) (value : QVariant) :
    (PlaybackController.onPropertyChanged qt ctl name value).1.m_isMuted
      = if name = "mute" then value.toBool else ctl.m_isMuted := by
  unfold PlaybackController.onPropertyChanged
  split_ifs <;> simp_all

theorem applyEvents_append (qt : QtConversions) (pre post : List (String × QVariant)) :
    ∀ ctl : PlaybackController,
      (PlaybackController.applyEvents qt ctl (pre ++ post)).1
        = (PlaybackController.applyEvents qt
            (PlaybackController.applyEvents qt ctl pre).1 post).1 := by
  induction pre with
  | nil => intro ctl; rfl
  | cons e rest ih =>
    intro ctl
    obtain ⟨name, value⟩ := e
    simp only [List.cons_append, PlaybackController.applyEvents]
    exact ih _

theorem applyEvents_keeps_isPlaying (qt : QtConversions) (events : List (String × QVariant)) :
    ∀ ctl : PlaybackController, (∀ e ∈ events, e.1 ≠ "pause") →
      (PlaybackController.applyEvents qt ctl events).1.m_isPlaying = ctl.m_isPlaying := by
  induction events with
  | nil => intro ctl _; rfl
  | cons e rest ih =>
    intro ctl hno
    obtain ⟨name, value⟩ := e
    simp only [PlaybackController.applyEvents]
    rw [ih _ (fun x hx => hno x (List.mem_cons_of_mem _ hx)), onPropertyChanged_isPlaying,
      if_neg (hno (name, value) (List.mem_cons_self _ _))]

theorem applyEvents_keeps_volume (qt : QtConversions) (events : List (String × QVariant)) :
    ∀ ctl : PlaybackController, (∀ e ∈ events, e.1 ≠ "volume") →
      (PlaybackController.applyEvents qt ctl events).1.m_volume = ctl.m_volume := by
  induction events with
  | nil => intro ctl _; rfl
  | cons e rest ih =>
    intro ctl hno
    obtain ⟨name, value⟩ := e
    simp only [PlaybackController.applyEvents]
    rw [ih _ (fun x hx => hno x (List.mem_cons_of_mem _ hx)), onPropertyChanged_volume,
      if_neg (hno (name, value) (List.mem_cons_self _ _))]

theorem applyEvents_keeps_isMuted (qt : QtConversions) (events : List (String × QVariant)) :
    ∀ ctl : PlaybackController, (∀ e ∈ events, e.1 ≠ "mute") →
      (PlaybackController.applyEvents qt ctl events).1.m_isMuted = ctl.m_isMuted := by
  induction events with
  | nil => intro ctl _; rfl
  | cons e rest ih =>
    intro ctl hno
    obtain ⟨name, value⟩ := e
    simp only [PlaybackController.applyEvents]
    rw [ih _ (fun x hx => hno x (List.mem_cons_of_mem _ hx)), onPropertyChanged_isMuted,
      if_neg (hno (name, value) (List.mem_cons_self _ _))]

/-- C27 (counterexample): on a newly built controller, whose position is 0.0,
the event `propertyChanged("time-pos", 1.0)`, a name other than `pause`,
`volume` and `mute`, sets the position field to 1.0 and emits
`positionChanged(1.0)`. -/
theorem projection_fold_counterexample :
    "time-pos" ≠ "pause" ∧ "time-pos" ≠ "volume" ∧ "time-pos" ≠ "mute" ∧
    (PlaybackController.new ⟨fun _ => 0, fun _ => 0, fun _ => 0, fun _ => 0⟩ (fun _ => "")
      (MPVCore.withEngine MpvHandle.idle)).m_position = 0 ∧
    (PlaybackController.onPropertyChanged ⟨fun _ => 0, fun _ => 0, fun _ => 0, fun _ => 0⟩
        (PlaybackController.new ⟨fun _ => 0, fun _ => 0, fun _ => 0, fun _ => 0⟩ (fun _ => "")
          (MPVCore.withEngine MpvHandle.idle))
        "time-pos" (QVariant.double 4607182418800017408)).1.m_position
      = 4607182418800017408 ∧
    (PlaybackController.onPropertyChanged ⟨fun _ => 0, fun _ => 0, fun _ => 0, fun _ => 0⟩
        (PlaybackController.new ⟨fun _ => 0, fun _ => 0, fun _ => 0, fun _ => 0⟩ (fun _ => "")
          (MPVCore.withEngine MpvHandle.idle))
        "time-pos" (QVariant.double 4607182418800017408)).2
      = [PlaybackSignal.positionChanged 4607182418800017408] :=
  ⟨by decide, by decide, by decide, rfl, rfl, rfl⟩

/-- C27 (amended): after the slot has run for a sequence of `propertyChanged`
signals, `isPlaying` is the negation of `toBool` of the value of the last
`pause` signal, the volume is `toInt` of the value of the last `volume` signal
and the muted flag is `toBool` of the value of the last `mute` signal; a field
with no such signal in the sequence keeps its initial value.  A signal whose
name is none of `time-pos`, `duration`, `pause`, `volume` and `mute` changes no
field and emits nothing; `time-pos` sets the position and emits
`positionChanged`, `duration` sets the duration and emits `durationChanged`. -/
theorem projection_is_fold (qt : QtConversions) (ctl : PlaybackController)
    (events pre post : List (String × QVariant)) (name : String) (value : QVariant) :
    ((∀ e ∈ post, e.1 ≠ "pause") →
      (PlaybackController.applyEvents qt ctl (pre ++ ("pause", value) :: post)).1.m_isPlaying
        = !value.toBool) ∧
    ((∀ e ∈ events, e.1 ≠ "pause") →
      (PlaybackController.applyEvents qt ctl events).1.m_isPlaying = ctl.m_isPlaying) ∧
    ((∀ e ∈ post, e.1 ≠ "volume") →
      (PlaybackController.applyEvents qt ctl (pre ++ ("volume", value) :: post)).1.m_volume
        = value.toInt qt) ∧
    ((∀ e ∈ events, e.1 ≠ "volume") →
      (PlaybackController.applyEvents qt ctl events).1.m_volume = ctl.m_volume) ∧
    ((∀ e ∈ post, e.1 ≠ "mute") →
      (PlaybackController.applyEvents qt ctl (pre ++ ("mute", value) :: post)).1.m_isMuted
        = value.toBool) ∧
    ((∀ e ∈ events, e.1 ≠ "mute") →
      (PlaybackController.applyEvents qt ctl events).1.m_isMuted = ctl.m_isMuted) ∧
    (name ≠ "time-pos" → name ≠ "duration" → name ≠ "pause" → name ≠ "volume" →
      name ≠ "mute" → PlaybackController.onPropertyChanged qt ctl name value = (ctl, [])) ∧
    PlaybackController.onPropertyChanged qt ctl "time-pos" value
      = ({ ctl with m_position := value.toDouble qt },
          [PlaybackSignal.positionChanged (value.toDouble qt)]) ∧
    PlaybackController.onPropertyChanged qt ctl "duration" value
      = ({ ctl with m_duration := value.toDouble qt },
          [PlaybackSignal.durationChanged (value.toDouble qt)]) := by
  refine ⟨?_, applyEvents_keeps_isPlaying qt events ctl, ?_,
    applyEvents_keeps_volume qt events ctl, ?_, applyEvents_keeps_isMuted qt events ctl,
    ?_, rfl, rfl⟩
  · intro hno
    rw [applyEvents_append]
    simp only [PlaybackController.applyEvents]
    rw [applyEvents_keeps_isPlaying qt post _ hno, onPropertyChanged_isPlaying, if_pos rfl]
  · intro hno
    rw [applyEvents_append]
    simp only [PlaybackController.applyEvents]
    rw [applyEvents_keeps_volume qt post _ hno, onPropertyChanged_volume, if_pos rfl]
  · intro hno
    rw [applyEvents_append]
    simp only [PlaybackController.applyEvents]
    rw [applyEvents_keeps_isMuted qt post _ hno, onPropertyChanged_isMuted, if_pos rfl]
  · intro h1 h2 h3 h4 h5
    simp [PlaybackController.onPropertyChanged, h1, h2, h3, h4, h5]

/-- Witness for C27: the signals `pause` true, `volume` 30, `time-pos` 1.0,
`pause` false, `media-title` reach a controller; the last `pause` signal carries
false, so the controller is playing, and the volume is 30. -/
theorem projection_is_fold_witness :
    (∀ e ∈ [(("media-title", QVariant.string "x") : String × QVariant)], e.1 ≠ "pause") ∧
    (PlaybackController.applyEvents ⟨fun _ => 0, fun _ => 0, fun _ => 0, fun _ => 0⟩
        (PlaybackController.new ⟨fun _ => 0, fun _ => 0, fun _ => 0, fun _ => 0⟩ (fun _ => "")
          (MPVCore.withEngine MpvHandle.idle))
        ([("pause", QVariant.bool true), ("volume", QVariant.longLong 30),
            ("time-pos", QVariant.double 4607182418800017408)] ++
          ("pause", QVariant.bool false) :: [("media-title", QVariant.string "x")])).1.m_isPlaying
      = true :=
  ⟨by simp,
    (projection_is_fold ⟨fun _ => 0, fun _ => 0, fun _ => 0, fun _ => 0⟩
      (PlaybackController.new ⟨fun _ => 0, fun _ => 0, fun _ => 0, fun _ => 0⟩ (fun _ => "")
        (MPVCore.withEngine MpvHandle.idle))
      []
      [("pause", QVariant.bool true), ("volume", QVariant.longLong 30),
        ("time-pos", QVariant.double 4607182418800017408)]
      [("media-title", QVariant.string "x")] "" (QVariant.bool false)).1 (by simp)⟩

end TvLearn
